import Mathlib

/-!
# Topology-aware snapping (liblwgeom/topo/lwgeom_topo_snap.c)

A shallow embedding of the snapping engine, and theorems about it.  The
coordinate, value and feature encoders of the Geobuf output
(postgis/geobuf.c) follow in the namespace `Geobuf`.

Conventions of the embedding.

* C `double` is idealised as a linearly ordered field `α` (exact arithmetic,
  no NaN, no rounding).  Concrete runs use `ℚ`.
* A `POINTARRAY` is the list of its points (`npoints` is the length); every
  point is kept as a `POINT4D`, a 2-D array having `z = m = 0`.
* Routines of liblwgeom, GEOS and the topology backend that are called by the
  source but are not part of it are collected in the records `Kernel` and
  `LWT_TOPOLOGY`; general theorems quantify over them.
* C functions returning `-1` on error return `Option` (`none` is the error).
  The `while` loops of the source take a fuel argument and return an
  `Outcome`, which tells a normal return from an error and from exhausted fuel.
* The state record is passed explicitly and returned by every routine that
  may fill the edge cache.
-/

namespace TopoSnap

/-! ## Data model -/

/-- Planar point (`POINT2D`). -/
structure POINT2D (α : Type) where
  x : α
  y : α
deriving DecidableEq

/-- Point with all four ordinates (`POINT4D`). -/
structure POINT4D (α : Type) where
  x : α
  y : α
  z : α
  m : α
deriving DecidableEq

/-- The point array: the list of its points. -/
abbrev POINTARRAY (α : Type) := List (POINT4D α)

/-- Bounding box (`GBOX`), planar part. -/
structure GBOX (α : Type) where
  xmin : α
  xmax : α
  ymin : α
  ymax : α
deriving DecidableEq

/-- A topology edge as returned by the backend; `geom` is the edge line. -/
structure LWT_ISO_EDGE (α : Type) where
  edge_id : Int
  geom : POINTARRAY α
deriving DecidableEq

/-- Reference vertex: a vertex of a topology edge, with the closest segment of
the input point array (0-based index) and the distance to it. -/
structure LWT_SNAPV (α : Type) where
  pt : POINT2D α
  segno : Int
  dist : α
deriving DecidableEq

/-- Result of a routine whose loop is run with fuel. -/
inductive Outcome (β : Type) where
  | ret (val : β) : Outcome β
  | error : Outcome β
  | nofuel : Outcome β

/-- The routines of liblwgeom and GEOS that the source calls and does not define.
`lw_dist2d_pt_seg p a b` is the distance the library leaves in `dl.distance`
(`none` when it returns `LW_FALSE`); `GEOSCovers edge p1 p2` is `none` for the
exception value 2; `unwritten` is the content of an output buffer that a
`getPoint*_p` call with an index outside the array leaves as it was. -/
structure Kernel (α : Type) where
  FLT_MAX : α
  lw_dist2d_pt_seg : POINT2D α → POINT2D α → POINT2D α → Option α
  closest_point_on_segment : POINT4D α → POINT4D α → POINT4D α → POINT4D α
  GEOSCovers : POINTARRAY α → POINT4D α → POINT4D α → Option Bool
  unwritten : POINT4D α

/-- The topology handle: the Edge Store lookup by bounding box (`none` is a
backend failure). -/
structure LWT_TOPOLOGY (α : Type) where
  edges_within_box : GBOX α → Option (List (LWT_ISO_EDGE α))

/-- The state record `lwgeom_tpsnap_state`.  `workedges = none` is the NULL
pointer; `num_workedges` is the stored count, `-1` after a backend error. -/
structure lwgeom_tpsnap_state (α : Type) where
  topo : LWT_TOPOLOGY α
  tolerance_snap : α
  tolerance_removal : α
  iterate : Bool
  workext : GBOX α
  expanded_workext : GBOX α
  workedges : Option (List (LWT_ISO_EDGE α))
  num_workedges : Int

/-- Modelled from the spec: the type tags of the collection-shaped geometries
(`LWCOLLECTION` and the structs laid out like it), declared in `liblwgeom.h`,
absent from the sources. -/
inductive LWCOLLECTION_TYPE where
  | MULTIPOINTTYPE
  | MULTILINETYPE
  | MULTIPOLYGONTYPE
  | COLLECTIONTYPE
  | COMPOUNDTYPE
  | CURVEPOLYTYPE
  | MULTICURVETYPE
  | MULTISURFACETYPE
  | POLYHEDRALSURFACETYPE
  | TINTYPE
deriving DecidableEq

/-- Modelled from the spec: the geometry tree `LWGEOM`, declared in
`liblwgeom.h`, absent from the sources: a tagged variant.  `LWPOINT` is
`POINTTYPE`, `LWLINE` is `LINETYPE`, `LWPOLY` is `POLYGONTYPE` with its rings,
`LWCIRCSTRING` is `CIRCSTRINGTYPE`, `LWTRIANGLE` is `TRIANGLETYPE`, and
`LWCOLLECTION` carries its tag and its member geometries. -/
inductive LWGEOM (α : Type) where
  | LWPOINT (point : POINTARRAY α) : LWGEOM α
  | LWLINE (points : POINTARRAY α) : LWGEOM α
  | LWPOLY (rings : List (POINTARRAY α)) : LWGEOM α
  | LWCIRCSTRING (points : POINTARRAY α) : LWGEOM α
  | LWTRIANGLE (points : POINTARRAY α) : LWGEOM α
  | LWCOLLECTION (type : LWCOLLECTION_TYPE) (geoms : List (LWGEOM α)) : LWGEOM α

/-- Source `rtptarray_visitor`: a visitor receives a point array and the user
data, may change both, and returns 0 (here `ret`) or an error. -/
abbrev rtptarray_visitor (α σ : Type) :=
  POINTARRAY α → σ → Outcome (POINTARRAY α × σ)

section Engine

variable {α : Type} [LinearOrderedField α]

/-! ## Library routines modelled from their contract -/

/-- The planar part of a point (what `getPoint2d_p` copies out). -/
def POINT4D.xy (p : POINT4D α) : POINT2D α := ⟨p.x, p.y⟩

/-- Modelled from the spec: `getPoint4d_p`, absent from the sources.  Copies
point `n` into the buffer; an index outside the array leaves the buffer
`op` as it was. -/
def getPoint4d_p (pa : POINTARRAY α) (n : Int) (op : POINT4D α) : POINT4D α :=
  if 0 ≤ n then (pa.get? n.toNat).getD op else op

/-- Modelled from the spec: `getPoint2d_p`, absent from the sources. -/
def getPoint2d_p (pa : POINTARRAY α) (n : Int) (op : POINT2D α) : POINT2D α :=
  if 0 ≤ n then ((pa.get? n.toNat).map POINT4D.xy).getD op else op

/-- Modelled from the spec: `p4d_same`, bit-exact equality of the four stored
ordinates. -/
def p4d_same (a b : POINT4D α) : Bool := decide (a = b)

/-- Modelled from the spec: `insert_point(P, i, pt)`, absent from the sources
(`ptarray_insert_point`): inserts at index `i`, refused when `i` is beyond
the last index plus one. -/
def ptarray_insert_point (pa : POINTARRAY α) (p : POINT4D α) (i : Nat) :
    Option (POINTARRAY α) :=
  if i ≤ pa.length then some (pa.take i ++ p :: pa.drop i) else none

/-- Modelled from the spec: `remove_point(P, i)`, absent from the sources
(`ptarray_remove_point`): removes the point at index `i`, refused when there
is no such point. -/
def ptarray_remove_point (pa : POINTARRAY α) (i : Nat) : Option (POINTARRAY α) :=
  if i < pa.length then some (pa.eraseIdx i) else none

/-- Modelled from the spec: `bbox_of(P)`, absent from the sources
(`ptarray_calculate_gbox_cartesian`).  An empty array makes the call fail and
leaves the box `old` as it was (the source does not test the status). -/
def ptarray_calculate_gbox_cartesian (pa : POINTARRAY α) (old : GBOX α) : GBOX α :=
  match pa with
  | [] => old
  | p :: rest =>
    rest.foldl
      (fun b q => ⟨min b.xmin q.x, max b.xmax q.x, min b.ymin q.y, max b.ymax q.y⟩)
      ⟨p.x, p.x, p.y, p.y⟩

/-- Modelled from the spec: `bbox_expand(box, r)`, absent from the sources
(`gbox_expand`): grows the box by `d` on each side. -/
def gbox_expand (g : GBOX α) (d : α) : GBOX α :=
  ⟨g.xmin - d, g.xmax + d, g.ymin - d, g.ymax + d⟩

/-- Modelled from the spec: `lwt_be_getEdgeWithinBox2D`, absent from the
sources.  Returns the edge array and the element count: NULL with count 0 when
there is no edge, NULL with count -1 on error. -/
def lwt_be_getEdgeWithinBox2D (topo : LWT_TOPOLOGY α) (box : GBOX α) :
    Option (List (LWT_ISO_EDGE α)) × Int :=
  match topo.edges_within_box box with
  | none => (none, -1)
  | some [] => (none, 0)
  | some (e :: es) => (some (e :: es), ((e :: es).length : Int))

/-- Modelled from the spec: C library `qsort` with comparator `cmp`: the array
is rearranged into ascending order of `cmp` (here by insertion). -/
def qsort {β : Type} (cmp : β → β → Int) (l : List β) : List β :=
  l.insertionSort (fun a b => cmp a b ≤ 0)

/-! ## The source, function by function -/

/-- Source `lwgeom_tpsnap_state_get_edges`: fetches the edges of the expanded
work extent when none are cached; returns the state, `*num_edges` and the edge
array (the empty list for NULL). -/
def lwgeom_tpsnap_state_get_edges (state : lwgeom_tpsnap_state α) :
    lwgeom_tpsnap_state α × Int × List (LWT_ISO_EDGE α) :=
  let state1 :=
    match state.workedges with
    | none =>
      let r := lwt_be_getEdgeWithinBox2D state.topo state.expanded_workext
      { state with workedges := r.1, num_workedges := r.2 }
    | some _ => state
  (state1, state1.num_workedges, state1.workedges.getD [])

/-- Loop of `_rt_find_closest_segment`: `s0` is the start of segment `j`, the
list holds the points from index `j+1` on. -/
def closest_segment_loop (K : Kernel α) (pt : POINT2D α) :
    POINT2D α → List (POINT4D α) → Int → Int → α → Option (Int × α)
  | _, [], _, segno, dist => some (segno, dist)
  | s0, q :: rest, j, segno, dist =>
    match K.lw_dist2d_pt_seg pt s0 q.xy with
    | none => none
    | some d =>
      if d < dist then closest_segment_loop K pt q.xy rest (j + 1) j d
      else closest_segment_loop K pt q.xy rest (j + 1) segno dist

/-- Source `_rt_find_closest_segment`: closest segment of `pa` to `pt`, as
`(segno, dist)`; `none` on error. -/
def _rt_find_closest_segment (K : Kernel α) (pt : POINT2D α) (pa : POINTARRAY α) :
    Option (Int × α) :=
  if pa.length < 2 then some (-1, K.FLT_MAX)
  else
    match pa with
    | [] => some (-1, K.FLT_MAX)
    | p0 :: rest => closest_segment_loop K pt p0.xy rest 0 (-1) K.FLT_MAX

/-- Loop of `_rt_extract_vertices_within_dist` over the points of the edge. -/
def extract_vertices_loop (K : Kernel α) (state : lwgeom_tpsnap_state α)
    (pa : POINTARRAY α) : List (POINT4D α) → List (LWT_SNAPV α) → Option (List (LWT_SNAPV α))
  | [], vset => some vset
  | q :: rest, vset =>
    if q.x < state.expanded_workext.xmin ∨ q.x > state.expanded_workext.xmax ∨
       q.y < state.expanded_workext.ymin ∨ q.y > state.expanded_workext.ymax then
      extract_vertices_loop K state pa rest vset
    else
      match _rt_find_closest_segment K q.xy pa with
      | none => none
      | some (segno, dist) =>
        if dist ≤ state.tolerance_snap then
          extract_vertices_loop K state pa rest (vset ++ [⟨q.xy, segno, dist⟩])
        else extract_vertices_loop K state pa rest vset

/-- Source `_rt_extract_vertices_within_dist`. -/
def _rt_extract_vertices_within_dist (K : Kernel α) (state : lwgeom_tpsnap_state α)
    (vset : List (LWT_SNAPV α)) (edge : POINTARRAY α) (pa : POINTARRAY α) :
    Option (List (LWT_SNAPV α)) :=
  extract_vertices_loop K state pa edge vset

/-- Loop of `_rt_find_vertices_within_dist` over the edges. -/
def find_vertices_loop (K : Kernel α) (state : lwgeom_tpsnap_state α)
    (pa : POINTARRAY α) : List (LWT_ISO_EDGE α) → List (LWT_SNAPV α) →
    Option (List (LWT_SNAPV α))
  | [], vset => some vset
  | e :: rest, vset =>
    match _rt_extract_vertices_within_dist K state vset e.geom pa with
    | none => none
    | some vset1 => find_vertices_loop K state pa rest vset1

/-- Source `_rt_find_vertices_within_dist`. -/
def _rt_find_vertices_within_dist (K : Kernel α) (vset : List (LWT_SNAPV α))
    (pa : POINTARRAY α) (state : lwgeom_tpsnap_state α) :
    Option (List (LWT_SNAPV α) × lwgeom_tpsnap_state α) :=
  match lwgeom_tpsnap_state_get_edges state with
  | (state1, num_edges, edges) =>
    if num_edges = -1 then none
    else
      match find_vertices_loop K state1 pa (edges.take num_edges.toNat) vset with
      | none => none
      | some vset1 => some (vset1, state1)

/-- Source `compare_snapv`. -/
def compare_snapv (a b : LWT_SNAPV α) : Int :=
  if a.dist < b.dist then -1
  else if a.dist > b.dist then 1
  else if a.pt.x < b.pt.x then -1
  else if a.pt.x > b.pt.x then 1
  else if a.pt.y < b.pt.y then -1
  else if a.pt.y > b.pt.y then 1
  else 0

/-- Inner loop of `_lwgeom_tpsnap_ptarray_remove` over the edges: the running
`(closest_segment_edge, closest_segment_number, closest_segment_distance)`. -/
def closest_edge_loop (K : Kernel α) (state : lwgeom_tpsnap_state α) (V : POINT2D α) :
    List (LWT_ISO_EDGE α) → Option (POINTARRAY α) → Int → α →
    Option (Option (POINTARRAY α) × Int × α)
  | [], cedge, cnum, cdist => some (cedge, cnum, cdist)
  | e :: rest, cedge, cnum, cdist =>
    match _rt_find_closest_segment K V e.geom with
    | none => none
    | some (segno, dist) =>
      if dist > state.tolerance_removal then
        closest_edge_loop K state V rest cedge cnum cdist
      else if dist < cdist then
        closest_edge_loop K state V rest (some e.geom) segno dist
      else closest_edge_loop K state V rest cedge cnum cdist

/-- Loop of `_lwgeom_tpsnap_ptarray_remove` over the vertices of `pa`.
`cnum0` is the content of the local `closest_segment_number` before it is
assigned. -/
def remove_loop (K : Kernel α) (state : lwgeom_tpsnap_state α)
    (edges : List (LWT_ISO_EDGE α)) (cnum0 : Int) :
    Nat → Nat → POINTARRAY α → Int → Outcome (Int × POINTARRAY α)
  | fuel, i, pa, removed =>
    if (i : Int) < (pa.length : Int) - 1 then
      match fuel with
      | 0 => Outcome.nofuel
      | fuel1 + 1 =>
        let V := getPoint2d_p pa i K.unwritten.xy
        match closest_edge_loop K state V edges none cnum0 (state.tolerance_removal + 1) with
        | none => Outcome.error
        | some (none, _, _) => remove_loop K state edges cnum0 fuel1 (i + 1) pa removed
        | some (some epa, cnum, _) =>
          let V4d : POINT4D α := ⟨V.x, V.y, 0, 0⟩
          let Ep1 := getPoint4d_p epa cnum K.unwritten
          let Ep2 := getPoint4d_p epa (cnum + 1) K.unwritten
          let proj := K.closest_point_on_segment V4d Ep1 Ep2
          if p4d_same proj Ep1 || p4d_same proj Ep2 then
            remove_loop K state edges cnum0 fuel1 (i + 1) pa removed
          else
            match ptarray_remove_point pa i with
            | none => Outcome.error
            | some pa1 => remove_loop K state edges cnum0 fuel1 i pa1 (removed + 1)
    else Outcome.ret (removed, pa)

/-- Source `_lwgeom_tpsnap_ptarray_remove`: the vertex removal phase.  Returns
the number of points removed, the array and the state. -/
def _lwgeom_tpsnap_ptarray_remove (K : Kernel α) (pa : POINTARRAY α)
    (state : lwgeom_tpsnap_state α) :
    Outcome (Int × POINTARRAY α × lwgeom_tpsnap_state α) :=
  match lwgeom_tpsnap_state_get_edges state with
  | (state1, num_edges, edges) =>
    if num_edges = -1 then Outcome.error
    else
      match remove_loop K state1 (edges.take num_edges.toNat) 0 pa.length 1 pa 0 with
      | Outcome.ret (removed, pa1) => Outcome.ret (removed, pa1, state1)
      | Outcome.error => Outcome.error
      | Outcome.nofuel => Outcome.nofuel

/-- Loop of `_rt_segment_covered` over the edges. -/
def segment_covered_loop (K : Kernel α) (p1 p2 : POINT4D α) :
    List (LWT_ISO_EDGE α) → Option Bool
  | [] => some false
  | e :: rest =>
    match K.GEOSCovers e.geom p1 p2 with
    | none => none
    | some true => some true
    | some false => segment_covered_loop K p1 p2 rest

/-- Source `_rt_segment_covered`: `some true` if covered, `some false` if not,
`none` on error. -/
def _rt_segment_covered (K : Kernel α) (state : lwgeom_tpsnap_state α)
    (p1 p2 : POINT4D α) : Option (Bool × lwgeom_tpsnap_state α) :=
  match lwgeom_tpsnap_state_get_edges state with
  | (state1, num_edges, edges) =>
    if num_edges = -1 then none
    else
      match segment_covered_loop K p1 p2 (edges.take num_edges.toNat) with
      | none => none
      | some c => some (c, state1)

/-- Source `_rt_snap_to_valid_vertex`: `some (true, ..)` if snapped,
`some (false, ..)` if no valid snap was found, `none` on error. -/
def _rt_snap_to_valid_vertex (K : Kernel α) (pa : POINTARRAY α) (v : LWT_SNAPV α)
    (state : lwgeom_tpsnap_state α) :
    Option (Bool × POINTARRAY α × lwgeom_tpsnap_state α) :=
  let p : POINT4D α := ⟨v.pt.x, v.pt.y, 0, 0⟩
  let sp1 := getPoint4d_p pa v.segno K.unwritten
  let sp2 := getPoint4d_p pa (v.segno + 1) K.unwritten
  let proj := K.closest_point_on_segment p sp1 sp2
  if p4d_same proj sp1 || p4d_same proj sp2 then some (false, pa, state)
  else
    match _rt_segment_covered K state sp1 sp2 with
    | none => none
    | some (true, state1) => some (false, pa, state1)
    | some (false, state1) =>
      match ptarray_insert_point pa p (v.segno + 1).toNat with
      | none => none
      | some pa1 => some (true, pa1, state1)

/-- Source `_rt_snap_to_first_valid_vertex`. -/
def _rt_snap_to_first_valid_vertex (K : Kernel α) :
    POINTARRAY α → List (LWT_SNAPV α) → lwgeom_tpsnap_state α →
    Option (Bool × POINTARRAY α × lwgeom_tpsnap_state α)
  | pa, [], state => some (false, pa, state)
  | pa, v :: rest, state =>
    match _rt_snap_to_valid_vertex K pa v state with
    | none => none
    | some (true, pa1, state1) => some (true, pa1, state1)
    | some (false, pa1, state1) => _rt_snap_to_first_valid_vertex K pa1 rest state1

/-- One turn of the `while` loop of `_lwgeom_tpsnap_ptarray_add`: a single
addition pass.  The boolean is `foundSnap`. -/
def addition_pass (K : Kernel α) (pa : POINTARRAY α) (state : lwgeom_tpsnap_state α) :
    Option (Bool × POINTARRAY α × lwgeom_tpsnap_state α) :=
  match _rt_find_vertices_within_dist K [] pa state with
  | none => none
  | some (vset, state1) =>
    if vset.length < 1 then some (false, pa, state1)
    else _rt_snap_to_first_valid_vertex K pa (qsort compare_snapv vset) state1

/-- Source `_lwgeom_tpsnap_ptarray_add`: the vertex addition phase. -/
def _lwgeom_tpsnap_ptarray_add (K : Kernel α) :
    Nat → POINTARRAY α → lwgeom_tpsnap_state α →
    Outcome (POINTARRAY α × lwgeom_tpsnap_state α)
  | 0, _, _ => Outcome.nofuel
  | fuel + 1, pa, state =>
    match addition_pass K pa state with
    | none => Outcome.error
    | some (foundSnap, pa1, state1) =>
      if foundSnap && state1.iterate then _lwgeom_tpsnap_ptarray_add K fuel pa1 state1
      else Outcome.ret (pa1, state1)

/-- The `do .. while` loop of `_lwgeom_tpsnap_ptarray`; `n` is the fuel handed
to each addition phase. -/
def tpsnap_ptarray_loop (K : Kernel α) (n : Nat) :
    Nat → POINTARRAY α → lwgeom_tpsnap_state α →
    Outcome (POINTARRAY α × lwgeom_tpsnap_state α)
  | 0, _, _ => Outcome.nofuel
  | fuel + 1, pa, state =>
    match _lwgeom_tpsnap_ptarray_add K n pa state with
    | Outcome.error => Outcome.error
    | Outcome.nofuel => Outcome.nofuel
    | Outcome.ret (pa1, state1) =>
      if state1.tolerance_removal ≥ 0 then
        match _lwgeom_tpsnap_ptarray_remove K pa1 state1 with
        | Outcome.error => Outcome.error
        | Outcome.nofuel => Outcome.nofuel
        | Outcome.ret (removed, pa2, state2) =>
          if removed ≠ 0 && state2.iterate then tpsnap_ptarray_loop K n fuel pa2 state2
          else Outcome.ret (pa2, state2)
      else Outcome.ret (pa1, state1)

/-- The first statements of `_lwgeom_tpsnap_ptarray`: the work extent is set
to the bounding box of the array and the expanded work extent to that box
grown by `tolerance_snap`.  Nothing else of the state is touched. -/
def tpsnap_begin (pa : POINTARRAY α) (state : lwgeom_tpsnap_state α) :
    lwgeom_tpsnap_state α :=
  let workext := ptarray_calculate_gbox_cartesian pa state.workext
  { state with
    workext := workext,
    expanded_workext := gbox_expand workext state.tolerance_snap }

/-- Source `_lwgeom_tpsnap_ptarray`: processes a single point array. -/
def _lwgeom_tpsnap_ptarray (K : Kernel α) (fuel : Nat) (pa : POINTARRAY α)
    (state : lwgeom_tpsnap_state α) :
    Outcome (POINTARRAY α × lwgeom_tpsnap_state α) :=
  tpsnap_ptarray_loop K fuel fuel pa (tpsnap_begin pa state)

/-- The state as `lwt_tpsnap` sets it up before the traversal: configuration
copied in, `workedges = NULL`.  The extents and the edge count are assigned
before they are read; they start at zero here. -/
def tpsnap_state_init (topo : LWT_TOPOLOGY α) (tolerance_snap tolerance_removal : α)
    (iterate : Bool) : lwgeom_tpsnap_state α :=
  { topo := topo,
    tolerance_snap := tolerance_snap,
    tolerance_removal := tolerance_removal,
    iterate := iterate,
    workext := ⟨0, 0, 0, 0⟩,
    expanded_workext := ⟨0, 0, 0, 0⟩,
    workedges := none,
    num_workedges := 0 }

/-- Modelled from the spec: `edges_within_box(topology, box)`, the Edge Store
over a fixed list of reference edges: all edges whose bounding box intersects
the box, in the order of the list. -/
def edge_store (edges : List (LWT_ISO_EDGE α)) : LWT_TOPOLOGY α :=
  ⟨fun box => some (edges.filter (fun e =>
    match e.geom with
    | [] => false
    | p :: rest =>
      let b := ptarray_calculate_gbox_cartesian (p :: rest) box
      decide (¬ (b.xmax < box.xmin ∨ b.xmin > box.xmax ∨
                 b.ymax < box.ymin ∨ b.ymin > box.ymax))))⟩

/-! ## Notions used to state the properties -/

/-- The state once the edge cache has been consulted. -/
def fetched (state : lwgeom_tpsnap_state α) : lwgeom_tpsnap_state α :=
  (lwgeom_tpsnap_state_get_edges state).1

/-- The edges the loops of the source run over: `edges[0 .. num_edges-1]`. -/
def work_edges (state : lwgeom_tpsnap_state α) : List (LWT_ISO_EDGE α) :=
  (lwgeom_tpsnap_state_get_edges state).2.2.take
    (lwgeom_tpsnap_state_get_edges state).2.1.toNat

/-- The backend did not report an error (`num_edges` is not `-1`). -/
def backend_ok (state : lwgeom_tpsnap_state α) : Prop :=
  (lwgeom_tpsnap_state_get_edges state).2.1 ≠ -1

/-- The value and point array of a snap result, without the state. -/
def snap_view (r : Option (Bool × POINTARRAY α × lwgeom_tpsnap_state α)) :
    Option (Bool × POINTARRAY α) :=
  r.map (fun t => (t.1, t.2.1))

/-- The point array of an outcome that returned. -/
def Outcome.points {σ : Type} : Outcome (POINTARRAY α × σ) → Option (POINTARRAY α)
  | Outcome.ret (pa, _) => some pa
  | _ => none

/-- The count and point array of a removal outcome that returned. -/
def Outcome.removal {σ : Type} : Outcome (Int × POINTARRAY α × σ) →
    Option (Int × POINTARRAY α)
  | Outcome.ret (n, pa, _) => some (n, pa)
  | _ => none

/-- The vertex lies inside the expanded work extent, boundary included. -/
def in_workext (state : lwgeom_tpsnap_state α) (v : POINT2D α) : Bool :=
  decide (state.expanded_workext.xmin ≤ v.x ∧ v.x ≤ state.expanded_workext.xmax ∧
    state.expanded_workext.ymin ≤ v.y ∧ v.y ≤ state.expanded_workext.ymax)

/-- The candidate record of one reference-edge vertex, in the words of the
specification: the vertex must lie inside the expanded work extent and its
closest-segment distance must be at most `tolerance_snap`; the record keeps
the vertex and the closest-segment result. -/
def candidate_of (K : Kernel α) (state : lwgeom_tpsnap_state α) (pa : POINTARRAY α)
    (q : POINT4D α) : Option (LWT_SNAPV α) :=
  if in_workext state q.xy then
    match _rt_find_closest_segment K q.xy pa with
    | some (segno, dist) =>
      if dist ≤ state.tolerance_snap then some ⟨q.xy, segno, dist⟩ else none
    | none => none
  else none

/-- The candidate set in the words of the specification: one record per
occurrence of an eligible vertex, edge by edge. -/
def candidate_set (K : Kernel α) (state : lwgeom_tpsnap_state α) (pa : POINTARRAY α)
    (edges : List (LWT_ISO_EDGE α)) : List (LWT_SNAPV α) :=
  edges.flatMap (fun e => e.geom.filterMap (candidate_of K state pa))

/-- The endpoint check of `_rt_snap_to_valid_vertex`: the projection of the
candidate onto its segment is one of the segment endpoints. -/
def endpoint_veto (K : Kernel α) (pa : POINTARRAY α) (v : LWT_SNAPV α) : Bool :=
  let p : POINT4D α := ⟨v.pt.x, v.pt.y, 0, 0⟩
  let sp1 := getPoint4d_p pa v.segno K.unwritten
  let sp2 := getPoint4d_p pa (v.segno + 1) K.unwritten
  let proj := K.closest_point_on_segment p sp1 sp2
  p4d_same proj sp1 || p4d_same proj sp2

/-- Some edge of the list covers the segment. -/
def covered_by (K : Kernel α) (edges : List (LWT_ISO_EDGE α)) (p1 p2 : POINT4D α) : Bool :=
  edges.any (fun e => decide (K.GEOSCovers e.geom p1 p2 = some true))

/-- The candidate passes both checks: its projection is not an endpoint of
its segment and no edge covers that segment. -/
def valid_candidate (K : Kernel α) (pa : POINTARRAY α) (edges : List (LWT_ISO_EDGE α))
    (v : LWT_SNAPV α) : Bool :=
  !endpoint_veto K pa v &&
    !covered_by K edges (getPoint4d_p pa v.segno K.unwritten)
      (getPoint4d_p pa (v.segno + 1) K.unwritten)

/-- The array with the candidate vertex inserted after the first point of its
segment. -/
def insert_candidate (pa : POINTARRAY α) (v : LWT_SNAPV α) : POINTARRAY α :=
  pa.take (v.segno + 1).toNat ++ (⟨v.pt.x, v.pt.y, 0, 0⟩ : POINT4D α) ::
    pa.drop (v.segno + 1).toNat

/-- The result of walking a list of candidates in order, in the words of the
specification: the first valid candidate is inserted and the pass reports
snapped; without a valid candidate the array is unchanged and the pass
reports no-snap. -/
def first_valid_insertion (K : Kernel α) (pa : POINTARRAY α)
    (edges : List (LWT_ISO_EDGE α)) (sorted : List (LWT_SNAPV α)) :
    Bool × POINTARRAY α :=
  match sorted.find? (valid_candidate K pa edges) with
  | some c => (true, insert_candidate pa c)
  | none => (false, pa)

/-- The sort key of `compare_snapv`: distance, then x, then y. -/
def snapv_key (a : LWT_SNAPV α) : Lex (α × Lex (α × α)) :=
  toLex (a.dist, toLex (a.pt.x, a.pt.y))

/-- The decision of the removal phase for one vertex, as the source takes it:
`some true` to remove, `some false` to keep, `none` on a kernel error. -/
def removal_decision (K : Kernel α) (state : lwgeom_tpsnap_state α)
    (edges : List (LWT_ISO_EDGE α)) (cnum0 : Int) (V : POINT2D α) : Option Bool :=
  match closest_edge_loop K state V edges none cnum0 (state.tolerance_removal + 1) with
  | none => none
  | some (none, _, _) => some false
  | some (some epa, cnum, _) =>
    let V4d : POINT4D α := ⟨V.x, V.y, 0, 0⟩
    let Ep1 := getPoint4d_p epa cnum K.unwritten
    let Ep2 := getPoint4d_p epa (cnum + 1) K.unwritten
    let proj := K.closest_point_on_segment V4d Ep1 Ep2
    some (!(p4d_same proj Ep1 || p4d_same proj Ep2))

/-- The point-segment distance from `v` to segment `j` of the array, the
segment from point `j` to point `j + 1`; `none` when there is no such segment
or the kernel fails. -/
def segment_distance (K : Kernel α) (v : POINT2D α) (pa : POINTARRAY α) (j : Nat) :
    Option α :=
  match pa.get? j, pa.get? (j + 1) with
  | some a, some b => K.lw_dist2d_pt_seg v a.xy b.xy
  | _, _ => none

/-! ## The traversal and the entry point -/

/-- The `for` loop of the `POLYGONTYPE` case of `lwgeom_visit_lines`, over
the rings. -/
def visit_rings_loop {σ : Type} (visitor : rtptarray_visitor α σ) :
    List (POINTARRAY α) → σ → Outcome (List (POINTARRAY α) × σ)
  | [], userdata => Outcome.ret ([], userdata)
  | ring :: rest, userdata =>
    match visitor ring userdata with
    | Outcome.error => Outcome.error
    | Outcome.nofuel => Outcome.nofuel
    | Outcome.ret (ring1, userdata1) =>
      match visit_rings_loop visitor rest userdata1 with
      | Outcome.error => Outcome.error
      | Outcome.nofuel => Outcome.nofuel
      | Outcome.ret (rest1, userdata2) => Outcome.ret (ring1 :: rest1, userdata2)

mutual
/-- Source `lwgeom_visit_lines`: passes each point array defining a linear
component of the geometry to the visitor.  The visit is mutating: the result
holds the geometry with the visited arrays as the visitor left them, and the
user data.  An error of the visitor ends the traversal. -/
def lwgeom_visit_lines {σ : Type} (visitor : rtptarray_visitor α σ) :
    LWGEOM α → σ → Outcome (LWGEOM α × σ)
  | LWGEOM.LWPOLY rings, userdata =>
    match visit_rings_loop visitor rings userdata with
    | Outcome.error => Outcome.error
    | Outcome.nofuel => Outcome.nofuel
    | Outcome.ret (rings1, userdata1) => Outcome.ret (LWGEOM.LWPOLY rings1, userdata1)
  | LWGEOM.LWLINE points, userdata =>
    match visitor points userdata with
    | Outcome.error => Outcome.error
    | Outcome.nofuel => Outcome.nofuel
    | Outcome.ret (points1, userdata1) => Outcome.ret (LWGEOM.LWLINE points1, userdata1)
  | LWGEOM.LWCOLLECTION type geoms, userdata =>
    if type = LWCOLLECTION_TYPE.MULTILINETYPE ∨ type = LWCOLLECTION_TYPE.MULTIPOLYGONTYPE ∨
        type = LWCOLLECTION_TYPE.COLLECTIONTYPE then
      match visit_geoms_loop visitor geoms userdata with
      | Outcome.error => Outcome.error
      | Outcome.nofuel => Outcome.nofuel
      | Outcome.ret (geoms1, userdata1) =>
        Outcome.ret (LWGEOM.LWCOLLECTION type geoms1, userdata1)
    else Outcome.ret (LWGEOM.LWCOLLECTION type geoms, userdata)
  | LWGEOM.LWPOINT point, userdata => Outcome.ret (LWGEOM.LWPOINT point, userdata)
  | LWGEOM.LWCIRCSTRING points, userdata => Outcome.ret (LWGEOM.LWCIRCSTRING points, userdata)
  | LWGEOM.LWTRIANGLE points, userdata => Outcome.ret (LWGEOM.LWTRIANGLE points, userdata)
/-- The `for` loop of the collection case of `lwgeom_visit_lines`, over the
member geometries. -/
def visit_geoms_loop {σ : Type} (visitor : rtptarray_visitor α σ) :
    List (LWGEOM α) → σ → Outcome (List (LWGEOM α) × σ)
  | [], userdata => Outcome.ret ([], userdata)
  | g :: rest, userdata =>
    match lwgeom_visit_lines visitor g userdata with
    | Outcome.error => Outcome.error
    | Outcome.nofuel => Outcome.nofuel
    | Outcome.ret (g1, userdata1) =>
      match visit_geoms_loop visitor rest userdata1 with
      | Outcome.error => Outcome.error
      | Outcome.nofuel => Outcome.nofuel
      | Outcome.ret (rest1, userdata2) => Outcome.ret (g1 :: rest1, userdata2)
end

/-- Modelled from the spec: `lwgeom_clone_deep`, absent from the sources: a
deep copy, equal to the original point for point. -/
def lwgeom_clone_deep (g : LWGEOM α) : LWGEOM α := g

/-- Source `lwt_tpsnap`, the entry point: `ret g` is the snapped geometry,
`error` is the NULL return.  `fuel` bounds the loops of each point array. -/
def lwt_tpsnap (K : Kernel α) (fuel : Nat) (topo : LWT_TOPOLOGY α) (gin : LWGEOM α)
    (tolerance_snap tolerance_removal : α) (iterate : Bool) : Outcome (LWGEOM α) :=
  let state := tpsnap_state_init topo tolerance_snap tolerance_removal iterate
  let gtmp := lwgeom_clone_deep gin
  match lwgeom_visit_lines (_lwgeom_tpsnap_ptarray K fuel) gtmp state with
  | Outcome.error => Outcome.error
  | Outcome.nofuel => Outcome.nofuel
  | Outcome.ret (g, _) => Outcome.ret g

/-! ## Notions used to state the properties of the traversal -/

mutual
/-- The linear components of a geometry in the words of the specification:
the point arrays of the line-strings and of the polygon rings that are reached
through MultiLineString, MultiPolygon and GeometryCollection nodes, in
document order. -/
def linear_components : LWGEOM α → List (POINTARRAY α)
  | LWGEOM.LWLINE points => [points]
  | LWGEOM.LWPOLY rings => rings
  | LWGEOM.LWCOLLECTION LWCOLLECTION_TYPE.MULTILINETYPE geoms => linear_components_list geoms
  | LWGEOM.LWCOLLECTION LWCOLLECTION_TYPE.MULTIPOLYGONTYPE geoms => linear_components_list geoms
  | LWGEOM.LWCOLLECTION LWCOLLECTION_TYPE.COLLECTIONTYPE geoms => linear_components_list geoms
  | _ => []
/-- The linear components of the members of a collection, member by member. -/
def linear_components_list : List (LWGEOM α) → List (POINTARRAY α)
  | [] => []
  | g :: rest => linear_components g ++ linear_components_list rest
end

mutual
/-- The geometry with `f` applied to each of its linear components and
nothing else changed. -/
def map_linear_components (f : POINTARRAY α → POINTARRAY α) : LWGEOM α → LWGEOM α
  | LWGEOM.LWLINE points => LWGEOM.LWLINE (f points)
  | LWGEOM.LWPOLY rings => LWGEOM.LWPOLY (rings.map f)
  | LWGEOM.LWCOLLECTION LWCOLLECTION_TYPE.MULTILINETYPE geoms =>
    LWGEOM.LWCOLLECTION LWCOLLECTION_TYPE.MULTILINETYPE (map_linear_components_list f geoms)
  | LWGEOM.LWCOLLECTION LWCOLLECTION_TYPE.MULTIPOLYGONTYPE geoms =>
    LWGEOM.LWCOLLECTION LWCOLLECTION_TYPE.MULTIPOLYGONTYPE (map_linear_components_list f geoms)
  | LWGEOM.LWCOLLECTION LWCOLLECTION_TYPE.COLLECTIONTYPE geoms =>
    LWGEOM.LWCOLLECTION LWCOLLECTION_TYPE.COLLECTIONTYPE (map_linear_components_list f geoms)
  | g => g
/-- The same for the members of a collection. -/
def map_linear_components_list (f : POINTARRAY α → POINTARRAY α) :
    List (LWGEOM α) → List (LWGEOM α)
  | [] => []
  | g :: rest => map_linear_components f g :: map_linear_components_list f rest
end

/-- What is left of a geometry when its linear components are emptied: the
part of it that the traversal does not hand to the visitor. -/
def unvisited_part (g : LWGEOM α) : LWGEOM α := map_linear_components (fun _ => []) g

/-- The visit of a list of point arrays in the words of the specification:
the visitor is applied to the arrays in order, each call receiving the user
data the previous one left; the first call that does not succeed ends the
visit with its outcome, and the arrays after it are not visited. -/
def visit_in_order {σ : Type} (visitor : rtptarray_visitor α σ) :
    List (POINTARRAY α) → σ → Outcome (List (POINTARRAY α) × σ)
  | [], userdata => Outcome.ret ([], userdata)
  | pa :: rest, userdata =>
    match visitor pa userdata with
    | Outcome.ret (pa1, userdata1) =>
      match visit_in_order visitor rest userdata1 with
      | Outcome.ret (rest1, userdata2) => Outcome.ret (pa1 :: rest1, userdata2)
      | stopped => stopped
    | Outcome.error => Outcome.error
    | Outcome.nofuel => Outcome.nofuel

/-- The linear components of the geometry an entry-point call returned. -/
def Outcome.lines : Outcome (LWGEOM α) → Option (List (POINTARRAY α))
  | Outcome.ret g => some (linear_components g)
  | _ => none

/-- The edge list the loops of the source run over while the point array
`next` is processed, when the processing of the previous point array ended
with outcome `r`. -/
def edges_consulted_after (r : Outcome (POINTARRAY α × lwgeom_tpsnap_state α))
    (next : POINTARRAY α) : Option (List (LWT_ISO_EDGE α)) :=
  match r with
  | Outcome.ret (_, state) => some (work_edges (tpsnap_begin next state))
  | _ => none

/-- The outcome with `f` applied to the returned value. -/
def Outcome.map {β γ : Type} (f : β → γ) : Outcome β → Outcome γ
  | Outcome.ret b => Outcome.ret (f b)
  | Outcome.error => Outcome.error
  | Outcome.nofuel => Outcome.nofuel

/-- The outcome is an error report. -/
def Outcome.is_error {β : Type} : Outcome β → Bool
  | Outcome.error => true
  | _ => false

/-! ## The Geometry Kernel in exact arithmetic -/

/-- Modelled from the spec: the parameter of the foot of the perpendicular
from `p` on the line `ab`, 0 at `a` and 1 at `b` (the `r` of
`closest_point_on_segment`, absent from the sources). -/
def segment_parameter (p a b : POINT2D α) : α :=
  ((p.x - a.x) * (b.x - a.x) + (p.y - a.y) * (b.y - a.y)) /
    ((b.x - a.x) * (b.x - a.x) + (b.y - a.y) * (b.y - a.y))

/-- Modelled from the spec: `closest_point_on_segment(p, a, b)`, absent from
the sources, in the plane: the projection of `p` onto `ab`, clamped to the
endpoints. -/
def closest_point_2d (p a b : POINT2D α) : POINT2D α :=
  if a = b then a
  else if segment_parameter p a b ≤ 0 then a
  else if 1 ≤ segment_parameter p a b then b
  else ⟨a.x + (b.x - a.x) * segment_parameter p a b,
        a.y + (b.y - a.y) * segment_parameter p a b⟩

/-- Modelled from the spec: `closest_point_on_segment(p, a, b)`, absent from
the sources, on stored points: a clamped projection is the endpoint itself,
one inside the segment has `z` and `m` interpolated. -/
def closest_point_exact (p a b : POINT4D α) : POINT4D α :=
  if a.xy = b.xy then a
  else if segment_parameter p.xy a.xy b.xy ≤ 0 then a
  else if 1 ≤ segment_parameter p.xy a.xy b.xy then b
  else ⟨a.x + (b.x - a.x) * segment_parameter p.xy a.xy b.xy,
        a.y + (b.y - a.y) * segment_parameter p.xy a.xy b.xy,
        a.z + (b.z - a.z) * segment_parameter p.xy a.xy b.xy,
        a.m + (b.m - a.m) * segment_parameter p.xy a.xy b.xy⟩

/-- Modelled from the spec: the contract of the Geometry Kernel in exact
arithmetic.  The projection is the clamped projection; a point-segment
distance, when the kernel returns one, is not negative and is zero exactly
when the point is its own closest point of the closed segment, that is, when
it lies on the segment; `FLT_MAX` is positive. -/
structure exact_kernel (K : Kernel α) : Prop where
  FLT_MAX_pos : 0 < K.FLT_MAX
  projection : ∀ p a b, K.closest_point_on_segment p a b = closest_point_exact p a b
  dist_nonneg : ∀ p a b d, K.lw_dist2d_pt_seg p a b = some d → 0 ≤ d
  dist_zero : ∀ p a b d, K.lw_dist2d_pt_seg p a b = some d →
    (d = 0 ↔ closest_point_2d p a b = p)

/-! ## A measure for the addition phase -/

/-- The vertices of the cached edges inside the expanded work extent: the
points a pass of the addition phase can insert. -/
def candidate_pool (state : lwgeom_tpsnap_state α) : List (POINT2D α) :=
  ((work_edges state).flatMap (fun e => e.geom.map POINT4D.xy)).filter (in_workext state)

/-- The planar point `v` is a vertex of the array. -/
def is_vertex (v : POINT2D α) (pa : POINTARRAY α) : Bool :=
  pa.any (fun q => decide (q.xy = v))

/-- The point `v` lies on the array, at distance zero from its closest
segment, and projects strictly inside that segment: inserting it would split
the segment in two. -/
def can_split (K : Kernel α) (pa : POINTARRAY α) (v : POINT2D α) : Bool :=
  match _rt_find_closest_segment K v pa with
  | some (n, d) => decide (0 ≤ n) && decide (d = 0) && !endpoint_veto K pa ⟨v, n, d⟩
  | none => false

/-- The measure that every snapped pass of the addition phase lowers: the
points of the pool that are not yet vertices of the array count for more than
the whole pool, the points that could split a segment count for one each. -/
def addition_measure (K : Kernel α) (state : lwgeom_tpsnap_state α) (pa : POINTARRAY α) :
    Nat :=
  ((candidate_pool state).filter (fun v => !is_vertex v pa)).length *
      ((candidate_pool state).length + 1) +
    ((candidate_pool state).filter (can_split K pa)).length

/-! ## Edge lists of a planar topology -/

/-- Every vertex of an edge of the list that lies on a segment of an edge of
the list is an end of that segment: no edge passes through a vertex. -/
def vertices_at_segment_ends (edges : List (LWT_ISO_EDGE α)) : Bool :=
  edges.all (fun e => e.geom.all (fun q => edges.all (fun e1 =>
    (e1.geom.zip e1.geom.tail).all (fun ab =>
      !decide (closest_point_2d q.xy ab.1.xy ab.2.xy = q.xy) ||
        decide (q.xy = ab.1.xy) || decide (q.xy = ab.2.xy)))))

/-- The planar point `v` is a vertex of an edge of the list. -/
def is_edge_vertex (edges : List (LWT_ISO_EDGE α)) (v : POINT2D α) : Bool :=
  edges.any (fun e => e.geom.any (fun q => decide (q.xy = v)))

/-- The number of points of the array that are not vertices of an edge of the
list. -/
def loose_vertices (edges : List (LWT_ISO_EDGE α)) (pa : POINTARRAY α) : Nat :=
  (pa.filter (fun q => !is_edge_vertex edges q.xy)).length

mutual
/-- Some leaf of the geometry tree is a line-string or a polygon. -/
def has_linear_leaf : LWGEOM α → Bool
  | LWGEOM.LWLINE _ => true
  | LWGEOM.LWPOLY _ => true
  | LWGEOM.LWCOLLECTION _ geoms => has_linear_leaf_list geoms
  | _ => false
/-- Some leaf of a member of the collection is a line-string or a polygon. -/
def has_linear_leaf_list : List (LWGEOM α) → Bool
  | [] => false
  | g :: rest => has_linear_leaf g || has_linear_leaf_list rest
end

end Engine

/-! ## The Geometry Kernel in exact rational arithmetic -/

section RationalKernel

/-- Make a 2-D point of a point array (`z = m = 0`). -/
def pt (x y : ℚ) : POINT4D ℚ := ⟨x, y, 0, 0⟩

/-- Make an edge with the given identifier and vertices. -/
def mkEdge (id : Int) (pts : POINTARRAY ℚ) : LWT_ISO_EDGE ℚ := ⟨id, pts⟩

/-- The parameter of the foot of the perpendicular from `p` on the line `ab`
(0 at `a`, 1 at `b`); `a` and `b` differ. -/
def seg_param (p a b : POINT2D ℚ) : ℚ :=
  ((p.x - a.x) * (b.x - a.x) + (p.y - a.y) * (b.y - a.y)) /
    ((b.x - a.x) * (b.x - a.x) + (b.y - a.y) * (b.y - a.y))

/-- Squared distance between two planar points. -/
def sqdist (p q : POINT2D ℚ) : ℚ :=
  (q.x - p.x) * (q.x - p.x) + (q.y - p.y) * (q.y - p.y)

/-- The point of the closed segment `ab` closest to `p`. -/
def closest2d (p a b : POINT2D ℚ) : POINT2D ℚ :=
  if a = b then a
  else
    let r := seg_param p a b
    if r ≤ 0 then a
    else if r ≥ 1 then b
    else ⟨a.x + (b.x - a.x) * r, a.y + (b.y - a.y) * r⟩

/-- Bit by bit search of the integer square root: `r` is the root found so
far, the first argument counts the bits still to try. -/
def isqrt_loop (n : Nat) : Nat → Nat → Nat
  | 0, r => r
  | b + 1, r => if (r + 2 ^ b) * (r + 2 ^ b) ≤ n then isqrt_loop n b (r + 2 ^ b)
    else isqrt_loop n b r

/-- The integer square root, rounded down (for roots below `2 ^ 320`). -/
def isqrt (n : Nat) : Nat := isqrt_loop n 320 0

/-- The square root of a rational that is not negative: exact whenever the
rational is the square of a rational, a rounding otherwise. -/
def rat_sqrt (q : ℚ) : ℚ := mkRat (isqrt q.num.toNat) (isqrt q.den)

/-- Modelled from the spec: `dist2d_point_segment(p, a, b)`, the Euclidean
distance from `p` to the closed segment `ab`; never fails.  The square root is
`rat_sqrt`, exact whenever the squared distance is the square of a rational. -/
def dist2d_pt_seg_rat (p a b : POINT2D ℚ) : Option ℚ :=
  some (rat_sqrt (sqdist p (closest2d p a b)))

/-- Modelled from the spec: `closest_point_on_segment(p, a, b)`, the projection
of `p` onto `ab` clamped to the endpoints; `z` and `m` are interpolated. -/
def closest_point_on_segment_rat (p a b : POINT4D ℚ) : POINT4D ℚ :=
  if a.xy = b.xy then a
  else
    let r := seg_param p.xy a.xy b.xy
    if r ≤ 0 then a
    else if r ≥ 1 then b
    else ⟨a.x + (b.x - a.x) * r, a.y + (b.y - a.y) * r,
          a.z + (b.z - a.z) * r, a.m + (b.m - a.m) * r⟩

/-- Twice the signed area of the triangle `a b p`. -/
def cross2d (a b p : POINT2D ℚ) : ℚ :=
  (b.x - a.x) * (p.y - a.y) - (b.y - a.y) * (p.x - a.x)

/-- The point `p` lies on the closed segment `ab`. -/
def on_segment (p a b : POINT2D ℚ) : Bool :=
  decide (cross2d a b p = 0 ∧ min a.x b.x ≤ p.x ∧ p.x ≤ max a.x b.x ∧
    min a.y b.y ≤ p.y ∧ p.y ≤ max a.y b.y)

/-- The parameter intervals of the segment `p1 p2` (0 at `p1`, 1 at `p2`) that
lie on the segments of a polyline starting at `a`. -/
def cover_intervals (p1 p2 : POINT2D ℚ) : POINT2D ℚ → List (POINT4D ℚ) → List (ℚ × ℚ)
  | _, [] => []
  | a, q :: rest =>
    (if cross2d p1 p2 a = 0 ∧ cross2d p1 p2 q.xy = 0 then
      [(min (seg_param a p1 p2) (seg_param q.xy p1 p2),
        max (seg_param a p1 p2) (seg_param q.xy p1 p2))]
     else []) ++ cover_intervals p1 p2 q.xy rest

/-- How far along the segment the covered part reaches from parameter `t`,
after `n` rounds over the intervals. -/
def cover_reach (ivs : List (ℚ × ℚ)) : Nat → ℚ → ℚ
  | 0, t => t
  | n + 1, t =>
    cover_reach ivs n (ivs.foldl (fun t iv => if iv.1 ≤ t ∧ t ≤ iv.2 then iv.2 else t) t)

/-- Some segment of the polyline starting at `a` holds the point `p`. -/
def on_polyline (p : POINT2D ℚ) : POINT2D ℚ → List (POINT4D ℚ) → Bool
  | a, [] => decide (p = a)
  | a, q :: rest => on_segment p a q.xy || on_polyline p q.xy rest

/-- Modelled from the spec: `covers(edge_polyline, segment)`, the point-set
coverage predicate: every point of the segment `p1 p2` lies on the polyline;
never fails. -/
def GEOSCovers_rat (edge : POINTARRAY ℚ) (p1 p2 : POINT4D ℚ) : Option Bool :=
  match edge with
  | [] => some false
  | a :: rest =>
    if p1.xy = p2.xy then some (on_polyline p1.xy a.xy rest)
    else
      let ivs := cover_intervals p1.xy p2.xy a.xy rest
      some (ivs.any (fun iv => decide (iv.1 ≤ 0 ∧ 0 ≤ iv.2)) &&
            decide (1 ≤ cover_reach ivs ivs.length 0))

/-- The Geometry Kernel over `ℚ`.  `FLT_MAX` is the constant of `<float.h>`;
the unwritten buffer holds `buf`. -/
def kernelQ (buf : POINT4D ℚ) : Kernel ℚ :=
  { FLT_MAX := 340282346638528859811704183484516925440,
    lw_dist2d_pt_seg := dist2d_pt_seg_rat,
    closest_point_on_segment := closest_point_on_segment_rat,
    GEOSCovers := GEOSCovers_rat,
    unwritten := buf }

end RationalKernel

/-! ## The scenarios of the specification, and other concrete inputs -/

section Scenarios

/-- The rational kernel with the origin in the unwritten buffer. -/
def K0 : Kernel ℚ := kernelQ (pt 0 0)

/-- The input line of scenarios S1 to S4: `[(0,0),(10,0)]`. -/
def S_line : POINTARRAY ℚ := [pt 0 0, pt 10 0]

/-- Scenario S1: reference edges `[(0,0),(10,0)]` and `[(5,0.2),(5,5)]`,
`tolerance_snap = 1.0`, removal disabled, `iterate = true`. -/
def S1_state : lwgeom_tpsnap_state ℚ :=
  tpsnap_state_init
    (edge_store [mkEdge 1 [pt 0 0, pt 10 0], mkEdge 2 [pt 5 0.2, pt 5 5]]) 1.0 (-1) true

/-- Scenario S1 with the second reference edge alone. -/
def S1_second_edge_state : lwgeom_tpsnap_state ℚ :=
  tpsnap_state_init (edge_store [mkEdge 2 [pt 5 0.2, pt 5 5]]) 1.0 (-1) true

/-- Scenario S4: reference vertices `A = (3,0.9)` and `B = (7,0.5)` (the two
vertices of one edge), `tolerance_snap = 1.0`, removal disabled. -/
def S4_state (iterate : Bool) : lwgeom_tpsnap_state ℚ :=
  tpsnap_state_init (edge_store [mkEdge 1 [pt 3 0.9, pt 7 0.5]]) 1.0 (-1) iterate

/-- The candidate records of `A` and `B` in scenario S4. -/
def S4_candidates : List (LWT_SNAPV ℚ) :=
  [⟨⟨3, 0.9⟩, 0, 0.9⟩, ⟨⟨7, 0.5⟩, 0, 0.5⟩]

/-- Scenario S5: input line `[(0,0),(3,0.1),(7,-0.2),(10,0)]`. -/
def S5_line : POINTARRAY ℚ := [pt 0 0, pt 3 0.1, pt 7 (-0.2), pt 10 0]

/-- Scenario S5: reference edge `[(0,0),(10,0)]`, `tolerance_snap = 0`,
`tolerance_removal = 0.5`. -/
def S5_state : lwgeom_tpsnap_state ℚ :=
  tpsnap_state_init (edge_store [mkEdge 1 [pt 0 0, pt 10 0]]) 0 0.5 true

/-- `FLT_MAX` as a rational. -/
def FLT_MAX_Q : ℚ := 340282346638528859811704183484516925440

/-- A run with `tolerance_snap = 2 * FLT_MAX`: input line `[(0,0),(1,0)]`, one
reference edge from `(0, 2 * FLT_MAX)` to `(0, 6 * FLT_MAX)`, removal
disabled, a single pass. -/
def far_state : lwgeom_tpsnap_state ℚ :=
  tpsnap_state_init
    (edge_store [mkEdge 1 [pt 0 (2 * FLT_MAX_Q), pt 0 (6 * FLT_MAX_Q)]])
    (2 * FLT_MAX_Q) (-1) false

/-- The kernel of that run: the unwritten buffer holds `(0, 4 * FLT_MAX)`. -/
def K_far : Kernel ℚ := kernelQ (pt 0 (4 * FLT_MAX_Q))

/-- A run whose result leaves the first work extent: input line
`[(0,0),(16,0)]`, one reference edge `[(8,6),(-2,11)]`, `tolerance_snap = 10`,
removal disabled, `iterate = true`. -/
def grow_line : POINTARRAY ℚ := [pt 0 0, pt 16 0]

/-- The state of that run. -/
def grow_state : lwgeom_tpsnap_state ℚ :=
  tpsnap_state_init (edge_store [mkEdge 1 [pt 8 6, pt (-2) 11]]) 10 (-1) true

/-- A run whose result stays within the bounding box of the input: input line
`[(0,0),(10,10)]`, one reference edge `[(5,4),(20,4)]`, `tolerance_snap = 2`,
`tolerance_removal = 0`, `iterate = true`. -/
def box_line : POINTARRAY ℚ := [pt 0 0, pt 10 10]

/-- The state of that run. -/
def box_state : lwgeom_tpsnap_state ℚ :=
  tpsnap_state_init (edge_store [mkEdge 1 [pt 5 4, pt 20 4]]) 2 0 true

/-- A run with `tolerance_snap = 0` and a reference vertex on the input line:
reference edge `[(5,0),(5,5)]`, removal disabled, `iterate = true`. -/
def on_line_state : lwgeom_tpsnap_state ℚ :=
  tpsnap_state_init (edge_store [mkEdge 1 [pt 5 0, pt 5 5]]) 0 (-1) true

/-- A run with `tolerance_snap = 0` on the input line `[(0,0),(10,10)]` with
no reference vertex on it: the reference edge `[(2,5),(8,3)]` lies inside the
bounding box of the line and crosses it between its two vertices. -/
def off_line_state : lwgeom_tpsnap_state ℚ :=
  tpsnap_state_init (edge_store [mkEdge 1 [pt 2 5, pt 8 3]]) 0 (-1) true

/-- Two reference edges at the same distance 1 from the vertex `(0,1)`: the
closest point of the first is inside its segment, that of the second is its
first vertex. -/
def tie_edge_a : LWT_ISO_EDGE ℚ := mkEdge 1 [pt (-5) 0, pt 5 0]

/-- The second of the two edges. -/
def tie_edge_b : LWT_ISO_EDGE ℚ := mkEdge 2 [pt 0 2, pt 0 7]

/-- The input line of the run with these two edges. -/
def tie_line : POINTARRAY ℚ := [pt (-10) 0, pt 0 1, pt 10 7]

/-- The state of that run for a given order of the edges in the Edge Store:
`tolerance_snap = 0`, `tolerance_removal = 1`, `iterate = true`. -/
def tie_state (edges : List (LWT_ISO_EDGE ℚ)) : lwgeom_tpsnap_state ℚ :=
  tpsnap_state_init (edge_store edges) 0 1 true

/-- Scenario S1 with the two reference edges in the other order. -/
def S1_swapped_state : lwgeom_tpsnap_state ℚ :=
  tpsnap_state_init
    (edge_store [mkEdge 2 [pt 5 0.2, pt 5 5], mkEdge 1 [pt 0 0, pt 10 0]]) 1.0 (-1) true

/-- Scenario S2: reference edges `[(0,0),(10,0)]` and `[(5,0),(5,5)]`,
`tolerance_snap = 1.0`, removal disabled, `iterate = true`. -/
def S2_state : lwgeom_tpsnap_state ℚ :=
  tpsnap_state_init
    (edge_store [mkEdge 1 [pt 0 0, pt 10 0], mkEdge 2 [pt 5 0, pt 5 5]]) 1.0 (-1) true

/-- Scenario S3: a reference edge with a vertex exactly at `(0,0)`, the edge
`[(0,0),(0,5)]`; `tolerance_snap = 1.0`, removal disabled, `iterate = true`. -/
def S3_state : lwgeom_tpsnap_state ℚ :=
  tpsnap_state_init (edge_store [mkEdge 1 [pt 0 0, pt 0 5]]) 1.0 (-1) true

/-- A run that does not settle: input line `[(0,1),(10,1)]`, reference edges
`[(-100,0),(100,0)]` and `[(5,0),(5,-50)]` (the second ends on the first),
`tolerance_snap = 1`, `tolerance_removal = 0`, `iterate = true`. -/
def cycle_line : POINTARRAY ℚ := [pt 0 1, pt 10 1]

/-- The state of that run. -/
def cycle_state : lwgeom_tpsnap_state ℚ :=
  tpsnap_state_init
    (edge_store [mkEdge 1 [pt (-100) 0, pt 100 0], mkEdge 2 [pt 5 0, pt 5 (-50)]]) 1 0 true

/-- A second input line, far from the first: `[(100,0),(110,0)]`. -/
def far_line : POINTARRAY ℚ := [pt 100 0, pt 110 0]

/-- A third input line: `[(200,0),(210,0)]`. -/
def third_line : POINTARRAY ℚ := [pt 200 0, pt 210 0]

/-- A reference edge next to the first line: `[(5,0.5),(5,5)]`. -/
def near_edge : LWT_ISO_EDGE ℚ := mkEdge 1 [pt 5 0.5, pt 5 5]

/-- A reference edge next to the second line: `[(105,0.5),(105,5)]`. -/
def far_edge : LWT_ISO_EDGE ℚ := mkEdge 2 [pt 105 0.5, pt 105 5]

/-- The topology with these two edges. -/
def two_edges_topo : LWT_TOPOLOGY ℚ := edge_store [near_edge, far_edge]

/-- The MultiLineString of the first and the second line. -/
def two_lines : LWGEOM ℚ :=
  LWGEOM.LWCOLLECTION LWCOLLECTION_TYPE.MULTILINETYPE
    [LWGEOM.LWLINE S_line, LWGEOM.LWLINE far_line]

/-- The MultiLineString of the three lines. -/
def three_lines : LWGEOM ℚ :=
  LWGEOM.LWCOLLECTION LWCOLLECTION_TYPE.MULTILINETYPE
    [LWGEOM.LWLINE S_line, LWGEOM.LWLINE far_line, LWGEOM.LWLINE third_line]

/-- An Edge Store without edges that fails for every box east of `x = 50`. -/
def flaky_topo : LWT_TOPOLOGY ℚ :=
  ⟨fun box => if box.xmin > 50 then none else some []⟩

/-- A GeometryCollection of a Point and a MultiPoint. -/
def points_only : LWGEOM ℚ :=
  LWGEOM.LWCOLLECTION LWCOLLECTION_TYPE.COLLECTIONTYPE
    [LWGEOM.LWPOINT [pt 5 0.5],
     LWGEOM.LWCOLLECTION LWCOLLECTION_TYPE.MULTIPOINTTYPE
       [LWGEOM.LWPOINT [pt 5 0.2], LWGEOM.LWPOINT [pt 2 2]]]

/-- A ring: `[(0,0),(10,0),(10,10),(0,0)]`. -/
def outer_ring : POINTARRAY ℚ := [pt 0 0, pt 10 0, pt 10 10, pt 0 0]

/-- A second ring: `[(6,2),(8,2),(8,4),(6,2)]`. -/
def inner_ring : POINTARRAY ℚ := [pt 6 2, pt 8 2, pt 8 4, pt 6 2]

/-- A GeometryCollection of a Point, a LineString, a Polygon with two rings, a
MultiLineString inside a GeometryCollection, a MultiCurve holding a
LineString, and a Triangle. -/
def mixed_geom : LWGEOM ℚ :=
  LWGEOM.LWCOLLECTION LWCOLLECTION_TYPE.COLLECTIONTYPE
    [LWGEOM.LWPOINT [pt 1 1],
     LWGEOM.LWLINE S_line,
     LWGEOM.LWPOLY [outer_ring, inner_ring],
     LWGEOM.LWCOLLECTION LWCOLLECTION_TYPE.COLLECTIONTYPE
       [LWGEOM.LWCOLLECTION LWCOLLECTION_TYPE.MULTILINETYPE [LWGEOM.LWLINE far_line]],
     LWGEOM.LWCOLLECTION LWCOLLECTION_TYPE.MULTICURVETYPE [LWGEOM.LWLINE third_line],
     LWGEOM.LWTRIANGLE outer_ring]

/-- A kernel whose covers predicate fails on a one-point edge line (the
geometry conversion refuses it) and answers as `K0` otherwise. -/
def K_covers_fail : Kernel ℚ :=
  ⟨K0.FLT_MAX, K0.lw_dist2d_pt_seg, K0.closest_point_on_segment,
    fun edge p1 p2 => if edge.length < 2 then none else K0.GEOSCovers edge p1 p2,
    K0.unwritten⟩

/-- Reference edges `[(0,1),(10,1)]`, `[(0,0),(10,0)]` and the one-point line
`[(3,1)]`, in this order; `tolerance_snap = 1.0`, removal disabled. -/
def cover_then_fail_state : lwgeom_tpsnap_state ℚ :=
  tpsnap_state_init
    (edge_store [mkEdge 1 [pt 0 1, pt 10 1], mkEdge 2 [pt 0 0, pt 10 0], mkEdge 3 [pt 3 1]])
    1.0 (-1) true

/-- Reference edges `[(0,1),(10,1)]`, the one-point line `[(3,1)]` and
`[(0,0),(10,0)]`, in this order; `tolerance_snap = 1.0`, removal disabled. -/
def fail_then_cover_state : lwgeom_tpsnap_state ℚ :=
  tpsnap_state_init
    (edge_store [mkEdge 1 [pt 0 1, pt 10 1], mkEdge 3 [pt 3 1], mkEdge 2 [pt 0 0, pt 10 0]])
    1.0 (-1) true

/-- The run of `far_state` with `iterate = true`. -/
def far_iterate_state : lwgeom_tpsnap_state ℚ :=
  tpsnap_state_init
    (edge_store [mkEdge 1 [pt 0 (2 * FLT_MAX_Q), pt 0 (6 * FLT_MAX_Q)]])
    (2 * FLT_MAX_Q) (-1) true

end Scenarios

/-! ## The Geobuf encoder (`postgis/geobuf.c`)

The conventions of the snapping engine are kept: C `double` is a linearly
ordered field, here with a floor function for `ceil`; a point array is the
list of its points.  The `int64_t` cells of the coordinate buffer hold their
integers exactly (`Int`): a quantised coordinate that does not fit in 64 bits
is outside the range in which the `double` arithmetic of the source is exact
in the first place.  The integers of `set_int_value` are machine integers,
with the conversions written out. -/

namespace Geobuf

/-- The fields of the encoding `Context` that the coordinate and feature
encoders read and write: the scale `e`, `has_dimensions` and `dimensions`
(`uint32_t`, `protobuf_c_boolean`, `uint32_t`). -/
structure Context where
  e : Nat
  has_dimensions : Bool
  dimensions : Nat
deriving DecidableEq

/-- A `Data__Value` after `data__value__init` and `set_int_value`: the tag
`value_type_case` with the member of the union it selects; the integer
members are `uint64_t`.  The string, double, bool and json members are not
written by `set_int_value` and are left out. -/
inductive Data__Value where
  | VALUE_TYPE__NOT_SET : Data__Value
  | VALUE_TYPE_POS_INT_VALUE (pos_int_value : Nat) : Data__Value
  | VALUE_TYPE_NEG_INT_VALUE (neg_int_value : Nat) : Data__Value
deriving DecidableEq

/-- The geometry types `galloc` is called with by the two encoders embedded
here. -/
inductive Data__Geometry__Type where
  | POINT : Data__Geometry__Type
  | LINESTRING : Data__Geometry__Type
deriving DecidableEq

/-- The fields of `Data__Geometry` the point and line encoders fill: the type,
`n_coords` and the coordinate buffer.  A cell of the buffer that was allocated
and never written is `none`. -/
structure Data__Geometry where
  type : Data__Geometry__Type
  n_coords : Nat
  coords : List (Option Int)
deriving DecidableEq

/-- A line or a point as the encoders see it: the `flags` byte and the point
array (`LWLINE.points`, `LWPOINT.point`). -/
structure LWLINE (α : Type) where
  flags : Nat
  points : POINTARRAY α

/-- The flag accessors `FLAGS_GET_Z`, `FLAGS_GET_M` and `FLAGS_GET_ZM` of
`liblwgeom.h`, which the sources use and do not define: each maps the flags
byte to a C integer read as a truth value. -/
structure flag_accessors where
  FLAGS_GET_Z : Nat → Nat
  FLAGS_GET_M : Nat → Nat
  FLAGS_GET_ZM : Nat → Nat

/-- Modelled from the spec: the flag accessors as `liblwgeom.h` defines them,
absent from the sources.  Z is bit 0 of the flags byte, M is bit 1, and
`FLAGS_GET_ZM` is `M + 2 * Z`. -/
def lwflags : flag_accessors :=
  ⟨fun flags => flags % 2, fun flags => (flags / 2) % 2,
    fun flags => (flags / 2) % 2 + (flags % 2) * 2⟩

section Encoder

variable {α : Type} [LinearOrderedField α] [FloorRing α]

/-- Source `galloc`: a geometry of the given type, everything else as
`data__geometry__init` leaves it. -/
def galloc (type : Data__Geometry__Type) : Data__Geometry := ⟨type, 0, []⟩

/-- The conversion of an integer to C `int` (32 bits, two's complement): the
value is reduced modulo `2^32`. -/
def to_int (v : Int) : Int := (v + 2 ^ 31) % 2 ^ 32 - 2 ^ 31

/-- The conversion of an integer to `uint64_t`: the value modulo `2^64`. -/
def to_uint64 (v : Int) : Nat := (v % 2 ^ 64).toNat

/-- The C library `abs`, of type `int abs(int)`: the argument is converted to
`int` at the call; the absolute value of the least `int` is that same
`int`. -/
def abs_int (v : Int) : Int := to_int (if to_int v < 0 then - to_int v else to_int v)

/-- Source `set_int_value`, for `intval` of type `int64`. -/
def set_int_value (intval : Int) : Data__Value :=
  if intval ≥ 0 then Data__Value.VALUE_TYPE_POS_INT_VALUE (to_uint64 intval)
  else Data__Value.VALUE_TYPE_NEG_INT_VALUE (to_uint64 (abs_int intval))

/-- The loop of `encode_coords`: `n` turns are left, `i` is the point index,
`c` the next cell, `pt` the local point buffer and `sum` the running sums. -/
def encode_coords_loop (ctx : Context) (pa : POINTARRAY α) :
    Nat → Nat → Nat → POINT4D α → Int × Int × Int × Int → List (Option Int) →
    List (Option Int)
  | 0, _, _, _, _, coords => coords
  | n + 1, i, c, pt, (sum0, sum1, sum2, sum3), coords =>
    let pt1 := getPoint4d_p pa (i : Int) pt
    let d0 := Int.ceil (pt1.x * (ctx.e : α)) - sum0
    let coords := coords.set c (some d0)
    let sum0 := sum0 + d0
    let d1 := Int.ceil (pt1.y * (ctx.e : α)) - sum1
    let coords := coords.set (c + 1) (some d1)
    let sum1 := sum1 + d1
    if ctx.dimensions = 3 then
      let d2 := Int.ceil (pt1.z * (ctx.e : α)) - sum2
      encode_coords_loop ctx pa n (i + 1) (c + 3) pt1 (sum0, sum1, sum2 + d2, sum3)
        (coords.set (c + 2) (some d2))
    else if ctx.dimensions = 4 then
      let d3 := Int.ceil (pt1.m * (ctx.e : α)) - sum3
      encode_coords_loop ctx pa n (i + 1) (c + 3) pt1 (sum0, sum1, sum2, sum3 + d3)
        (coords.set (c + 2) (some d3))
    else encode_coords_loop ctx pa n (i + 1) (c + 2) pt1 (sum0, sum1, sum2, sum3) coords

/-- Source `encode_coords`, for `len` and `offset` not negative: the buffer is
allocated for `len * dimensions` cells (or grown to that many more than
`offset`) and the deltas of the first `len` points are written from cell
`offset` on.  `pt` is the content of the local point buffer before the
loop. -/
def encode_coords (ctx : Context) (pa : POINTARRAY α) (coords : List (Option Int))
    (len offset : Nat) (pt : POINT4D α) : List (Option Int) :=
  let coords1 :=
    if offset = 0 then List.replicate (len * ctx.dimensions) none
    else
      (coords ++ List.replicate (len * ctx.dimensions + offset - coords.length) none).take
        (len * ctx.dimensions + offset)
  encode_coords_loop ctx pa len 0 offset pt (0, 0, 0, 0) coords1

/-- Source `encode_line`. -/
def encode_line (ctx : Context) (lwline : LWLINE α) (pt : POINT4D α) : Data__Geometry :=
  let geometry := galloc Data__Geometry__Type.LINESTRING
  let pa := lwline.points
  if pa.length = 0 then geometry
  else
    { geometry with
      n_coords := pa.length * ctx.dimensions,
      coords := encode_coords ctx pa [] pa.length 0 pt }

/-- Source `encode_point`. -/
def encode_point (ctx : Context) (lwpoint : LWLINE α) (pt : POINT4D α) : Data__Geometry :=
  let geometry := galloc Data__Geometry__Type.POINT
  let pa := lwpoint.points
  let npoints := pa.length
  if npoints = 0 then geometry
  else
    { geometry with
      n_coords := npoints * ctx.dimensions,
      coords := encode_coords ctx pa [] 1 0 pt }

/-- Source `encode_feature`, the geometry part: the dimension count is fixed
from the flags of the first geometry encoded, then the geometry is encoded.
The geometry encoder is passed in (`encode_geometry` with the geometry at
hand); the updated context is returned with the encoded geometry. -/
def encode_feature {G β : Type} (F : flag_accessors) (flags : G → Nat)
    (encode_geometry : Context → G → β) (ctx : Context) (lwgeom : G) : Context × β :=
  let ctx1 :=
    if ¬ ctx.has_dimensions then
      let dimensions :=
        if F.FLAGS_GET_Z (flags lwgeom) ≠ 0 ∨ F.FLAGS_GET_M (flags lwgeom) ≠ 0 then 3
        else if F.FLAGS_GET_ZM (flags lwgeom) ≠ 0 then 4
        else 2
      { ctx with dimensions := dimensions, has_dimensions := true }
    else ctx
  (ctx1, encode_geometry ctx1 lwgeom)

/-! ### Notions used to state the properties -/

/-- The integer a `Data__Value` stands for: the magnitude with the sign the
tag gives. -/
def int_of_value : Data__Value → Option Int
  | Data__Value.VALUE_TYPE__NOT_SET => none
  | Data__Value.VALUE_TYPE_POS_INT_VALUE v => some (v : Int)
  | Data__Value.VALUE_TYPE_NEG_INT_VALUE v => some (-(v : Int))

end Encoder

end Geobuf

/-! # Theorems -/

set_option linter.unusedSectionVars false
set_option linter.unusedVariables false

section EngineTheorems

variable {α : Type} [LinearOrderedField α]

/-! ## The edge cache -/

theorem get_edges_fetched (s : lwgeom_tpsnap_state α) :
    lwgeom_tpsnap_state_get_edges (fetched s) = lwgeom_tpsnap_state_get_edges s := by
  unfold fetched lwgeom_tpsnap_state_get_edges
  cases h : s.workedges with
  | some es => simp [h]
  | none =>
    simp only [h]
    unfold lwt_be_getEdgeWithinBox2D
    cases h2 : s.topo.edges_within_box s.expanded_workext with
    | none => simp [h2]
    | some l =>
      cases l with
      | nil => simp [h2]
      | cons e es => simp

theorem fetched_fetched (s : lwgeom_tpsnap_state α) : fetched (fetched s) = fetched s := by
  show (lwgeom_tpsnap_state_get_edges (fetched s)).1 = _
  rw [get_edges_fetched]
  rfl

theorem work_edges_fetched (s : lwgeom_tpsnap_state α) :
    work_edges (fetched s) = work_edges s := by
  unfold work_edges
  rw [get_edges_fetched]

theorem backend_ok_fetched (s : lwgeom_tpsnap_state α) :
    backend_ok (fetched s) ↔ backend_ok s := by
  unfold backend_ok
  rw [get_edges_fetched]

theorem fetched_tolerance_snap (s : lwgeom_tpsnap_state α) :
    (fetched s).tolerance_snap = s.tolerance_snap := by
  unfold fetched lwgeom_tpsnap_state_get_edges
  cases s.workedges <;> rfl

theorem fetched_tolerance_removal (s : lwgeom_tpsnap_state α) :
    (fetched s).tolerance_removal = s.tolerance_removal := by
  unfold fetched lwgeom_tpsnap_state_get_edges
  cases s.workedges <;> rfl

theorem fetched_iterate (s : lwgeom_tpsnap_state α) :
    (fetched s).iterate = s.iterate := by
  unfold fetched lwgeom_tpsnap_state_get_edges
  cases s.workedges <;> rfl

theorem fetched_workext (s : lwgeom_tpsnap_state α) :
    (fetched s).workext = s.workext := by
  unfold fetched lwgeom_tpsnap_state_get_edges
  cases s.workedges <;> rfl

theorem fetched_expanded_workext (s : lwgeom_tpsnap_state α) :
    (fetched s).expanded_workext = s.expanded_workext := by
  unfold fetched lwgeom_tpsnap_state_get_edges
  cases s.workedges <;> rfl

theorem fetched_topo (s : lwgeom_tpsnap_state α) :
    (fetched s).topo = s.topo := by
  unfold fetched lwgeom_tpsnap_state_get_edges
  cases s.workedges <;> rfl

/-- What `lwgeom_tpsnap_state_get_edges` returns, in the notions above. -/
theorem get_edges_eq (s : lwgeom_tpsnap_state α) :
    ∃ n es, lwgeom_tpsnap_state_get_edges s = (fetched s, n, es) ∧
      (n ≠ -1 ↔ backend_ok s) ∧ es.take n.toNat = work_edges s := by
  refine ⟨(lwgeom_tpsnap_state_get_edges s).2.1, (lwgeom_tpsnap_state_get_edges s).2.2,
    rfl, Iff.rfl, rfl⟩

/-! ## Closest segment and candidate set -/

/-- The closest-segment loop either keeps the running pair or ends on a
segment it visited, with a strictly smaller distance. -/
theorem closest_segment_loop_range (K : Kernel α) (pt : POINT2D α) :
    ∀ (rest : List (POINT4D α)) (s0 : POINT2D α) (j segno : Int) (dist : α) (r : Int × α),
      closest_segment_loop K pt s0 rest j segno dist = some r →
      r = (segno, dist) ∨ (j ≤ r.1 ∧ r.1 < j + rest.length ∧ r.2 < dist) := by
  intro rest
  induction rest with
  | nil =>
    intro s0 j segno dist r h
    simp [closest_segment_loop] at h
    exact Or.inl h.symm
  | cons q rest ih =>
    intro s0 j segno dist r h
    simp only [closest_segment_loop] at h
    cases hd : K.lw_dist2d_pt_seg pt s0 q.xy with
    | none => simp [hd] at h
    | some d =>
      simp only [hd] at h
      by_cases hlt : d < dist
      · simp only [hlt, if_true] at h
        right
        rcases ih _ _ _ _ _ h with h1 | ⟨h1, h2, h3⟩
        · subst h1
          simp only [List.length_cons, Nat.cast_add, Nat.cast_one]
          refine ⟨le_refl _, ?_, hlt⟩
          have : (0 : Int) ≤ (rest.length : Int) := Int.natCast_nonneg _
          omega
        · simp only [List.length_cons, Nat.cast_add, Nat.cast_one]
          exact ⟨by omega, by omega, lt_trans h3 hlt⟩
      · simp only [hlt, if_false] at h
        rcases ih _ _ _ _ _ h with h1 | ⟨h1, h2, h3⟩
        · exact Or.inl h1
        · right
          simp only [List.length_cons, Nat.cast_add, Nat.cast_one]
          exact ⟨by omega, by omega, h3⟩

/-- A closest-segment result is the initial pair `(-1, FLT_MAX)` or a segment
index of the array with a distance below `FLT_MAX`. -/
theorem find_closest_segment_range (K : Kernel α) (pt : POINT2D α) (pa : POINTARRAY α)
    (r : Int × α) (h : _rt_find_closest_segment K pt pa = some r) :
    r = (-1, K.FLT_MAX) ∨ (0 ≤ r.1 ∧ r.1 + 1 < pa.length ∧ r.2 < K.FLT_MAX) := by
  unfold _rt_find_closest_segment at h
  by_cases hlen : pa.length < 2
  · simp [hlen] at h
    exact Or.inl h.symm
  · simp only [hlen, if_false] at h
    cases pa with
    | nil => simp at h; exact Or.inl h.symm
    | cons p0 rest =>
      simp only at h
      rcases closest_segment_loop_range K pt _ _ _ _ _ _ h with h1 | ⟨h1, h2, h3⟩
      · exact Or.inl h1
      · right
        simp only [List.length_cons, Nat.cast_add, Nat.cast_one]
        exact ⟨h1, by omega, h3⟩

/-- The closest-segment loop returns when the distance kernel does not fail. -/
theorem closest_segment_loop_isSome (K : Kernel α) (pt : POINT2D α)
    (hk : ∀ p a b, K.lw_dist2d_pt_seg p a b ≠ none) :
    ∀ (rest : List (POINT4D α)) (s0 : POINT2D α) (j segno : Int) (dist : α),
      closest_segment_loop K pt s0 rest j segno dist ≠ none := by
  intro rest
  induction rest with
  | nil => intro s0 j segno dist; simp [closest_segment_loop]
  | cons q rest ih =>
    intro s0 j segno dist
    simp only [closest_segment_loop]
    cases hd : K.lw_dist2d_pt_seg pt s0 q.xy with
    | none => exact absurd hd (hk _ _ _)
    | some d =>
      simp only
      split
      · exact ih _ _ _ _
      · exact ih _ _ _ _

theorem find_closest_segment_isSome (K : Kernel α) (pt : POINT2D α) (pa : POINTARRAY α)
    (hk : ∀ p a b, K.lw_dist2d_pt_seg p a b ≠ none) :
    _rt_find_closest_segment K pt pa ≠ none := by
  unfold _rt_find_closest_segment
  split
  · simp
  · cases pa with
    | nil => simp
    | cons p0 rest => exact closest_segment_loop_isSome K pt hk _ _ _ _ _

theorem outside_iff_not_in_workext (state : lwgeom_tpsnap_state α) (q : POINT4D α) :
    (q.x < state.expanded_workext.xmin ∨ q.x > state.expanded_workext.xmax ∨
     q.y < state.expanded_workext.ymin ∨ q.y > state.expanded_workext.ymax) ↔
    in_workext state q.xy = false := by
  simp only [in_workext, POINT4D.xy, decide_eq_false_iff_not, not_and_or, not_le, gt_iff_lt]

/-- If the extraction loop returns, it has appended the candidate records of
the vertices of the edge, in order. -/
theorem extract_vertices_loop_eq (K : Kernel α) (state : lwgeom_tpsnap_state α)
    (pa : POINTARRAY α) :
    ∀ (l : List (POINT4D α)) (vset r : List (LWT_SNAPV α)),
      extract_vertices_loop K state pa l vset = some r →
      r = vset ++ l.filterMap (candidate_of K state pa) := by
  intro l
  induction l with
  | nil => intro vset r h; simp [extract_vertices_loop] at h; simp [h]
  | cons q rest ih =>
    intro vset r h
    simp only [extract_vertices_loop] at h
    by_cases hout : (q.x < state.expanded_workext.xmin ∨ q.x > state.expanded_workext.xmax ∨
        q.y < state.expanded_workext.ymin ∨ q.y > state.expanded_workext.ymax)
    · rw [if_pos hout] at h
      have hin := (outside_iff_not_in_workext state q).1 hout
      rw [ih _ _ h, List.filterMap_cons]
      simp [candidate_of, hin]
    · rw [if_neg hout] at h
      have hin : in_workext state q.xy = true := by
        cases hb : in_workext state q.xy with
        | true => rfl
        | false => exact absurd ((outside_iff_not_in_workext state q).2 hb) hout
      cases hc : _rt_find_closest_segment K q.xy pa with
      | none => simp [hc] at h
      | some sd =>
        obtain ⟨segno, dist⟩ := sd
        simp only [hc] at h
        by_cases hd : dist ≤ state.tolerance_snap
        · rw [if_pos hd] at h
          rw [ih _ _ h, List.filterMap_cons]
          simp [candidate_of, hin, hc, hd]
        · rw [if_neg hd] at h
          rw [ih _ _ h, List.filterMap_cons]
          simp [candidate_of, hin, hc, hd]

/-- The extraction loop returns when no closest-segment search fails. -/
theorem extract_vertices_loop_isSome (K : Kernel α) (state : lwgeom_tpsnap_state α)
    (pa : POINTARRAY α) (hk : ∀ p a b, K.lw_dist2d_pt_seg p a b ≠ none) :
    ∀ (l : List (POINT4D α)) (vset : List (LWT_SNAPV α)),
      extract_vertices_loop K state pa l vset ≠ none := by
  intro l
  induction l with
  | nil => intro vset; simp [extract_vertices_loop]
  | cons q rest ih =>
    intro vset
    simp only [extract_vertices_loop]
    split
    · exact ih _
    · cases hc : _rt_find_closest_segment K q.xy pa with
      | none => exact absurd hc (find_closest_segment_isSome K _ _ hk)
      | some sd =>
        obtain ⟨segno, dist⟩ := sd
        simp only
        split
        · exact ih _
        · exact ih _

theorem find_vertices_loop_eq (K : Kernel α) (state : lwgeom_tpsnap_state α)
    (pa : POINTARRAY α) :
    ∀ (edges : List (LWT_ISO_EDGE α)) (vset r : List (LWT_SNAPV α)),
      find_vertices_loop K state pa edges vset = some r →
      r = vset ++ candidate_set K state pa edges := by
  intro edges
  induction edges with
  | nil => intro vset r h; simp [find_vertices_loop] at h; simp [candidate_set, h]
  | cons e rest ih =>
    intro vset r h
    simp only [find_vertices_loop, _rt_extract_vertices_within_dist] at h
    cases he : extract_vertices_loop K state pa e.geom vset with
    | none => simp [he] at h
    | some v1 =>
      simp only [he] at h
      rw [ih _ _ h, extract_vertices_loop_eq K state pa _ _ _ he]
      simp [candidate_set, List.append_assoc]

theorem find_vertices_loop_isSome (K : Kernel α) (state : lwgeom_tpsnap_state α)
    (pa : POINTARRAY α) (hk : ∀ p a b, K.lw_dist2d_pt_seg p a b ≠ none) :
    ∀ (edges : List (LWT_ISO_EDGE α)) (vset : List (LWT_SNAPV α)),
      find_vertices_loop K state pa edges vset ≠ none := by
  intro edges
  induction edges with
  | nil => intro vset; simp [find_vertices_loop]
  | cons e rest ih =>
    intro vset
    simp only [find_vertices_loop, _rt_extract_vertices_within_dist]
    cases he : extract_vertices_loop K state pa e.geom vset with
    | none => exact absurd he (extract_vertices_loop_isSome K state pa hk _ _)
    | some v1 => exact ih _

/-- The candidate set does not depend on the edge cache of the state. -/
theorem candidate_set_fetched (K : Kernel α) (state : lwgeom_tpsnap_state α)
    (pa : POINTARRAY α) (edges : List (LWT_ISO_EDGE α)) :
    candidate_set K (fetched state) pa edges = candidate_set K state pa edges := by
  have : candidate_of K (fetched state) pa = candidate_of K state pa := by
    funext q
    simp [candidate_of, in_workext, fetched_expanded_workext, fetched_tolerance_snap]
  simp [candidate_set, this]

/-- If the candidate finder returns, it returns the given set followed by the
candidate set of the cached edges, and the fetched state. -/
theorem find_vertices_within_dist_eq (K : Kernel α) (vset : List (LWT_SNAPV α))
    (pa : POINTARRAY α) (state : lwgeom_tpsnap_state α)
    (r : List (LWT_SNAPV α) × lwgeom_tpsnap_state α)
    (h : _rt_find_vertices_within_dist K vset pa state = some r) :
    r = (vset ++ candidate_set K state pa (work_edges state), fetched state) ∧
      backend_ok state := by
  unfold _rt_find_vertices_within_dist at h
  obtain ⟨n, es, hg, hn, hes⟩ := get_edges_eq state
  rw [hg] at h
  simp only at h
  by_cases hn1 : n = -1
  · simp [hn1] at h
  · rw [if_neg hn1] at h
    cases hf : find_vertices_loop K (fetched state) pa (List.take n.toNat es) vset with
    | none => simp [hf] at h
    | some v1 =>
      simp only [hf, Option.some.injEq] at h
      rw [find_vertices_loop_eq K _ pa _ _ _ hf, hes, candidate_set_fetched] at h
      exact ⟨h.symm, hn.1 hn1⟩

theorem find_vertices_within_dist_total (K : Kernel α) (vset : List (LWT_SNAPV α))
    (pa : POINTARRAY α) (state : lwgeom_tpsnap_state α)
    (hb : backend_ok state) (hk : ∀ p a b, K.lw_dist2d_pt_seg p a b ≠ none) :
    _rt_find_vertices_within_dist K vset pa state =
      some (vset ++ candidate_set K state pa (work_edges state), fetched state) := by
  cases h : _rt_find_vertices_within_dist K vset pa state with
  | some r => rw [(find_vertices_within_dist_eq K vset pa state r h).1]
  | none =>
    exfalso
    unfold _rt_find_vertices_within_dist at h
    obtain ⟨n, es, hg, hn, hes⟩ := get_edges_eq state
    rw [hg] at h
    simp only at h
    rw [if_neg (hn.2 hb)] at h
    cases hf : find_vertices_loop K (fetched state) pa (List.take n.toNat es) vset with
    | none => exact find_vertices_loop_isSome K _ pa hk _ _ hf
    | some v1 => simp [hf] at h

/-- Every record of the candidate set comes from a vertex of a cached edge
inside the expanded work extent, carries the closest-segment result of that
vertex, and has a distance of at most `tolerance_snap`. -/
theorem mem_candidate_set (K : Kernel α) (state : lwgeom_tpsnap_state α)
    (pa : POINTARRAY α) (edges : List (LWT_ISO_EDGE α)) (c : LWT_SNAPV α) :
    c ∈ candidate_set K state pa edges ↔
      ∃ e ∈ edges, ∃ q ∈ e.geom, c.pt = q.xy ∧ in_workext state q.xy = true ∧
        _rt_find_closest_segment K q.xy pa = some (c.segno, c.dist) ∧
        c.dist ≤ state.tolerance_snap := by
  simp only [candidate_set, List.mem_flatMap, List.mem_filterMap, candidate_of]
  constructor
  · rintro ⟨e, he, q, hq, hc⟩
    refine ⟨e, he, q, hq, ?_⟩
    by_cases hin : in_workext state q.xy = true
    · rw [if_pos hin] at hc
      cases hcs : _rt_find_closest_segment K q.xy pa with
      | none => simp [hcs] at hc
      | some sd =>
        obtain ⟨segno, dist⟩ := sd
        simp only [hcs] at hc
        by_cases hd : dist ≤ state.tolerance_snap
        · rw [if_pos hd] at hc
          simp only [Option.some.injEq] at hc
          subst hc
          exact ⟨rfl, hin, rfl, hd⟩
        · rw [if_neg hd] at hc
          simp at hc
    · rw [if_neg hin] at hc
      simp at hc
  · rintro ⟨e, he, q, hq, h1, h2, h3, h4⟩
    refine ⟨e, he, q, hq, ?_⟩
    rw [if_pos h2, h3]
    simp only [h4, if_true, Option.some.injEq]
    cases c
    simp_all

/-! ## The candidate order -/

theorem compare_snapv_le_iff (a b : LWT_SNAPV α) :
    compare_snapv a b ≤ 0 ↔
      (a.dist < b.dist ∨ (a.dist = b.dist ∧
        (a.pt.x < b.pt.x ∨ (a.pt.x = b.pt.x ∧ a.pt.y ≤ b.pt.y)))) := by
  unfold compare_snapv
  rcases lt_trichotomy a.dist b.dist with h | h | h
  · simp [h]
  · rcases lt_trichotomy a.pt.x b.pt.x with hx | hx | hx
    · simp [h, hx]
    · rcases lt_trichotomy a.pt.y b.pt.y with hy | hy | hy
      · simp [h, hx, hy, hy.le]
      · simp [h, hx, hy]
      · simp [h, hx, hy, not_lt.2 hy.le, not_le.2 hy]
    · simp [h, hx, not_lt.2 hx.le, hx.ne']
  · simp [h, not_lt.2 h.le, h.ne']

theorem compare_snapv_le_iff_key (a b : LWT_SNAPV α) :
    compare_snapv a b ≤ 0 ↔ snapv_key a ≤ snapv_key b := by
  rw [compare_snapv_le_iff]
  unfold snapv_key
  rw [Prod.Lex.le_iff]
  simp only [Prod.Lex.le_iff, ofLex_toLex]

theorem snapv_key_inj (a b : LWT_SNAPV α) (h : snapv_key a = snapv_key b) :
    a.dist = b.dist ∧ a.pt = b.pt := by
  unfold snapv_key at h
  have h1 := toLex.injective h
  simp only [Prod.mk.injEq] at h1
  have h2 := toLex.injective h1.2
  simp only [Prod.mk.injEq] at h2
  refine ⟨h1.1, ?_⟩
  cases ha : a.pt; cases hb : b.pt
  simp_all

/-- Two records that do not precede each other strictly have the same
distance and the same point. -/
theorem compare_snapv_antisymm (a b : LWT_SNAPV α) (h1 : compare_snapv a b ≤ 0)
    (h2 : compare_snapv b a ≤ 0) : a.dist = b.dist ∧ a.pt = b.pt := by
  rw [compare_snapv_le_iff_key] at h1 h2
  exact snapv_key_inj a b (le_antisymm h1 h2)

theorem compare_snapv_eq_zero (a b : LWT_SNAPV α) (h : compare_snapv a b = 0) :
    a.dist = b.dist ∧ a.pt = b.pt := by
  have h1 : compare_snapv a b ≤ 0 := by omega
  refine compare_snapv_antisymm a b h1 ?_
  rw [compare_snapv_le_iff] at h1 ⊢
  unfold compare_snapv at h
  rcases h1 with h1 | ⟨h1, h2 | ⟨h2, h3⟩⟩
  · simp [h1] at h
  · simp [h1, h2] at h
  · rcases lt_or_eq_of_le h3 with h4 | h4
    · simp [h1, h2, h4] at h
    · right
      exact ⟨h1.symm, Or.inr ⟨h2.symm, h4.symm.le⟩⟩

theorem qsort_perm (l : List (LWT_SNAPV α)) : (qsort compare_snapv l).Perm l :=
  List.perm_insertionSort _ l

theorem qsort_sorted (l : List (LWT_SNAPV α)) :
    List.Sorted (fun a b => compare_snapv a b ≤ 0) (qsort compare_snapv l) := by
  haveI : IsTotal (LWT_SNAPV α) (fun a b => compare_snapv a b ≤ 0) :=
    ⟨fun a b => by simp only [compare_snapv_le_iff_key]; exact le_total _ _⟩
  haveI : IsTrans (LWT_SNAPV α) (fun a b => compare_snapv a b ≤ 0) :=
    ⟨fun a b c h1 h2 => by
      rw [compare_snapv_le_iff_key] at *
      exact le_trans h1 h2⟩
  exact List.sorted_insertionSort _ l

/-- Two sorted arrangements of the same elements are equal when elements
that tie are equal. -/
theorem sorted_perm_unique {β : Type} (r : β → β → Prop) :
    ∀ (l1 l2 : List β), l1.Perm l2 → l1.Sorted r → l2.Sorted r →
      (∀ a ∈ l1, ∀ b ∈ l1, r a b → r b a → a = b) → l1 = l2 := by
  intro l1
  induction l1 with
  | nil =>
    intro l2 hp _ _ _
    exact hp.nil_eq
  | cons a t ih =>
    intro l2 hp h1 h2 hanti
    cases l2 with
    | nil => exact absurd hp.eq_nil (by simp)
    | cons b t2 =>
      have ha : a ∈ b :: t2 := hp.subset (List.mem_cons_self _ _)
      have hb : b ∈ a :: t := hp.symm.subset (List.mem_cons_self _ _)
      have hab : a = b := by
        rcases List.mem_cons.1 ha with h | h
        · exact h
        · rcases List.mem_cons.1 hb with h' | h'
          · exact h'.symm
          · have r1 : r b a := List.rel_of_sorted_cons h2 a h
            have r2 : r a b := List.rel_of_sorted_cons h1 b h'
            exact hanti a (List.mem_cons_self _ _) b hb r2 r1
      subst hab
      congr 1
      exact ih t2 hp.cons_inv h1.of_cons h2.of_cons
        (fun x hx y hy => hanti x (List.mem_cons_of_mem _ hx) y (List.mem_cons_of_mem _ hy))

/-! ## A single addition pass -/

theorem segment_covered_loop_eq (K : Kernel α) (p1 p2 : POINT4D α) :
    ∀ (edges : List (LWT_ISO_EDGE α)),
      (∀ e ∈ edges, K.GEOSCovers e.geom p1 p2 ≠ none) →
      segment_covered_loop K p1 p2 edges = some (covered_by K edges p1 p2) := by
  intro edges
  induction edges with
  | nil => intro _; simp [segment_covered_loop, covered_by]
  | cons e rest ih =>
    intro hcov
    simp only [segment_covered_loop]
    cases hc : K.GEOSCovers e.geom p1 p2 with
    | none => exact absurd hc (hcov e (List.mem_cons_self _ _))
    | some b =>
      cases b with
      | true => simp [covered_by, hc]
      | false =>
        simp only
        rw [ih (fun e he => hcov e (List.mem_cons_of_mem _ he))]
        simp [covered_by, hc]

theorem rt_segment_covered_eq (K : Kernel α) (state : lwgeom_tpsnap_state α)
    (p1 p2 : POINT4D α) (hb : backend_ok state)
    (hcov : ∀ e ∈ work_edges state, K.GEOSCovers e.geom p1 p2 ≠ none) :
    _rt_segment_covered K state p1 p2 =
      some (covered_by K (work_edges state) p1 p2, fetched state) := by
  unfold _rt_segment_covered
  obtain ⟨n, es, hg, hn, hes⟩ := get_edges_eq state
  rw [hg]
  simp only
  rw [if_neg (hn.2 hb), hes, segment_covered_loop_eq K p1 p2 _ hcov]

/-- What `_rt_snap_to_valid_vertex` returns when the covers predicate does not
fail: it snaps exactly when the candidate is valid, by inserting the vertex
after the first point of its segment. -/
theorem snap_to_valid_vertex_eq (K : Kernel α) (pa : POINTARRAY α) (v : LWT_SNAPV α)
    (state : lwgeom_tpsnap_state α) (hb : backend_ok state)
    (hcov : ∀ e ∈ work_edges state, ∀ p q, K.GEOSCovers e.geom p q ≠ none)
    (hins : (v.segno + 1).toNat ≤ pa.length) :
    ∃ st, (st = state ∨ st = fetched state) ∧
      _rt_snap_to_valid_vertex K pa v state =
        some (valid_candidate K pa (work_edges state) v,
          if valid_candidate K pa (work_edges state) v then insert_candidate pa v else pa,
          st) := by
  unfold _rt_snap_to_valid_vertex
  simp only
  by_cases hv : endpoint_veto K pa v = true
  · have hv1 := hv
    unfold endpoint_veto at hv1
    simp only at hv1
    rw [if_pos hv1]
    exact ⟨state, Or.inl rfl, by simp [valid_candidate, hv]⟩
  · have hv1 := hv
    unfold endpoint_veto at hv1
    simp only at hv1
    rw [if_neg hv1]
    rw [rt_segment_covered_eq K state _ _ hb (fun e he => hcov e he _ _)]
    refine ⟨fetched state, Or.inr rfl, ?_⟩
    have hv2 : endpoint_veto K pa v = false := by simpa using hv
    cases hc : covered_by K (work_edges state) (getPoint4d_p pa v.segno K.unwritten)
        (getPoint4d_p pa (v.segno + 1) K.unwritten) with
    | true => simp [valid_candidate, hv2, hc]
    | false =>
      simp only [ptarray_insert_point, if_pos hins]
      simp [valid_candidate, hv2, hc, insert_candidate]

/-- What `_rt_snap_to_first_valid_vertex` returns when the covers predicate
does not fail: the first valid candidate of the list is inserted, or nothing
is. -/
theorem snap_to_first_valid_vertex_eq (K : Kernel α) (pa : POINTARRAY α) :
    ∀ (vset : List (LWT_SNAPV α)) (state : lwgeom_tpsnap_state α),
      backend_ok state →
      (∀ e ∈ work_edges state, ∀ p q, K.GEOSCovers e.geom p q ≠ none) →
      (∀ v ∈ vset, (v.segno + 1).toNat ≤ pa.length) →
      ∃ st, (st = state ∨ st = fetched state) ∧
        _rt_snap_to_first_valid_vertex K pa vset state =
          some (match vset.find? (valid_candidate K pa (work_edges state)) with
            | some c => (true, insert_candidate pa c, st)
            | none => (false, pa, st)) := by
  intro vset
  induction vset with
  | nil =>
    intro state _ _ _
    exact ⟨state, Or.inl rfl, by simp [_rt_snap_to_first_valid_vertex]⟩
  | cons v rest ih =>
    intro state hb hcov hins
    obtain ⟨st1, hst1, h1⟩ := snap_to_valid_vertex_eq K pa v state hb hcov
      (hins v (List.mem_cons_self _ _))
    simp only [_rt_snap_to_first_valid_vertex, h1]
    cases hv : valid_candidate K pa (work_edges state) v with
    | true =>
      refine ⟨st1, hst1, ?_⟩
      simp [List.find?_cons, hv]
    | false =>
      have hw : work_edges st1 = work_edges state := by
        rcases hst1 with h | h
        · rw [h]
        · rw [h, work_edges_fetched]
      have hb1 : backend_ok st1 := by
        rcases hst1 with h | h
        · rw [h]; exact hb
        · rw [h]; exact (backend_ok_fetched state).2 hb
      obtain ⟨st2, hst2, h2⟩ := ih st1 hb1 (by rw [hw]; exact hcov)
        (fun v hv => hins v (List.mem_cons_of_mem _ hv))
      refine ⟨st2, ?_, ?_⟩
      · rcases hst2 with h | h
        · rw [h]; exact hst1
        · right
          rcases hst1 with h' | h'
          · rw [h, h']
          · rw [h, h', fetched_fetched]
      · simp only [Bool.false_eq_true, if_false]
        rw [h2, hw]
        simp [List.find?_cons, hv]

theorem segment_covered_loop_false (K : Kernel α) (p1 p2 : POINT4D α) :
    ∀ (edges : List (LWT_ISO_EDGE α)),
      segment_covered_loop K p1 p2 edges = some false → covered_by K edges p1 p2 = false := by
  intro edges
  induction edges with
  | nil => intro _; simp [covered_by]
  | cons e rest ih =>
    intro h
    simp only [segment_covered_loop] at h
    cases hc : K.GEOSCovers e.geom p1 p2 with
    | none => simp [hc] at h
    | some b =>
      cases b with
      | true => simp [hc] at h
      | false =>
        simp only [hc] at h
        have := ih h
        simp only [covered_by, List.any_cons, hc] at this ⊢
        simpa using this

/-- If `_rt_snap_to_valid_vertex` returns, the array is unchanged unless it
snapped, and then the candidate passed both checks and was inserted. -/
theorem snap_to_valid_vertex_some (K : Kernel α) (pa : POINTARRAY α) (v : LWT_SNAPV α)
    (state : lwgeom_tpsnap_state α) (b : Bool) (pa1 : POINTARRAY α)
    (st1 : lwgeom_tpsnap_state α)
    (h : _rt_snap_to_valid_vertex K pa v state = some (b, pa1, st1)) :
    (st1 = state ∨ st1 = fetched state) ∧ (b = false → pa1 = pa) ∧
      (b = true → pa1 = insert_candidate pa v ∧ (v.segno + 1).toNat ≤ pa.length ∧
        valid_candidate K pa (work_edges state) v = true) := by
  unfold _rt_snap_to_valid_vertex at h
  simp only at h
  by_cases hv : endpoint_veto K pa v = true
  · have hv1 := hv
    unfold endpoint_veto at hv1
    simp only at hv1
    rw [if_pos hv1] at h
    simp only [Option.some.injEq, Prod.mk.injEq] at h
    obtain ⟨h1, h2, h3⟩ := h
    subst h1 h2 h3
    exact ⟨Or.inl rfl, fun _ => rfl, fun hb => by simp at hb⟩
  · have hv1 := hv
    unfold endpoint_veto at hv1
    simp only at hv1
    rw [if_neg hv1] at h
    have hv2 : endpoint_veto K pa v = false := by simpa using hv
    unfold _rt_segment_covered at h
    obtain ⟨n, es, hg, hn, hes⟩ := get_edges_eq state
    rw [hg] at h
    simp only at h
    by_cases hn1 : n = -1
    · simp [hn1] at h
    · rw [if_neg hn1, hes] at h
      cases hc : segment_covered_loop K (getPoint4d_p pa v.segno K.unwritten)
          (getPoint4d_p pa (v.segno + 1) K.unwritten) (work_edges state) with
      | none => simp [hc] at h
      | some c =>
        cases c with
        | true =>
          simp only [hc, Option.some.injEq, Prod.mk.injEq] at h
          obtain ⟨h1, h2, h3⟩ := h
          subst h1 h2 h3
          exact ⟨Or.inr rfl, fun _ => rfl, fun hb => by simp at hb⟩
        | false =>
          simp only [hc] at h
          unfold ptarray_insert_point at h
          by_cases hins : (v.segno + 1).toNat ≤ pa.length
          · rw [if_pos hins] at h
            simp only [Option.some.injEq, Prod.mk.injEq] at h
            obtain ⟨h1, h2, h3⟩ := h
            subst h1 h2 h3
            refine ⟨Or.inr rfl, fun hb => by simp at hb, fun _ => ⟨rfl, hins, ?_⟩⟩
            simp [valid_candidate, hv2, segment_covered_loop_false K _ _ _ hc]
          · rw [if_neg hins] at h
            simp at h

theorem snap_to_first_valid_vertex_some (K : Kernel α) (pa : POINTARRAY α) :
    ∀ (vset : List (LWT_SNAPV α)) (state : lwgeom_tpsnap_state α) (b : Bool)
      (pa1 : POINTARRAY α) (st1 : lwgeom_tpsnap_state α),
      _rt_snap_to_first_valid_vertex K pa vset state = some (b, pa1, st1) →
      (st1 = state ∨ st1 = fetched state) ∧ (b = false → pa1 = pa) ∧
        (b = true → ∃ c ∈ vset, pa1 = insert_candidate pa c ∧
          (c.segno + 1).toNat ≤ pa.length ∧
          valid_candidate K pa (work_edges state) c = true) := by
  intro vset
  induction vset with
  | nil =>
    intro state b pa1 st1 h
    simp only [_rt_snap_to_first_valid_vertex, Option.some.injEq, Prod.mk.injEq] at h
    obtain ⟨h1, h2, h3⟩ := h
    subst h1 h2 h3
    exact ⟨Or.inl rfl, fun _ => rfl, fun hb => by simp at hb⟩
  | cons v rest ih =>
    intro state b pa1 st1 h
    simp only [_rt_snap_to_first_valid_vertex] at h
    cases h1 : _rt_snap_to_valid_vertex K pa v state with
    | none => simp [h1] at h
    | some r =>
      obtain ⟨b2, pa2, st2⟩ := r
      obtain ⟨hs, hf, ht⟩ := snap_to_valid_vertex_some K pa v state b2 pa2 st2 h1
      cases b2 with
      | true =>
        simp only [h1, Option.some.injEq, Prod.mk.injEq] at h
        obtain ⟨e1, e2, e3⟩ := h
        subst e1 e2 e3
        obtain ⟨t1, t2, t3⟩ := ht rfl
        exact ⟨hs, fun hb => by simp at hb,
          fun _ => ⟨v, List.mem_cons_self _ _, t1, t2, t3⟩⟩
      | false =>
        simp only [h1] at h
        have hpa : pa2 = pa := hf rfl
        subst hpa
        obtain ⟨is, jf, jt⟩ := ih st2 b pa1 st1 h
        have hw : work_edges st2 = work_edges state := by
          rcases hs with e | e
          · rw [e]
          · rw [e, work_edges_fetched]
        refine ⟨?_, jf, ?_⟩
        · rcases is with e | e
          · rw [e]; exact hs
          · right
            rcases hs with e' | e'
            · rw [e, e']
            · rw [e, e', fetched_fetched]
        · intro hb
          obtain ⟨c, hc, k1, k2, k3⟩ := jt hb
          exact ⟨c, List.mem_cons_of_mem _ hc, k1, k2, by rw [← hw]; exact k3⟩

/-- If a single addition pass returns, the state is the fetched state, and
the array is unchanged unless the pass snapped; then a valid candidate of the
candidate set was inserted. -/
theorem addition_pass_some (K : Kernel α) (pa : POINTARRAY α)
    (state : lwgeom_tpsnap_state α) (b : Bool) (pa1 : POINTARRAY α)
    (st1 : lwgeom_tpsnap_state α) (h : addition_pass K pa state = some (b, pa1, st1)) :
    st1 = fetched state ∧ backend_ok state ∧ (b = false → pa1 = pa) ∧
      (b = true → ∃ c ∈ candidate_set K state pa (work_edges state),
        pa1 = insert_candidate pa c ∧ (c.segno + 1).toNat ≤ pa.length ∧
        valid_candidate K pa (work_edges state) c = true) := by
  unfold addition_pass at h
  cases hf : _rt_find_vertices_within_dist K [] pa state with
  | none => simp [hf] at h
  | some r =>
    obtain ⟨hr, hb⟩ := find_vertices_within_dist_eq K [] pa state r hf
    subst hr
    simp only [hf, List.nil_append] at h
    by_cases hl : (candidate_set K state pa (work_edges state)).length < 1
    · rw [if_pos hl] at h
      simp only [Option.some.injEq, Prod.mk.injEq] at h
      obtain ⟨h1, h2, h3⟩ := h
      subst h1 h2 h3
      exact ⟨rfl, hb, fun _ => rfl, fun hb => by simp at hb⟩
    · rw [if_neg hl] at h
      obtain ⟨hs, hf2, ht⟩ := snap_to_first_valid_vertex_some K pa _ _ b pa1 st1 h
      refine ⟨?_, hb, hf2, ?_⟩
      · rcases hs with e | e
        · exact e
        · rw [e, fetched_fetched]
      · intro hbt
        obtain ⟨c, hc, k1, k2, k3⟩ := ht hbt
        refine ⟨c, (qsort_perm _).mem_iff.1 hc, k1, k2, ?_⟩
        rw [work_edges_fetched] at k3
        exact k3

/-- The insertion index of every record of the candidate set is within the
array. -/
theorem candidate_set_insert_index (K : Kernel α) (state : lwgeom_tpsnap_state α)
    (pa : POINTARRAY α) (edges : List (LWT_ISO_EDGE α)) (c : LWT_SNAPV α)
    (hc : c ∈ candidate_set K state pa edges) : (c.segno + 1).toNat ≤ pa.length := by
  obtain ⟨e, he, q, hq, h1, h2, h3, h4⟩ := (mem_candidate_set K state pa edges c).1 hc
  rcases find_closest_segment_range K _ pa _ h3 with h | ⟨h5, h6, h7⟩
  · simp only [Prod.mk.injEq] at h
    rw [h.1]
    simp
  · simp only at h5 h6
    omega

/-- A single addition pass, when neither the backend nor the kernel fails:
the candidate set is sorted and its first valid record is inserted. -/
theorem addition_pass_eq (K : Kernel α) (pa : POINTARRAY α)
    (state : lwgeom_tpsnap_state α) (hb : backend_ok state)
    (hk : ∀ p a b, K.lw_dist2d_pt_seg p a b ≠ none)
    (hcov : ∀ e ∈ work_edges state, ∀ p q, K.GEOSCovers e.geom p q ≠ none) :
    addition_pass K pa state =
      some (match (qsort compare_snapv (candidate_set K state pa (work_edges state))).find?
            (valid_candidate K pa (work_edges state)) with
        | some c => (true, insert_candidate pa c, fetched state)
        | none => (false, pa, fetched state)) := by
  unfold addition_pass
  rw [find_vertices_within_dist_total K [] pa state hb hk]
  simp only [List.nil_append]
  by_cases hl : (candidate_set K state pa (work_edges state)).length < 1
  · rw [if_pos hl]
    have : candidate_set K state pa (work_edges state) = [] := by
      apply List.eq_nil_of_length_eq_zero
      omega
    simp [this, qsort]
  · rw [if_neg hl]
    obtain ⟨st, hst, h⟩ := snap_to_first_valid_vertex_eq K pa
      (qsort compare_snapv (candidate_set K state pa (work_edges state))) (fetched state)
      ((backend_ok_fetched state).2 hb) (by rw [work_edges_fetched]; exact hcov)
      (fun v hv => candidate_set_insert_index K state pa _ v ((qsort_perm _).mem_iff.1 hv))
    have hst2 : st = fetched state := by
      rcases hst with e | e
      · exact e
      · rw [e, fetched_fetched]
    subst hst2
    rw [h, work_edges_fetched]

/-! ## Independence of the order of the cached edges -/

theorem candidate_set_congr (K : Kernel α) (s1 s2 : lwgeom_tpsnap_state α)
    (pa : POINTARRAY α) (edges : List (LWT_ISO_EDGE α))
    (hext : s1.expanded_workext = s2.expanded_workext)
    (htol : s1.tolerance_snap = s2.tolerance_snap) :
    candidate_set K s1 pa edges = candidate_set K s2 pa edges := by
  have : candidate_of K s1 pa = candidate_of K s2 pa := by
    funext q
    simp [candidate_of, in_workext, hext, htol]
  simp [candidate_set, this]

theorem candidate_set_perm (K : Kernel α) (s : lwgeom_tpsnap_state α)
    (pa : POINTARRAY α) (es1 es2 : List (LWT_ISO_EDGE α)) (hp : es1.Perm es2) :
    (candidate_set K s pa es1).Perm (candidate_set K s pa es2) := by
  unfold candidate_set
  exact hp.flatMap_right _

/-- Two candidate records of the same array with the same point and distance
are the same record, whatever the edge lists they come from. -/
theorem candidate_eq_of_key (K : Kernel α) (s1 s2 : lwgeom_tpsnap_state α)
    (pa : POINTARRAY α) (es1 es2 : List (LWT_ISO_EDGE α)) (a b : LWT_SNAPV α)
    (ha : a ∈ candidate_set K s1 pa es1) (hb : b ∈ candidate_set K s2 pa es2)
    (hd : a.dist = b.dist) (hp : a.pt = b.pt) : a = b := by
  obtain ⟨e, he, q, hq, h1, h2, h3, h4⟩ := (mem_candidate_set K s1 pa es1 a).1 ha
  obtain ⟨e', he', q', hq', h1', h2', h3', h4'⟩ := (mem_candidate_set K s2 pa es2 b).1 hb
  rw [← h1] at h3
  rw [← h1', ← hp, h3] at h3'
  simp only [Option.some.injEq, Prod.mk.injEq] at h3'
  cases a
  cases b
  simp_all

theorem covered_by_perm (K : Kernel α) (es1 es2 : List (LWT_ISO_EDGE α))
    (hp : es1.Perm es2) (p1 p2 : POINT4D α) :
    covered_by K es1 p1 p2 = covered_by K es2 p1 p2 := by
  unfold covered_by
  rw [Bool.eq_iff_iff]
  simp only [List.any_eq_true]
  constructor
  · rintro ⟨e, he, h⟩
    exact ⟨e, hp.mem_iff.1 he, h⟩
  · rintro ⟨e, he, h⟩
    exact ⟨e, hp.mem_iff.2 he, h⟩

theorem valid_candidate_perm (K : Kernel α) (pa : POINTARRAY α)
    (es1 es2 : List (LWT_ISO_EDGE α)) (hp : es1.Perm es2) :
    valid_candidate K pa es1 = valid_candidate K pa es2 := by
  funext v
  unfold valid_candidate
  rw [covered_by_perm K es1 es2 hp]

/-- The sorted candidate list is the same for two states whose cached edge
lists are permutations of each other. -/
theorem sorted_candidates_perm (K : Kernel α) (pa : POINTARRAY α)
    (s1 s2 : lwgeom_tpsnap_state α)
    (hperm : (work_edges s1).Perm (work_edges s2))
    (hext : s1.expanded_workext = s2.expanded_workext)
    (htol : s1.tolerance_snap = s2.tolerance_snap)
    (l1 l2 : List (LWT_SNAPV α))
    (h1 : l1.Perm (candidate_set K s1 pa (work_edges s1)))
    (h2 : l2.Perm (candidate_set K s2 pa (work_edges s2)))
    (hs1 : l1.Sorted (fun a b => compare_snapv a b ≤ 0))
    (hs2 : l2.Sorted (fun a b => compare_snapv a b ≤ 0)) : l1 = l2 := by
  have hp : l1.Perm l2 := by
    refine h1.trans (List.Perm.trans ?_ h2.symm)
    rw [candidate_set_congr K s1 s2 pa _ hext htol]
    exact candidate_set_perm K s2 pa _ _ hperm
  refine sorted_perm_unique _ l1 l2 hp hs1 hs2 ?_
  intro a ha b hb r1 r2
  obtain ⟨hd, hpt⟩ := compare_snapv_antisymm a b r1 r2
  exact candidate_eq_of_key K s1 s1 pa _ _ a b (h1.mem_iff.1 ha) (h1.mem_iff.1 hb) hd hpt

/-- A single addition pass gives the same value and the same array for two
states whose cached edge lists are permutations of each other. -/
theorem addition_pass_perm (K : Kernel α) (pa : POINTARRAY α)
    (s1 s2 : lwgeom_tpsnap_state α)
    (hperm : (work_edges s1).Perm (work_edges s2))
    (hext : s1.expanded_workext = s2.expanded_workext)
    (htol : s1.tolerance_snap = s2.tolerance_snap)
    (hb1 : backend_ok s1) (hb2 : backend_ok s2)
    (hk : ∀ p a b, K.lw_dist2d_pt_seg p a b ≠ none)
    (hcov : ∀ e ∈ work_edges s1, ∀ p q, K.GEOSCovers e.geom p q ≠ none) :
    snap_view (addition_pass K pa s1) = snap_view (addition_pass K pa s2) := by
  have hcov2 : ∀ e ∈ work_edges s2, ∀ p q, K.GEOSCovers e.geom p q ≠ none :=
    fun e he => hcov e (hperm.mem_iff.2 he)
  rw [addition_pass_eq K pa s1 hb1 hk hcov, addition_pass_eq K pa s2 hb2 hk hcov2]
  have hsort : qsort compare_snapv (candidate_set K s1 pa (work_edges s1)) =
      qsort compare_snapv (candidate_set K s2 pa (work_edges s2)) :=
    sorted_candidates_perm K pa s1 s2 hperm hext htol _ _ (qsort_perm _) (qsort_perm _)
      (qsort_sorted _) (qsort_sorted _)
  rw [hsort, valid_candidate_perm K pa _ _ hperm]
  cases (qsort compare_snapv (candidate_set K s2 pa (work_edges s2))).find?
      (valid_candidate K pa (work_edges s2)) <;> simp [snap_view]

/-- The addition phase gives the same outcome, up to the state, for two
states whose cached edge lists are permutations of each other. -/
theorem ptarray_add_perm (K : Kernel α)
    (hk : ∀ p a b, K.lw_dist2d_pt_seg p a b ≠ none) :
    ∀ (fuel : Nat) (pa : POINTARRAY α) (s1 s2 : lwgeom_tpsnap_state α),
      (work_edges s1).Perm (work_edges s2) →
      s1.expanded_workext = s2.expanded_workext →
      s1.tolerance_snap = s2.tolerance_snap →
      s1.iterate = s2.iterate →
      backend_ok s1 → backend_ok s2 →
      (∀ e ∈ work_edges s1, ∀ p q, K.GEOSCovers e.geom p q ≠ none) →
      (_lwgeom_tpsnap_ptarray_add K fuel pa s1).points =
        (_lwgeom_tpsnap_ptarray_add K fuel pa s2).points := by
  intro fuel
  induction fuel with
  | zero => intro pa s1 s2 _ _ _ _ _ _ _; rfl
  | succ n ih =>
    intro pa s1 s2 hperm hext htol hit hb1 hb2 hcov
    have hcov2 : ∀ e ∈ work_edges s2, ∀ p q, K.GEOSCovers e.geom p q ≠ none :=
      fun e he => hcov e (hperm.mem_iff.2 he)
    have hv := addition_pass_perm K pa s1 s2 hperm hext htol hb1 hb2 hk hcov
    have e1 := addition_pass_eq K pa s1 hb1 hk hcov
    have e2 := addition_pass_eq K pa s2 hb2 hk hcov2
    simp only [_lwgeom_tpsnap_ptarray_add]
    rw [e1, e2] at hv
    rw [e1, e2]
    cases h1 : (qsort compare_snapv (candidate_set K s1 pa (work_edges s1))).find?
        (valid_candidate K pa (work_edges s1)) with
    | none =>
      cases h2 : (qsort compare_snapv (candidate_set K s2 pa (work_edges s2))).find?
          (valid_candidate K pa (work_edges s2)) with
      | none => simp [Outcome.points]
      | some c2 => simp [h1, h2, snap_view] at hv
    | some c1 =>
      cases h2 : (qsort compare_snapv (candidate_set K s2 pa (work_edges s2))).find?
          (valid_candidate K pa (work_edges s2)) with
      | none => simp [h1, h2, snap_view] at hv
      | some c2 =>
        simp only [h1, h2, snap_view, Option.map_some', Option.some.injEq,
          Prod.mk.injEq, true_and] at hv
        simp only [fetched_iterate, Bool.true_and]
        rw [← hit, hv]
        cases hi : s1.iterate with
        | false => simp [Outcome.points]
        | true =>
          simp only [if_true]
          apply ih
          · rw [work_edges_fetched, work_edges_fetched]; exact hperm
          · rw [fetched_expanded_workext, fetched_expanded_workext]; exact hext
          · rw [fetched_tolerance_snap, fetched_tolerance_snap]; exact htol
          · rw [fetched_iterate, fetched_iterate]; exact hit
          · exact (backend_ok_fetched s1).2 hb1
          · exact (backend_ok_fetched s2).2 hb2
          · rw [work_edges_fetched]; exact hcov

/-! ## The removal phase -/

/-- One turn of the vertex loop of the removal phase, in terms of the decision
for the vertex. -/
theorem remove_loop_succ (K : Kernel α) (state : lwgeom_tpsnap_state α)
    (edges : List (LWT_ISO_EDGE α)) (cnum0 : Int) (fuel i : Nat) (pa : POINTARRAY α)
    (removed : Int) (h : (i : Int) < (pa.length : Int) - 1) :
    remove_loop K state edges cnum0 (fuel + 1) i pa removed =
      match removal_decision K state edges cnum0 (getPoint2d_p pa i K.unwritten.xy) with
      | none => Outcome.error
      | some false => remove_loop K state edges cnum0 fuel (i + 1) pa removed
      | some true =>
        match ptarray_remove_point pa i with
        | none => Outcome.error
        | some pa1 => remove_loop K state edges cnum0 fuel i pa1 (removed + 1) := by
  rw [remove_loop]
  simp only [h, if_true]
  unfold removal_decision
  cases hc : closest_edge_loop K state (getPoint2d_p pa (↑i) K.unwritten.xy) edges none cnum0
      (state.tolerance_removal + 1) with
  | none => rfl
  | some r =>
    obtain ⟨ce, cn, cd⟩ := r
    cases ce with
    | none => rfl
    | some epa =>
      simp only
      split
      · next h1 => simp only [h1, Bool.not_true]
      · next h1 => simp only [eq_false_of_ne_true h1, Bool.not_false]

theorem remove_loop_done (K : Kernel α) (state : lwgeom_tpsnap_state α)
    (edges : List (LWT_ISO_EDGE α)) (cnum0 : Int) (fuel i : Nat) (pa : POINTARRAY α)
    (removed : Int) (h : ¬ (i : Int) < (pa.length : Int) - 1) :
    remove_loop K state edges cnum0 fuel i pa removed = Outcome.ret (removed, pa) := by
  rw [remove_loop.eq_def]
  simp only [h, if_false]

theorem remove_loop_zero (K : Kernel α) (state : lwgeom_tpsnap_state α)
    (edges : List (LWT_ISO_EDGE α)) (cnum0 : Int) (i : Nat) (pa : POINTARRAY α)
    (removed : Int) (h : (i : Int) < (pa.length : Int) - 1) :
    remove_loop K state edges cnum0 0 i pa removed = Outcome.nofuel := by
  rw [remove_loop.eq_def]
  simp only [h, if_true]

theorem insert_candidate_ends (first last : POINT4D α) (mid : List (POINT4D α))
    (c : LWT_SNAPV α) (h0 : 0 ≤ c.segno)
    (h1 : c.segno + 1 < ((first :: (mid ++ [last])).length : Int)) :
    ∃ mid1, insert_candidate (first :: (mid ++ [last])) c = first :: (mid1 ++ [last]) ∧
      mid1.length = mid.length + 1 := by
  unfold insert_candidate
  obtain ⟨k, hk⟩ : ∃ k : Nat, c.segno = k := ⟨c.segno.toNat, (Int.toNat_of_nonneg h0).symm⟩
  have hk2 : (c.segno + 1).toNat = k + 1 := by omega
  have hk3 : k ≤ mid.length := by
    simp only [List.length_append, List.length_cons, List.length_nil, Nat.cast_add,
      Nat.cast_one] at h1
    omega
  rw [hk2]
  refine ⟨mid.take k ++ ⟨c.pt.x, c.pt.y, 0, 0⟩ :: mid.drop k, ?_, ?_⟩
  · simp only [List.cons_append, List.take_succ_cons, List.drop_succ_cons,
      List.take_append_of_le_length hk3, List.drop_append_of_le_length hk3,
      List.append_assoc]
  · simp only [List.length_append, List.length_take, List.length_cons, List.length_drop]
    omega

/-- If the vertex loop of the removal phase returns, both endpoints are kept. -/
theorem remove_loop_ends (K : Kernel α) (state : lwgeom_tpsnap_state α)
    (edges : List (LWT_ISO_EDGE α)) (cnum0 : Int) (first last : POINT4D α) :
    ∀ (fuel i : Nat) (mid : List (POINT4D α)) (removed r : Int) (pa1 : POINTARRAY α),
      1 ≤ i →
      remove_loop K state edges cnum0 fuel i (first :: (mid ++ [last])) removed =
        Outcome.ret (r, pa1) →
      ∃ mid1, pa1 = first :: (mid1 ++ [last]) ∧
        (mid1.length : Int) + r = mid.length + removed ∧ removed ≤ r := by
  intro fuel
  induction fuel with
  | zero =>
    intro i mid removed r pa1 hi h
    by_cases hg : (i : Int) < ((first :: (mid ++ [last])).length : Int) - 1
    · rw [remove_loop_zero K state edges cnum0 i _ removed hg] at h
      exact absurd h (by simp)
    · rw [remove_loop_done K state edges cnum0 0 i _ removed hg] at h
      simp only [Outcome.ret.injEq, Prod.mk.injEq] at h
      exact ⟨mid, h.2.symm, by omega, by omega⟩
  | succ f ih =>
    intro i mid removed r pa1 hi h
    by_cases hg : (i : Int) < ((first :: (mid ++ [last])).length : Int) - 1
    · rw [remove_loop_succ K state edges cnum0 f i _ removed hg] at h
      cases hd : removal_decision K state edges cnum0
          (getPoint2d_p (first :: (mid ++ [last])) i K.unwritten.xy) with
      | none => simp [hd] at h
      | some b =>
        cases b with
        | false =>
          simp only [hd] at h
          exact ih (i + 1) mid removed r pa1 (by omega) h
        | true =>
          simp only [hd] at h
          obtain ⟨j, hj⟩ : ∃ j, i = j + 1 := ⟨i - 1, by omega⟩
          have hjm : j < mid.length := by
            simp only [List.length_append, List.length_cons, List.length_nil,
              Nat.cast_add, Nat.cast_one, List.cons_append] at hg
            omega
          have hlt : i < (first :: (mid ++ [last])).length := by
            simp only [List.length_append, List.length_cons, List.length_nil]
            omega
          have he : (first :: (mid ++ [last])).eraseIdx i =
              first :: (mid.eraseIdx j ++ [last]) := by
            rw [hj]
            simp only [List.eraseIdx_cons_succ,
              List.eraseIdx_append_of_lt_length hjm]
          simp only [ptarray_remove_point, if_pos hlt, he] at h
          obtain ⟨mid1, h1, h2, h3⟩ := ih i (mid.eraseIdx j) (removed + 1) r pa1 hi h
          refine ⟨mid1, h1, ?_, by omega⟩
          rw [List.length_eraseIdx] at h2
          simp only [hjm, if_true] at h2
          have : (0 : Nat) < mid.length := by omega
          omega
    · rw [remove_loop_done K state edges cnum0 _ i _ removed hg] at h
      simp only [Outcome.ret.injEq, Prod.mk.injEq] at h
      exact ⟨mid, h.2.symm, by omega, by omega⟩

/-- If the removal phase returns, it returns the fetched state, both endpoints
are kept, and the count is the number of points that went away. -/
theorem ptarray_remove_ends (K : Kernel α) (state : lwgeom_tpsnap_state α)
    (first last : POINT4D α) (mid : List (POINT4D α)) (r : Int) (pa1 : POINTARRAY α)
    (st1 : lwgeom_tpsnap_state α)
    (h : _lwgeom_tpsnap_ptarray_remove K (first :: (mid ++ [last])) state =
      Outcome.ret (r, pa1, st1)) :
    st1 = fetched state ∧ backend_ok state ∧
      ∃ mid1, pa1 = first :: (mid1 ++ [last]) ∧ (mid1.length : Int) + r = mid.length ∧
        0 ≤ r := by
  generalize hpa : first :: (mid ++ [last]) = pa at h
  unfold _lwgeom_tpsnap_ptarray_remove at h
  obtain ⟨n, es, hg, hn, hes⟩ := get_edges_eq state
  rw [hg] at h
  by_cases hn1 : n = -1
  · simp [hn1] at h
  · simp only [if_neg hn1, hes] at h
    cases hl : remove_loop K (fetched state) (work_edges state) 0 pa.length 1 pa 0 with
    | error => rw [hl] at h; simp at h
    | nofuel => rw [hl] at h; simp at h
    | ret v =>
      obtain ⟨r', pa'⟩ := v
      rw [hl] at h
      simp only [Outcome.ret.injEq, Prod.mk.injEq] at h
      obtain ⟨e1, e2, e3⟩ := h
      subst e1 e2 e3
      subst hpa
      obtain ⟨mid1, k1, k2, k3⟩ := remove_loop_ends K _ _ 0 first last _ 1 mid 0 _ _
        (le_refl _) hl
      exact ⟨rfl, hn.1 hn1, mid1, k1, by omega, k3⟩

/-! ## The loops -/

theorem find_vertices_within_dist_fetched (K : Kernel α) (vset : List (LWT_SNAPV α))
    (pa : POINTARRAY α) (s : lwgeom_tpsnap_state α) :
    _rt_find_vertices_within_dist K vset pa (fetched s) =
      _rt_find_vertices_within_dist K vset pa s := by
  unfold _rt_find_vertices_within_dist
  rw [get_edges_fetched]

/-- A single addition pass does not tell a state from the state it fetches. -/
theorem addition_pass_fetched (K : Kernel α) (pa : POINTARRAY α)
    (s : lwgeom_tpsnap_state α) :
    addition_pass K pa (fetched s) = addition_pass K pa s := by
  unfold addition_pass
  rw [find_vertices_within_dist_fetched]

/-- Nor does the removal phase. -/
theorem ptarray_remove_fetched (K : Kernel α) (pa : POINTARRAY α)
    (s : lwgeom_tpsnap_state α) :
    _lwgeom_tpsnap_ptarray_remove K pa (fetched s) = _lwgeom_tpsnap_ptarray_remove K pa s := by
  unfold _lwgeom_tpsnap_ptarray_remove
  rw [get_edges_fetched]

/-- If the addition phase returns, it returns the fetched state; when
iterating, a further pass on its result finds nothing to snap. -/
theorem ptarray_add_ret (K : Kernel α) :
    ∀ (fuel : Nat) (pa : POINTARRAY α) (s : lwgeom_tpsnap_state α) (pa1 : POINTARRAY α)
      (s1 : lwgeom_tpsnap_state α),
      _lwgeom_tpsnap_ptarray_add K fuel pa s = Outcome.ret (pa1, s1) →
      s1 = fetched s ∧ backend_ok s ∧
        (s.iterate = true → addition_pass K pa1 s1 = some (false, pa1, s1)) := by
  intro fuel
  induction fuel with
  | zero => intro pa s pa1 s1 h; simp [_lwgeom_tpsnap_ptarray_add] at h
  | succ n ih =>
    intro pa s pa1 s1 h
    simp only [_lwgeom_tpsnap_ptarray_add] at h
    cases hp : addition_pass K pa s with
    | none => simp [hp] at h
    | some r =>
      obtain ⟨b, pa2, s2⟩ := r
      obtain ⟨k1, k2, k3, k4⟩ := addition_pass_some K pa s b pa2 s2 hp
      simp only [hp] at h
      by_cases hc : (b && s2.iterate) = true
      · rw [if_pos hc] at h
        obtain ⟨j1, j2, j3⟩ := ih pa2 s2 pa1 s1 h
        refine ⟨?_, k2, ?_⟩
        · rw [j1, k1, fetched_fetched]
        · intro hit
          apply j3
          rw [k1, fetched_iterate]
          exact hit
      · rw [if_neg hc] at h
        simp only [Outcome.ret.injEq, Prod.mk.injEq] at h
        obtain ⟨e1, e2⟩ := h
        subst e1 e2
        refine ⟨k1, k2, ?_⟩
        intro hit
        have hb : b = false := by
          cases b with
          | false => rfl
          | true =>
            exfalso
            apply hc
            rw [k1, fetched_iterate, hit]
            rfl
        subst hb
        have := k3 rfl
        subst this
        rw [k1, addition_pass_fetched, hp, k1]

/-- If the vertex loop of the removal phase returns the count it started
with, it has left the array as it was. -/
theorem remove_loop_unchanged (K : Kernel α) (state : lwgeom_tpsnap_state α)
    (edges : List (LWT_ISO_EDGE α)) (cnum0 : Int) :
    ∀ (fuel i : Nat) (pa : POINTARRAY α) (removed r : Int) (pa1 : POINTARRAY α),
      remove_loop K state edges cnum0 fuel i pa removed = Outcome.ret (r, pa1) →
      removed ≤ r ∧ (r = removed → pa1 = pa) := by
  intro fuel
  induction fuel with
  | zero =>
    intro i pa removed r pa1 h
    by_cases hg : (i : Int) < (pa.length : Int) - 1
    · rw [remove_loop_zero K state edges cnum0 i _ removed hg] at h
      exact absurd h (by simp)
    · rw [remove_loop_done K state edges cnum0 0 i _ removed hg] at h
      simp only [Outcome.ret.injEq, Prod.mk.injEq] at h
      exact ⟨by omega, fun _ => h.2.symm⟩
  | succ f ih =>
    intro i pa removed r pa1 h
    by_cases hg : (i : Int) < (pa.length : Int) - 1
    · rw [remove_loop_succ K state edges cnum0 f i _ removed hg] at h
      cases hd : removal_decision K state edges cnum0 (getPoint2d_p pa i K.unwritten.xy) with
      | none => simp [hd] at h
      | some b =>
        cases b with
        | false =>
          simp only [hd] at h
          exact ih (i + 1) pa removed r pa1 h
        | true =>
          simp only [hd] at h
          cases hr : ptarray_remove_point pa i with
          | none => simp [hr] at h
          | some pa2 =>
            simp only [hr] at h
            obtain ⟨h1, h2⟩ := ih i pa2 (removed + 1) r pa1 h
            exact ⟨by omega, fun e => by omega⟩
    · rw [remove_loop_done K state edges cnum0 _ i _ removed hg] at h
      simp only [Outcome.ret.injEq, Prod.mk.injEq] at h
      exact ⟨by omega, fun _ => h.2.symm⟩

/-- If the removal phase returns, it returns the fetched state and a count
that is not negative; a count of zero means the array is as it was. -/
theorem ptarray_remove_ret (K : Kernel α) (pa : POINTARRAY α)
    (s : lwgeom_tpsnap_state α) (r : Int) (pa1 : POINTARRAY α)
    (s1 : lwgeom_tpsnap_state α)
    (h : _lwgeom_tpsnap_ptarray_remove K pa s = Outcome.ret (r, pa1, s1)) :
    s1 = fetched s ∧ backend_ok s ∧ 0 ≤ r ∧ (r = 0 → pa1 = pa) := by
  unfold _lwgeom_tpsnap_ptarray_remove at h
  obtain ⟨n, es, hg, hn, hes⟩ := get_edges_eq s
  rw [hg] at h
  by_cases hn1 : n = -1
  · simp [hn1] at h
  · simp only [if_neg hn1, hes] at h
    cases hl : remove_loop K (fetched s) (work_edges s) 0 pa.length 1 pa 0 with
    | error => rw [hl] at h; simp at h
    | nofuel => rw [hl] at h; simp at h
    | ret v =>
      obtain ⟨r', pa'⟩ := v
      rw [hl] at h
      simp only [Outcome.ret.injEq, Prod.mk.injEq] at h
      obtain ⟨e1, e2, e3⟩ := h
      subst e1 e2 e3
      obtain ⟨k1, k2⟩ := remove_loop_unchanged K _ _ 0 _ 1 pa 0 _ _ hl
      exact ⟨rfl, hn.1 hn1, k1, k2⟩

/-- If the `do .. while` loop returns while iterating, its result is stable:
a further addition pass finds nothing to snap, and a further removal phase,
when removal is enabled, removes nothing. -/
theorem tpsnap_ptarray_loop_ret (K : Kernel α) (n : Nat) :
    ∀ (fuel : Nat) (pa : POINTARRAY α) (s : lwgeom_tpsnap_state α) (pa1 : POINTARRAY α)
      (s1 : lwgeom_tpsnap_state α),
      tpsnap_ptarray_loop K n fuel pa s = Outcome.ret (pa1, s1) →
      s1 = fetched s ∧ backend_ok s ∧
        (s.iterate = true → addition_pass K pa1 s1 = some (false, pa1, s1) ∧
          (s.tolerance_removal ≥ 0 →
            _lwgeom_tpsnap_ptarray_remove K pa1 s1 = Outcome.ret (0, pa1, s1))) := by
  intro fuel
  induction fuel with
  | zero => intro pa s pa1 s1 h; simp [tpsnap_ptarray_loop] at h
  | succ f ih =>
    intro pa s pa1 s1 h
    simp only [tpsnap_ptarray_loop] at h
    cases ha : _lwgeom_tpsnap_ptarray_add K n pa s with
    | error => rw [ha] at h; simp at h
    | nofuel => rw [ha] at h; simp at h
    | ret v =>
      obtain ⟨pa2, s2⟩ := v
      obtain ⟨a1, a2, a3⟩ := ptarray_add_ret K n pa s pa2 s2 ha
      rw [ha] at h
      simp only at h
      by_cases ht : s2.tolerance_removal ≥ 0
      · rw [if_pos ht] at h
        cases hr : _lwgeom_tpsnap_ptarray_remove K pa2 s2 with
        | error => rw [hr] at h; simp at h
        | nofuel => rw [hr] at h; simp at h
        | ret w =>
          obtain ⟨r, pa3, s3⟩ := w
          obtain ⟨r1, r2, r3, r4⟩ := ptarray_remove_ret K pa2 s2 r pa3 s3 hr
          have hs3 : s3 = fetched s := by rw [r1, a1, fetched_fetched]
          rw [hr] at h
          simp only at h
          by_cases hc : (decide (r ≠ 0) && s3.iterate) = true
          · rw [if_pos hc] at h
            obtain ⟨j1, j2, j3⟩ := ih pa3 s3 pa1 s1 h
            refine ⟨by rw [j1, hs3, fetched_fetched], a2, ?_⟩
            intro hit
            have hit3 : s3.iterate = true := by rw [hs3, fetched_iterate]; exact hit
            obtain ⟨j4, j5⟩ := j3 hit3
            refine ⟨j4, fun htol => j5 ?_⟩
            rw [hs3, fetched_tolerance_removal]
            exact htol
          · rw [if_neg hc] at h
            simp only [Outcome.ret.injEq, Prod.mk.injEq] at h
            obtain ⟨e1, e2⟩ := h
            subst e1 e2
            refine ⟨hs3, a2, ?_⟩
            intro hit
            have hit3 : s3.iterate = true := by rw [hs3, fetched_iterate]; exact hit
            have hr0 : r = 0 := by
              by_contra hne
              apply hc
              simp [hne, hit3]
            have hpa : pa3 = pa2 := r4 hr0
            subst hpa
            subst hr0
            have hs32 : s3 = s2 := by rw [hs3, a1]
            rw [hs32]
            refine ⟨a3 hit, fun _ => ?_⟩
            rw [hs32] at hr
            exact hr
      · rw [if_neg ht] at h
        simp only [Outcome.ret.injEq, Prod.mk.injEq] at h
        obtain ⟨e1, e2⟩ := h
        subst e1 e2
        refine ⟨a1, a2, ?_⟩
        intro hit
        refine ⟨a3 hit, fun htol => ?_⟩
        exfalso
        apply ht
        rw [a1, fetched_tolerance_removal]
        exact htol

theorem ptarray_process_unfold (K : Kernel α) (fuel : Nat) (pa : POINTARRAY α)
    (s : lwgeom_tpsnap_state α) :
    _lwgeom_tpsnap_ptarray K fuel pa s =
      tpsnap_ptarray_loop K fuel fuel pa (tpsnap_begin pa s) := rfl

theorem gbox_of_nonempty (p : POINT4D α) (rest : List (POINT4D α)) (b1 b2 : GBOX α) :
    ptarray_calculate_gbox_cartesian (p :: rest) b1 =
      ptarray_calculate_gbox_cartesian (p :: rest) b2 := rfl

/-- Beginning a point array anew leaves the state as it is when the array has
the bounding box the work extent was computed from. -/
theorem tpsnap_begin_stable (pa pa1 : POINTARRAY α) (s s1 : lwgeom_tpsnap_state α)
    (hw : s1.workext = (tpsnap_begin pa s).workext)
    (he : s1.expanded_workext = (tpsnap_begin pa s).expanded_workext)
    (ht : s1.tolerance_snap = s.tolerance_snap)
    (hbox : ptarray_calculate_gbox_cartesian pa1 s.workext =
      ptarray_calculate_gbox_cartesian pa s.workext) :
    tpsnap_begin pa1 s1 = s1 := by
  have hb : ptarray_calculate_gbox_cartesian pa1 s1.workext = s1.workext := by
    cases pa1 with
    | nil => rfl
    | cons p rest =>
      rw [gbox_of_nonempty p rest s1.workext s.workext, hbox, hw]
      rfl
  unfold tpsnap_begin
  simp only [hb]
  have he2 : gbox_expand s1.workext s1.tolerance_snap = s1.expanded_workext := by
    rw [he, hw, ht]
    rfl
  rw [he2]

/-- An addition pass keeps both endpoints when `tolerance_snap` is below
`FLT_MAX`. -/
theorem addition_pass_ends (K : Kernel α) (first last : POINT4D α)
    (mid : List (POINT4D α)) (s : lwgeom_tpsnap_state α)
    (htol : s.tolerance_snap < K.FLT_MAX) (b : Bool) (pa1 : POINTARRAY α)
    (s1 : lwgeom_tpsnap_state α)
    (h : addition_pass K (first :: (mid ++ [last])) s = some (b, pa1, s1)) :
    ∃ mid1, pa1 = first :: (mid1 ++ [last]) := by
  obtain ⟨k1, k2, k3, k4⟩ := addition_pass_some K _ s b pa1 s1 h
  cases b with
  | false => exact ⟨mid, k3 rfl⟩
  | true =>
    obtain ⟨c, hc, e1, e2, e3⟩ := k4 rfl
    obtain ⟨e, he, q, hq, m1, m2, m3, m4⟩ := (mem_candidate_set K s _ _ c).1 hc
    rcases find_closest_segment_range K _ _ _ m3 with hr | ⟨r1, r2, r3⟩
    · simp only [Prod.mk.injEq] at hr
      rw [hr.2] at m4
      exact absurd (lt_of_le_of_lt m4 htol) (lt_irrefl _)
    · obtain ⟨mid1, i1, i2⟩ := insert_candidate_ends first last mid c r1 r2
      exact ⟨mid1, by rw [e1, i1]⟩

theorem ptarray_add_ends (K : Kernel α) (first last : POINT4D α) :
    ∀ (fuel : Nat) (mid : List (POINT4D α)) (s : lwgeom_tpsnap_state α),
      s.tolerance_snap < K.FLT_MAX →
      ∀ (pa1 : POINTARRAY α) (s1 : lwgeom_tpsnap_state α),
      _lwgeom_tpsnap_ptarray_add K fuel (first :: (mid ++ [last])) s = Outcome.ret (pa1, s1) →
      ∃ mid1, pa1 = first :: (mid1 ++ [last]) := by
  intro fuel
  induction fuel with
  | zero => intro mid s _ pa1 s1 h; simp [_lwgeom_tpsnap_ptarray_add] at h
  | succ n ih =>
    intro mid s htol pa1 s1 h
    simp only [_lwgeom_tpsnap_ptarray_add] at h
    cases hp : addition_pass K (first :: (mid ++ [last])) s with
    | none => rw [hp] at h; simp at h
    | some r =>
      obtain ⟨b, pa2, s2⟩ := r
      obtain ⟨mid2, hm⟩ := addition_pass_ends K first last mid s htol b pa2 s2 hp
      obtain ⟨k1, _⟩ := addition_pass_some K _ s b pa2 s2 hp
      rw [hp] at h
      simp only at h
      by_cases hc : (b && s2.iterate) = true
      · rw [if_pos hc, hm] at h
        exact ih mid2 s2 (by rw [k1, fetched_tolerance_snap]; exact htol) pa1 s1 h
      · rw [if_neg hc] at h
        simp only [Outcome.ret.injEq, Prod.mk.injEq] at h
        exact ⟨mid2, by rw [← h.1, hm]⟩

theorem tpsnap_ptarray_loop_ends (K : Kernel α) (n : Nat) (first last : POINT4D α) :
    ∀ (fuel : Nat) (mid : List (POINT4D α)) (s : lwgeom_tpsnap_state α),
      s.tolerance_snap < K.FLT_MAX →
      ∀ (pa1 : POINTARRAY α) (s1 : lwgeom_tpsnap_state α),
      tpsnap_ptarray_loop K n fuel (first :: (mid ++ [last])) s = Outcome.ret (pa1, s1) →
      ∃ mid1, pa1 = first :: (mid1 ++ [last]) := by
  intro fuel
  induction fuel with
  | zero => intro mid s _ pa1 s1 h; simp [tpsnap_ptarray_loop] at h
  | succ f ih =>
    intro mid s htol pa1 s1 h
    simp only [tpsnap_ptarray_loop] at h
    cases ha : _lwgeom_tpsnap_ptarray_add K n (first :: (mid ++ [last])) s with
    | error => rw [ha] at h; simp at h
    | nofuel => rw [ha] at h; simp at h
    | ret v =>
      obtain ⟨pa2, s2⟩ := v
      obtain ⟨mid2, hm⟩ := ptarray_add_ends K first last n mid s htol pa2 s2 ha
      obtain ⟨a1, _, _⟩ := ptarray_add_ret K n _ s pa2 s2 ha
      rw [ha] at h
      simp only at h
      by_cases ht : s2.tolerance_removal ≥ 0
      · rw [if_pos ht] at h
        cases hr : _lwgeom_tpsnap_ptarray_remove K pa2 s2 with
        | error => rw [hr] at h; simp at h
        | nofuel => rw [hr] at h; simp at h
        | ret w =>
          obtain ⟨r, pa3, s3⟩ := w
          rw [hr] at h
          simp only at h
          rw [hm] at hr
          obtain ⟨r1, _, mid3, hm3, _, _⟩ := ptarray_remove_ends K s2 first last mid2 r pa3 s3 hr
          by_cases hc : (decide (r ≠ 0) && s3.iterate) = true
          · rw [if_pos hc, hm3] at h
            refine ih mid3 s3 ?_ pa1 s1 h
            rw [r1, fetched_tolerance_snap, a1, fetched_tolerance_snap]
            exact htol
          · rw [if_neg hc] at h
            simp only [Outcome.ret.injEq, Prod.mk.injEq] at h
            exact ⟨mid3, by rw [← h.1, hm3]⟩
      · rw [if_neg ht] at h
        simp only [Outcome.ret.injEq, Prod.mk.injEq] at h
        exact ⟨mid2, by rw [← h.1, hm]⟩

/-- The processing of a point array with at least two points keeps both
endpoints, and so at least two points, when `tolerance_snap` is below
`FLT_MAX`: a candidate then always names a segment of the array. -/
theorem ptarray_process_ends (K : Kernel α) (fuel : Nat) (pa : POINTARRAY α)
    (s : lwgeom_tpsnap_state α) (hlen : 2 ≤ pa.length)
    (htol : s.tolerance_snap < K.FLT_MAX) (pa1 : POINTARRAY α)
    (s1 : lwgeom_tpsnap_state α)
    (h : _lwgeom_tpsnap_ptarray K fuel pa s = Outcome.ret (pa1, s1)) :
    2 ≤ pa1.length ∧ pa1.head? = pa.head? ∧ pa1.getLast? = pa.getLast? := by
  obtain ⟨first, mid, last, hpa⟩ : ∃ first mid last, pa = first :: (mid ++ [last]) := by
    cases pa with
    | nil => simp at hlen
    | cons first rest =>
      have hne : rest ≠ [] := by
        intro e
        rw [e] at hlen
        simp at hlen
      exact ⟨first, rest.dropLast, rest.getLast hne, by rw [List.dropLast_append_getLast hne]⟩
  subst hpa
  rw [ptarray_process_unfold] at h
  obtain ⟨mid1, hm⟩ := tpsnap_ptarray_loop_ends K fuel first last fuel mid _
    (by simpa [tpsnap_begin] using htol) pa1 s1 h
  subst hm
  have hl : ∀ (m : List (POINT4D α)), (first :: (m ++ [last])).getLast? = some last := by
    intro m
    rw [← List.cons_append, List.getLast?_concat]
  refine ⟨by simp, by simp, ?_⟩
  rw [hl, hl]

/-! ## Enough fuel gives the result -/

theorem Outcome.points_eq_some {σ : Type} (o : Outcome (POINTARRAY α × σ))
    (pa : POINTARRAY α) (h : o.points = some pa) : ∃ s, o = Outcome.ret (pa, s) := by
  cases o with
  | ret v =>
    obtain ⟨pa1, s⟩ := v
    simp only [Outcome.points, Option.some.injEq] at h
    exact ⟨s, by rw [h]⟩
  | error => simp [Outcome.points] at h
  | nofuel => simp [Outcome.points] at h

/-- More fuel does not change what the addition phase returns. -/
theorem ptarray_add_fuel_mono (K : Kernel α) :
    ∀ (n : Nat) (pa : POINTARRAY α) (s : lwgeom_tpsnap_state α)
      (r : POINTARRAY α × lwgeom_tpsnap_state α),
      _lwgeom_tpsnap_ptarray_add K n pa s = Outcome.ret r →
      ∀ k, _lwgeom_tpsnap_ptarray_add K (n + k) pa s = Outcome.ret r := by
  intro n
  induction n with
  | zero => intro pa s r h; simp [_lwgeom_tpsnap_ptarray_add] at h
  | succ n ih =>
    intro pa s r h k
    rw [Nat.succ_add]
    simp only [_lwgeom_tpsnap_ptarray_add] at h ⊢
    cases hp : addition_pass K pa s with
    | none => rw [hp] at h; simp at h
    | some v =>
      obtain ⟨b, pa1, s1⟩ := v
      rw [hp] at h
      simp only at h ⊢
      by_cases hc : (b && s1.iterate) = true
      · rw [if_pos hc] at h ⊢
        exact ih pa1 s1 r h k
      · rw [if_neg hc] at h ⊢
        exact h

/-- More fuel does not change what the `do .. while` loop returns. -/
theorem tpsnap_loop_fuel_mono (K : Kernel α) (n : Nat) :
    ∀ (f : Nat) (pa : POINTARRAY α) (s : lwgeom_tpsnap_state α)
      (r : POINTARRAY α × lwgeom_tpsnap_state α),
      tpsnap_ptarray_loop K n f pa s = Outcome.ret r →
      ∀ k j, tpsnap_ptarray_loop K (n + k) (f + j) pa s = Outcome.ret r := by
  intro f
  induction f with
  | zero => intro pa s r h; simp [tpsnap_ptarray_loop] at h
  | succ f ih =>
    intro pa s r h k j
    rw [Nat.succ_add]
    simp only [tpsnap_ptarray_loop] at h ⊢
    cases ha : _lwgeom_tpsnap_ptarray_add K n pa s with
    | error => rw [ha] at h; simp at h
    | nofuel => rw [ha] at h; simp at h
    | ret v =>
      obtain ⟨pa1, s1⟩ := v
      rw [ha] at h
      rw [ptarray_add_fuel_mono K n pa s _ ha k]
      simp only at h ⊢
      by_cases ht : s1.tolerance_removal ≥ 0
      · rw [if_pos ht] at h ⊢
        cases hr : _lwgeom_tpsnap_ptarray_remove K pa1 s1 with
        | error => rw [hr] at h; simp at h
        | nofuel => rw [hr] at h; simp at h
        | ret w =>
          obtain ⟨c, pa2, s2⟩ := w
          rw [hr] at h
          simp only at h ⊢
          by_cases hc : (decide (c ≠ 0) && s2.iterate) = true
          · rw [if_pos hc] at h ⊢
            exact ih pa2 s2 r h k j
          · rw [if_neg hc] at h ⊢
            exact h
      · rw [if_neg ht] at h ⊢
        exact h

/-- More fuel does not change what the processing of a point array
returns. -/
theorem ptarray_process_fuel_mono (K : Kernel α) (n : Nat) (pa : POINTARRAY α)
    (s : lwgeom_tpsnap_state α) (r : POINTARRAY α × lwgeom_tpsnap_state α)
    (h : _lwgeom_tpsnap_ptarray K n pa s = Outcome.ret r) (k : Nat) :
    _lwgeom_tpsnap_ptarray K (n + k) pa s = Outcome.ret r := by
  rw [ptarray_process_unfold] at h ⊢
  exact tpsnap_loop_fuel_mono K n n pa _ r h k k

/-- The same, for the point array alone. -/
theorem ptarray_process_points_mono (K : Kernel α) (n : Nat) (pa pa1 : POINTARRAY α)
    (s : lwgeom_tpsnap_state α)
    (h : (_lwgeom_tpsnap_ptarray K n pa s).points = some pa1) (k : Nat) :
    (_lwgeom_tpsnap_ptarray K (n + k) pa s).points = some pa1 := by
  obtain ⟨s1, h1⟩ := Outcome.points_eq_some _ _ h
  rw [ptarray_process_fuel_mono K n pa s _ h1 k]
  rfl

theorem ptarray_add_points_mono (K : Kernel α) (n : Nat) (pa pa1 : POINTARRAY α)
    (s : lwgeom_tpsnap_state α)
    (h : (_lwgeom_tpsnap_ptarray_add K n pa s).points = some pa1) (k : Nat) :
    (_lwgeom_tpsnap_ptarray_add K (n + k) pa s).points = some pa1 := by
  obtain ⟨s1, h1⟩ := Outcome.points_eq_some _ _ h
  rw [ptarray_add_fuel_mono K n pa s _ h1 k]
  rfl

/-! ## One addition phase, no removal -/

theorem insert_candidate_sublist (pa : POINTARRAY α) (v : LWT_SNAPV α) :
    pa.Sublist (insert_candidate pa v) := by
  unfold insert_candidate
  conv_lhs => rw [← List.take_append_drop (v.segno + 1).toNat pa]
  exact List.Sublist.append (List.Sublist.refl _) (List.sublist_cons_self _ _)

theorem insert_candidate_length (pa : POINTARRAY α) (v : LWT_SNAPV α) :
    (insert_candidate pa v).length = pa.length + 1 := by
  unfold insert_candidate
  simp only [List.length_append, List.length_take, List.length_cons, List.length_drop]
  omega

/-- A single addition pass leaves the array as it was or inserts one point. -/
theorem addition_pass_shape (K : Kernel α) (pa : POINTARRAY α)
    (s : lwgeom_tpsnap_state α) (b : Bool) (pa1 : POINTARRAY α)
    (s1 : lwgeom_tpsnap_state α) (h : addition_pass K pa s = some (b, pa1, s1)) :
    pa.Sublist pa1 ∧ (pa1.length = pa.length ∨ pa1.length = pa.length + 1) := by
  obtain ⟨_, _, hf, ht⟩ := addition_pass_some K pa s b pa1 s1 h
  cases b with
  | false =>
    rw [hf rfl]
    exact ⟨List.Sublist.refl _, Or.inl rfl⟩
  | true =>
    obtain ⟨c, _, hc, _, _⟩ := ht rfl
    rw [hc]
    exact ⟨insert_candidate_sublist pa c, Or.inr (insert_candidate_length pa c)⟩

/-- The addition phase only inserts: the input is a subsequence of its result. -/
theorem ptarray_add_sublist (K : Kernel α) :
    ∀ (fuel : Nat) (pa : POINTARRAY α) (s : lwgeom_tpsnap_state α) (pa1 : POINTARRAY α)
      (s1 : lwgeom_tpsnap_state α),
      _lwgeom_tpsnap_ptarray_add K fuel pa s = Outcome.ret (pa1, s1) → pa.Sublist pa1 := by
  intro fuel
  induction fuel with
  | zero =>
    intro pa s pa1 s1 h
    simp [_lwgeom_tpsnap_ptarray_add] at h
  | succ n ih =>
    intro pa s pa1 s1 h
    rw [_lwgeom_tpsnap_ptarray_add] at h
    cases hp : addition_pass K pa s with
    | none => simp [hp] at h
    | some t =>
      obtain ⟨b, pa2, s2⟩ := t
      simp only [hp] at h
      have hs := (addition_pass_shape K pa s b pa2 s2 hp).1
      split at h
      · exact hs.trans (ih pa2 s2 pa1 s1 h)
      · simp only [Outcome.ret.injEq, Prod.mk.injEq] at h
        rw [← h.1]
        exact hs

/-- With `iterate` off the addition phase is a single pass. -/
theorem ptarray_add_once (K : Kernel α) (fuel : Nat) (pa : POINTARRAY α)
    (s : lwgeom_tpsnap_state α) (hit : s.iterate = false) :
    _lwgeom_tpsnap_ptarray_add K (fuel + 1) pa s =
      match addition_pass K pa s with
      | none => Outcome.error
      | some (_, pa1, s1) => Outcome.ret (pa1, s1) := by
  rw [_lwgeom_tpsnap_ptarray_add]
  cases hp : addition_pass K pa s with
  | none => rfl
  | some t =>
    obtain ⟨b, pa2, s2⟩ := t
    have h1 := (addition_pass_some K pa s b pa2 s2 hp).1
    have h2 : s2.iterate = false := by rw [h1, fetched_iterate, hit]
    simp [h2]

/-- With a negative `tolerance_removal` one turn of the outer loop is one
addition phase: the removal phase is not entered and the loop ends. -/
theorem tpsnap_loop_no_removal (K : Kernel α) (n fuel : Nat) (pa : POINTARRAY α)
    (s : lwgeom_tpsnap_state α) (hrem : s.tolerance_removal < 0) :
    tpsnap_ptarray_loop K n (fuel + 1) pa s = _lwgeom_tpsnap_ptarray_add K n pa s := by
  rw [tpsnap_ptarray_loop]
  cases ha : _lwgeom_tpsnap_ptarray_add K n pa s with
  | error => rfl
  | nofuel => rfl
  | ret r =>
    obtain ⟨pa1, s1⟩ := r
    have h1 := (ptarray_add_ret K n pa s pa1 s1 ha).1
    have h2 : ¬ s1.tolerance_removal ≥ 0 := by
      rw [h1, fetched_tolerance_removal]
      exact not_le.2 hrem
    simp only [h2, if_false]

/-! ## The closest segment is the first of the nearest ones -/

theorem segment_distance_zero (K : Kernel α) (v : POINT2D α) (p q : POINT4D α)
    (rest : List (POINT4D α)) :
    segment_distance K v (p :: q :: rest) 0 = K.lw_dist2d_pt_seg v p.xy q.xy := rfl

theorem segment_distance_succ (K : Kernel α) (v : POINT2D α) (p : POINT4D α)
    (rest : List (POINT4D α)) (k : Nat) :
    segment_distance K v (p :: rest) (k + 1) = segment_distance K v rest k := rfl

theorem segment_distance_some_lt (K : Kernel α) (v : POINT2D α) (pa : POINTARRAY α)
    (j : Nat) (d : α) (h : segment_distance K v pa j = some d) : j + 1 < pa.length := by
  by_contra hcon
  have h1 : pa.get? (j + 1) = none := List.get?_eq_none.2 (by omega)
  unfold segment_distance at h
  split at h
  · next a b ha hb =>
    rw [h1] at hb
    cases hb
  · cases h

/-- The loop of `_rt_find_closest_segment` from segment `j` on: either no
segment is closer than the running distance, which is then kept with its
segment number, or the result is the smallest of the distances and the first
segment that attains it. -/
theorem closest_segment_loop_min (K : Kernel α) (v : POINT2D α) :
    ∀ (rest : List (POINT4D α)) (p0 : POINT4D α) (j : Nat) (segno : Int) (dist : α),
      (∀ k, k + 1 < (p0 :: rest).length →
        ∃ d, segment_distance K v (p0 :: rest) k = some d) →
      ∃ r, closest_segment_loop K v p0.xy rest (j : Int) segno dist = some r ∧
        ((r = (segno, dist) ∧
            ∀ k d, segment_distance K v (p0 :: rest) k = some d → dist ≤ d) ∨
         (∃ n : Nat, r.1 = ((j + n : Nat) : Int) ∧ n + 1 < (p0 :: rest).length ∧
            segment_distance K v (p0 :: rest) n = some r.2 ∧ r.2 < dist ∧
            (∀ k d, segment_distance K v (p0 :: rest) k = some d → r.2 ≤ d) ∧
            (∀ k d, k < n → segment_distance K v (p0 :: rest) k = some d → r.2 < d))) := by
  intro rest
  induction rest with
  | nil =>
    intro p0 j segno dist _
    refine ⟨(segno, dist), rfl, Or.inl ⟨rfl, ?_⟩⟩
    intro k d hk
    have := segment_distance_some_lt K v [p0] k d hk
    simp at this
  | cons q rest ih =>
    intro p0 j segno dist hall
    obtain ⟨d0, hd0⟩ := hall 0 (by simp)
    rw [segment_distance_zero] at hd0
    have hall1 : ∀ k, k + 1 < (q :: rest).length →
        ∃ d, segment_distance K v (q :: rest) k = some d := by
      intro k hk
      have := hall (k + 1) (by simp only [List.length_cons] at hk ⊢; omega)
      rwa [segment_distance_succ] at this
    have hcast : ((j : Int) + 1) = ((j + 1 : Nat) : Int) := by push_cast; ring
    rw [closest_segment_loop]
    simp only [hd0]
    by_cases hlt : d0 < dist
    · rw [if_pos hlt, hcast]
      obtain ⟨r, hr, hcase⟩ := ih q (j + 1) (j : Int) d0 hall1
      refine ⟨r, hr, Or.inr ?_⟩
      rcases hcase with ⟨hre, hmin⟩ | ⟨n, hn1, hn2, hn3, hn4, hn5, hn6⟩
      · refine ⟨0, ?_, by simp, ?_, ?_, ?_, ?_⟩
        · rw [hre]; simp
        · rw [segment_distance_zero, hd0, hre]
        · rw [hre]; exact hlt
        · intro k d hk
          rw [hre]
          cases k with
          | zero =>
            rw [segment_distance_zero, hd0] at hk
            exact le_of_eq (Option.some.inj hk)
          | succ k =>
            rw [segment_distance_succ] at hk
            exact hmin k d hk
        · intro k d hk
          omega
      · refine ⟨n + 1, ?_, ?_, ?_, lt_trans hn4 hlt, ?_, ?_⟩
        · rw [hn1]; push_cast; ring
        · simp only [List.length_cons] at hn2 ⊢; omega
        · rw [segment_distance_succ]; exact hn3
        · intro k d hk
          cases k with
          | zero =>
            rw [segment_distance_zero, hd0] at hk
            rw [← Option.some.inj hk]
            exact le_of_lt hn4
          | succ k =>
            rw [segment_distance_succ] at hk
            exact hn5 k d hk
        · intro k d hkn hk
          cases k with
          | zero =>
            rw [segment_distance_zero, hd0] at hk
            rw [← Option.some.inj hk]
            exact hn4
          | succ k =>
            rw [segment_distance_succ] at hk
            exact hn6 k d (by omega) hk
    · rw [if_neg hlt, hcast]
      obtain ⟨r, hr, hcase⟩ := ih q (j + 1) segno dist hall1
      refine ⟨r, hr, ?_⟩
      rcases hcase with ⟨hre, hmin⟩ | ⟨n, hn1, hn2, hn3, hn4, hn5, hn6⟩
      · refine Or.inl ⟨hre, ?_⟩
        intro k d hk
        cases k with
        | zero =>
          rw [segment_distance_zero, hd0] at hk
          rw [← Option.some.inj hk]
          exact not_lt.1 hlt
        | succ k =>
          rw [segment_distance_succ] at hk
          exact hmin k d hk
      · refine Or.inr ⟨n + 1, ?_, ?_, ?_, hn4, ?_, ?_⟩
        · rw [hn1]; push_cast; ring
        · simp only [List.length_cons] at hn2 ⊢; omega
        · rw [segment_distance_succ]; exact hn3
        · intro k d hk
          cases k with
          | zero =>
            rw [segment_distance_zero, hd0] at hk
            rw [← Option.some.inj hk]
            exact le_of_lt (lt_of_lt_of_le hn4 (not_lt.1 hlt))
          | succ k =>
            rw [segment_distance_succ] at hk
            exact hn5 k d hk
        · intro k d hkn hk
          cases k with
          | zero =>
            rw [segment_distance_zero, hd0] at hk
            rw [← Option.some.inj hk]
            exact lt_of_lt_of_le hn4 (not_lt.1 hlt)
          | succ k =>
            rw [segment_distance_succ] at hk
            exact hn6 k d (by omega) hk

/-! ## The two vetoes of a candidate -/

theorem getPoint4d_p_of_get (pa : POINTARRAY α) (n : Nat) (p buf : POINT4D α)
    (h : pa.get? n = some p) : getPoint4d_p pa (n : Int) buf = p := by
  unfold getPoint4d_p
  rw [if_pos (Int.natCast_nonneg n), Int.toNat_natCast, h]
  rfl

/-- When the projection is an endpoint of the segment the candidate is
dropped before the edges are looked at: the state comes back as it was. -/
theorem snap_to_valid_vertex_endpoint (K : Kernel α) (pa : POINTARRAY α) (v : LWT_SNAPV α)
    (state : lwgeom_tpsnap_state α) (h : endpoint_veto K pa v = true) :
    _rt_snap_to_valid_vertex K pa v state = some (false, pa, state) := by
  unfold endpoint_veto at h
  unfold _rt_snap_to_valid_vertex
  simp only at h ⊢
  rw [if_pos h]

/-! ## The shape of a snapped pass -/

/-- With `tolerance_snap` below `FLT_MAX`, a pass that reports snapped has
inserted a vertex of a cached edge, lying inside the expanded work extent,
between the two points of its closest segment. -/
theorem addition_pass_snapped_shape (K : Kernel α) (pa : POINTARRAY α)
    (s : lwgeom_tpsnap_state α) (htol : s.tolerance_snap < K.FLT_MAX)
    (pa1 : POINTARRAY α) (s1 : lwgeom_tpsnap_state α)
    (h : addition_pass K pa s = some (true, pa1, s1)) :
    ∃ c ∈ candidate_set K s pa (work_edges s), ∃ n : Nat,
      c.segno = (n : Int) ∧ n + 1 < pa.length ∧
      pa1 = pa.take (n + 1) ++ (⟨c.pt.x, c.pt.y, 0, 0⟩ : POINT4D α) :: pa.drop (n + 1) ∧
      pa1.length = pa.length + 1 ∧
      ∃ e ∈ work_edges s, ∃ q ∈ e.geom, c.pt = q.xy ∧ in_workext s q.xy = true := by
  obtain ⟨_, _, _, ht⟩ := addition_pass_some K pa s true pa1 s1 h
  obtain ⟨c, hc, hpa1, _, _⟩ := ht rfl
  obtain ⟨e, he, q, hq, h1, h2, h3, h4⟩ := (mem_candidate_set K s pa _ c).1 hc
  rcases find_closest_segment_range K _ pa _ h3 with h5 | ⟨h5, h6, _⟩
  · simp only [Prod.mk.injEq] at h5
    rw [h5.2] at h4
    exact absurd (lt_of_le_of_lt h4 htol) (lt_irrefl _)
  · simp only at h5 h6
    refine ⟨c, hc, c.segno.toNat, (Int.toNat_of_nonneg h5).symm, by omega, ?_, ?_,
      e, he, q, hq, h1, h2⟩
    · rw [hpa1]
      unfold insert_candidate
      have : (c.segno + 1).toNat = c.segno.toNat + 1 := by omega
      rw [this]
    · rw [hpa1]
      exact insert_candidate_length pa c

/-! ## Results read off without the state -/

theorem addition_pass_of_view (K : Kernel α) (pa : POINTARRAY α)
    (s : lwgeom_tpsnap_state α) (b : Bool) (pa1 : POINTARRAY α)
    (h : snap_view (addition_pass K pa s) = some (b, pa1)) :
    addition_pass K pa s = some (b, pa1, fetched s) := by
  cases hp : addition_pass K pa s with
  | none => simp [snap_view, hp] at h
  | some t =>
    obtain ⟨b2, pa2, s2⟩ := t
    simp only [snap_view, hp, Option.map_some', Option.some.injEq, Prod.mk.injEq] at h
    obtain ⟨rfl, rfl⟩ := h
    rw [(addition_pass_some K pa s b2 pa2 s2 hp).1]

theorem ptarray_remove_of_view (K : Kernel α) (pa : POINTARRAY α)
    (s : lwgeom_tpsnap_state α) (r : Int) (pa1 : POINTARRAY α)
    (h : (_lwgeom_tpsnap_ptarray_remove K pa s).removal = some (r, pa1)) :
    _lwgeom_tpsnap_ptarray_remove K pa s = Outcome.ret (r, pa1, fetched s) := by
  cases hp : _lwgeom_tpsnap_ptarray_remove K pa s with
  | error => simp [Outcome.removal, hp] at h
  | nofuel => simp [Outcome.removal, hp] at h
  | ret t =>
    obtain ⟨r2, pa2, s2⟩ := t
    simp only [Outcome.removal, hp, Option.some.injEq, Prod.mk.injEq] at h
    obtain ⟨rfl, rfl⟩ := h
    rw [(ptarray_remove_ret K pa s r2 pa2 s2 hp).1]

/-! ## The traversal visits the linear components in order -/

theorem visit_in_order_append {σ : Type} (visitor : rtptarray_visitor α σ) :
    ∀ (l1 l2 : List (POINTARRAY α)) (s : σ),
      visit_in_order visitor (l1 ++ l2) s =
        match visit_in_order visitor l1 s with
        | Outcome.ret (o1, s1) =>
          (visit_in_order visitor l2 s1).map (fun r => (o1 ++ r.1, r.2))
        | Outcome.error => Outcome.error
        | Outcome.nofuel => Outcome.nofuel := by
  intro l1
  induction l1 with
  | nil =>
    intro l2 s
    simp only [List.nil_append, visit_in_order]
    cases visit_in_order visitor l2 s with
    | ret r => rfl
    | error => rfl
    | nofuel => rfl
  | cons pa rest ih =>
    intro l2 s
    simp only [List.cons_append, visit_in_order, List.append_eq]
    cases hv : visitor pa s with
    | error => rfl
    | nofuel => rfl
    | ret r =>
      obtain ⟨pa1, s1⟩ := r
      simp only []
      rw [ih l2 s1]
      cases h1 : visit_in_order visitor rest s1 with
      | error => rfl
      | nofuel => rfl
      | ret r1 =>
        obtain ⟨o1, s2⟩ := r1
        simp only []
        cases visit_in_order visitor l2 s2 with
        | ret r2 => rfl
        | error => rfl
        | nofuel => rfl

theorem visit_in_order_length {σ : Type} (visitor : rtptarray_visitor α σ) :
    ∀ (l out : List (POINTARRAY α)) (s s1 : σ),
      visit_in_order visitor l s = Outcome.ret (out, s1) → out.length = l.length := by
  intro l
  induction l with
  | nil =>
    intro out s s1 h
    simp only [visit_in_order, Outcome.ret.injEq, Prod.mk.injEq] at h
    rw [← h.1]
  | cons pa rest ih =>
    intro out s s1 h
    simp only [visit_in_order] at h
    cases hv : visitor pa s with
    | error => simp [hv] at h
    | nofuel => simp [hv] at h
    | ret r =>
      obtain ⟨pa1, s2⟩ := r
      simp only [hv] at h
      cases h1 : visit_in_order visitor rest s2 with
      | error => simp [h1] at h
      | nofuel => simp [h1] at h
      | ret r1 =>
        obtain ⟨o1, s3⟩ := r1
        simp only [h1, Outcome.ret.injEq, Prod.mk.injEq] at h
        rw [← h.1, List.length_cons, List.length_cons, ih o1 s2 s3 h1]

/-- The visit stops at the first array whose visitor call reports an error,
whatever arrays follow it. -/
theorem visit_in_order_error {σ : Type} (visitor : rtptarray_visitor α σ)
    (pre post : List (POINTARRAY α)) (pa : POINTARRAY α) (s s1 : σ)
    (out : List (POINTARRAY α))
    (hpre : visit_in_order visitor pre s = Outcome.ret (out, s1))
    (hpa : visitor pa s1 = Outcome.error) :
    visit_in_order visitor (pre ++ pa :: post) s = Outcome.error := by
  rw [visit_in_order_append, hpre]
  simp only [visit_in_order, hpa]
  rfl

theorem visit_rings_loop_eq {σ : Type} (visitor : rtptarray_visitor α σ) :
    ∀ (rings : List (POINTARRAY α)) (s : σ),
      visit_rings_loop visitor rings s = visit_in_order visitor rings s := by
  intro rings
  induction rings with
  | nil => intro s; rfl
  | cons r rest ih =>
    intro s
    simp only [visit_rings_loop, visit_in_order]
    cases hv : visitor r s with
    | error => rfl
    | nofuel => rfl
    | ret t =>
      obtain ⟨r1, s1⟩ := t
      simp only []
      rw [ih s1]
      cases visit_in_order visitor rest s1 with
      | error => rfl
      | nofuel => rfl
      | ret t1 => rfl

theorem map_rings_empty (l1 l2 : List (POINTARRAY α)) (h : l1.length = l2.length) :
    l1.map (fun _ => ([] : POINTARRAY α)) = l2.map (fun _ => ([] : POINTARRAY α)) := by
  induction l1 generalizing l2 with
  | nil =>
    cases l2 with
    | nil => rfl
    | cons b l2 => simp at h
  | cons a l1 ih =>
    cases l2 with
    | nil => simp at h
    | cons b l2 =>
      simp only [List.length_cons, Nat.add_right_cancel_iff] at h
      simp only [List.map_cons, ih l2 h]

mutual
/-- The traversal is the visit, in document order, of the linear components
of the geometry: same outcome, same user data, and the linear components of
the returned geometry are the arrays the visitor returned. -/
theorem visit_lines_spec {σ : Type} (visitor : rtptarray_visitor α σ) :
    ∀ (g : LWGEOM α) (s : σ),
      (lwgeom_visit_lines visitor g s).map (fun r => (linear_components r.1, r.2)) =
        visit_in_order visitor (linear_components g) s
  | LWGEOM.LWPOLY rings, s => by
    simp only [lwgeom_visit_lines, linear_components]
    rw [visit_rings_loop_eq]
    cases visit_in_order visitor rings s with
    | error => rfl
    | nofuel => rfl
    | ret r => rfl
  | LWGEOM.LWLINE points, s => by
    simp only [lwgeom_visit_lines, linear_components, visit_in_order]
    cases visitor points s with
    | error => rfl
    | nofuel => rfl
    | ret r => rfl
  | LWGEOM.LWPOINT point, s => by
    simp only [lwgeom_visit_lines, linear_components, visit_in_order, Outcome.map]
  | LWGEOM.LWCIRCSTRING points, s => by
    simp only [lwgeom_visit_lines, linear_components, visit_in_order, Outcome.map]
  | LWGEOM.LWTRIANGLE points, s => by
    simp only [lwgeom_visit_lines, linear_components, visit_in_order, Outcome.map]
  | LWGEOM.LWCOLLECTION type geoms, s => by
    have ih := visit_geoms_spec visitor geoms s
    cases type <;>
      simp only [lwgeom_visit_lines, linear_components, visit_in_order, Outcome.map,
        reduceCtorEq, or_self, or_false, or_true, false_or, true_or, if_true, if_false] <;>
      (rw [← ih]
       cases visit_geoms_loop visitor geoms s with
       | error => rfl
       | nofuel => rfl
       | ret r => rfl)
theorem visit_geoms_spec {σ : Type} (visitor : rtptarray_visitor α σ) :
    ∀ (geoms : List (LWGEOM α)) (s : σ),
      (visit_geoms_loop visitor geoms s).map (fun r => (linear_components_list r.1, r.2)) =
        visit_in_order visitor (linear_components_list geoms) s
  | [], s => by
    simp only [visit_geoms_loop, linear_components_list, visit_in_order, Outcome.map]
  | g :: rest, s => by
    have ih1 := visit_lines_spec visitor g s
    simp only [visit_geoms_loop, linear_components_list]
    rw [visit_in_order_append, ← ih1]
    cases h1 : lwgeom_visit_lines visitor g s with
    | error => rfl
    | nofuel => rfl
    | ret r =>
      obtain ⟨g1, s1⟩ := r
      have ih2 := visit_geoms_spec visitor rest s1
      simp only [Outcome.map]
      rw [← ih2]
      cases visit_geoms_loop visitor rest s1 with
      | error => rfl
      | nofuel => rfl
      | ret r2 => rfl
end

mutual
/-- The traversal changes nothing but the linear components. -/
theorem visit_lines_unvisited {σ : Type} (visitor : rtptarray_visitor α σ) :
    ∀ (g : LWGEOM α) (s : σ) (g1 : LWGEOM α) (s1 : σ),
      lwgeom_visit_lines visitor g s = Outcome.ret (g1, s1) →
      unvisited_part g1 = unvisited_part g
  | LWGEOM.LWPOLY rings, s, g1, s1, h => by
    simp only [lwgeom_visit_lines] at h
    cases hv : visit_rings_loop visitor rings s with
    | error => simp [hv] at h
    | nofuel => simp [hv] at h
    | ret r =>
      obtain ⟨rings1, s2⟩ := r
      simp only [hv, Outcome.ret.injEq, Prod.mk.injEq] at h
      rw [visit_rings_loop_eq] at hv
      rw [← h.1]
      simp only [unvisited_part, map_linear_components]
      rw [map_rings_empty rings1 rings (visit_in_order_length visitor rings rings1 s s2 hv)]
  | LWGEOM.LWLINE points, s, g1, s1, h => by
    simp only [lwgeom_visit_lines] at h
    cases hv : visitor points s with
    | error => simp [hv] at h
    | nofuel => simp [hv] at h
    | ret r =>
      obtain ⟨points1, s2⟩ := r
      simp only [hv, Outcome.ret.injEq, Prod.mk.injEq] at h
      rw [← h.1]
      simp only [unvisited_part, map_linear_components]
  | LWGEOM.LWPOINT point, s, g1, s1, h => by
    simp only [lwgeom_visit_lines, Outcome.ret.injEq, Prod.mk.injEq] at h
    rw [← h.1]
  | LWGEOM.LWCIRCSTRING points, s, g1, s1, h => by
    simp only [lwgeom_visit_lines, Outcome.ret.injEq, Prod.mk.injEq] at h
    rw [← h.1]
  | LWGEOM.LWTRIANGLE points, s, g1, s1, h => by
    simp only [lwgeom_visit_lines, Outcome.ret.injEq, Prod.mk.injEq] at h
    rw [← h.1]
  | LWGEOM.LWCOLLECTION type geoms, s, g1, s1, h => by
    simp only [lwgeom_visit_lines] at h
    split at h
    · next hrec =>
      cases hv : visit_geoms_loop visitor geoms s with
      | error => simp [hv] at h
      | nofuel => simp [hv] at h
      | ret r =>
        obtain ⟨geoms1, s2⟩ := r
        simp only [hv, Outcome.ret.injEq, Prod.mk.injEq] at h
        have ih := visit_geoms_unvisited visitor geoms s geoms1 s2 hv
        rw [← h.1]
        rcases hrec with ht | ht | ht <;>
          (subst ht
           simp only [unvisited_part, map_linear_components, ih])
    · simp only [Outcome.ret.injEq, Prod.mk.injEq] at h
      rw [← h.1]
theorem visit_geoms_unvisited {σ : Type} (visitor : rtptarray_visitor α σ) :
    ∀ (geoms : List (LWGEOM α)) (s : σ) (geoms1 : List (LWGEOM α)) (s1 : σ),
      visit_geoms_loop visitor geoms s = Outcome.ret (geoms1, s1) →
      map_linear_components_list (fun _ => []) geoms1 =
        map_linear_components_list (fun _ => []) geoms
  | [], s, geoms1, s1, h => by
    simp only [visit_geoms_loop, Outcome.ret.injEq, Prod.mk.injEq] at h
    rw [← h.1]
  | g :: rest, s, geoms1, s1, h => by
    simp only [visit_geoms_loop] at h
    cases hv : lwgeom_visit_lines visitor g s with
    | error => simp [hv] at h
    | nofuel => simp [hv] at h
    | ret r =>
      obtain ⟨g1, s2⟩ := r
      simp only [hv] at h
      cases hv2 : visit_geoms_loop visitor rest s2 with
      | error => simp [hv2] at h
      | nofuel => simp [hv2] at h
      | ret r2 =>
        obtain ⟨rest1, s3⟩ := r2
        simp only [hv2, Outcome.ret.injEq, Prod.mk.injEq] at h
        have ih1 := visit_lines_unvisited visitor g s g1 s2 hv
        have ih2 := visit_geoms_unvisited visitor rest s2 rest1 s3 hv2
        rw [← h.1]
        simp only [map_linear_components_list, ih2]
        unfold unvisited_part at ih1
        rw [ih1]
end

mutual
/-- A visitor that returns every array as it received it, as long as the user
data satisfies `Inv`, leaves the geometry as it was. -/
theorem visit_lines_unchanged {σ : Type} (visitor : rtptarray_visitor α σ)
    (Inv : σ → Prop)
    (hv : ∀ pa s, Inv s → ∃ s1, visitor pa s = Outcome.ret (pa, s1) ∧ Inv s1) :
    ∀ (g : LWGEOM α) (s : σ), Inv s →
      ∃ s1, lwgeom_visit_lines visitor g s = Outcome.ret (g, s1) ∧ Inv s1
  | LWGEOM.LWPOLY rings, s, hs => by
    have hr : ∀ (rings : List (POINTARRAY α)) (s : σ), Inv s →
        ∃ s1, visit_rings_loop visitor rings s = Outcome.ret (rings, s1) ∧ Inv s1 := by
      intro rings
      induction rings with
      | nil => intro s hs; exact ⟨s, rfl, hs⟩
      | cons r rest ih =>
        intro s hs
        obtain ⟨s1, h1, hs1⟩ := hv r s hs
        obtain ⟨s2, h2, hs2⟩ := ih s1 hs1
        exact ⟨s2, by simp only [visit_rings_loop, h1, h2], hs2⟩
    obtain ⟨s1, h1, hs1⟩ := hr rings s hs
    exact ⟨s1, by simp only [lwgeom_visit_lines, h1], hs1⟩
  | LWGEOM.LWLINE points, s, hs => by
    obtain ⟨s1, h1, hs1⟩ := hv points s hs
    exact ⟨s1, by simp only [lwgeom_visit_lines, h1], hs1⟩
  | LWGEOM.LWPOINT point, s, hs => ⟨s, by simp only [lwgeom_visit_lines], hs⟩
  | LWGEOM.LWCIRCSTRING points, s, hs => ⟨s, by simp only [lwgeom_visit_lines], hs⟩
  | LWGEOM.LWTRIANGLE points, s, hs => ⟨s, by simp only [lwgeom_visit_lines], hs⟩
  | LWGEOM.LWCOLLECTION type geoms, s, hs => by
    obtain ⟨s1, h1, hs1⟩ := visit_geoms_unchanged visitor Inv hv geoms s hs
    by_cases hrec : type = LWCOLLECTION_TYPE.MULTILINETYPE ∨
        type = LWCOLLECTION_TYPE.MULTIPOLYGONTYPE ∨ type = LWCOLLECTION_TYPE.COLLECTIONTYPE
    · exact ⟨s1, by simp only [lwgeom_visit_lines, if_pos hrec, h1], hs1⟩
    · exact ⟨s, by simp only [lwgeom_visit_lines, if_neg hrec], hs⟩
theorem visit_geoms_unchanged {σ : Type} (visitor : rtptarray_visitor α σ)
    (Inv : σ → Prop)
    (hv : ∀ pa s, Inv s → ∃ s1, visitor pa s = Outcome.ret (pa, s1) ∧ Inv s1) :
    ∀ (geoms : List (LWGEOM α)) (s : σ), Inv s →
      ∃ s1, visit_geoms_loop visitor geoms s = Outcome.ret (geoms, s1) ∧ Inv s1
  | [], s, hs => ⟨s, by simp only [visit_geoms_loop], hs⟩
  | g :: rest, s, hs => by
    obtain ⟨s1, h1, hs1⟩ := visit_lines_unchanged visitor Inv hv g s hs
    obtain ⟨s2, h2, hs2⟩ := visit_geoms_unchanged visitor Inv hv rest s1 hs1
    exact ⟨s2, by simp only [visit_geoms_loop, h1, h2], hs2⟩
end

mutual
/-- A geometry without linear components comes back as it was and the visitor
is not called: the user data is unchanged, whatever the visitor is. -/
theorem visit_lines_none {σ : Type} (visitor : rtptarray_visitor α σ) :
    ∀ (g : LWGEOM α) (s : σ), linear_components g = [] →
      lwgeom_visit_lines visitor g s = Outcome.ret (g, s)
  | LWGEOM.LWPOLY rings, s, h => by
    simp only [linear_components] at h
    subst h
    simp only [lwgeom_visit_lines, visit_rings_loop]
  | LWGEOM.LWLINE points, s, h => by
    simp [linear_components] at h
  | LWGEOM.LWPOINT point, s, h => by simp only [lwgeom_visit_lines]
  | LWGEOM.LWCIRCSTRING points, s, h => by simp only [lwgeom_visit_lines]
  | LWGEOM.LWTRIANGLE points, s, h => by simp only [lwgeom_visit_lines]
  | LWGEOM.LWCOLLECTION type geoms, s, h => by
    by_cases hrec : type = LWCOLLECTION_TYPE.MULTILINETYPE ∨
        type = LWCOLLECTION_TYPE.MULTIPOLYGONTYPE ∨ type = LWCOLLECTION_TYPE.COLLECTIONTYPE
    · have hl : linear_components_list geoms = [] := by
        rcases hrec with ht | ht | ht <;>
          (subst ht
           simpa only [linear_components] using h)
      have ih := visit_geoms_none visitor geoms s hl
      simp only [lwgeom_visit_lines, if_pos hrec, ih]
    · simp only [lwgeom_visit_lines, if_neg hrec]
theorem visit_geoms_none {σ : Type} (visitor : rtptarray_visitor α σ) :
    ∀ (geoms : List (LWGEOM α)) (s : σ), linear_components_list geoms = [] →
      visit_geoms_loop visitor geoms s = Outcome.ret (geoms, s)
  | [], s, h => by simp only [visit_geoms_loop]
  | g :: rest, s, h => by
    simp only [linear_components_list, List.append_eq_nil] at h
    have ih1 := visit_lines_none visitor g s h.1
    have ih2 := visit_geoms_none visitor rest s h.2
    simp only [visit_geoms_loop, ih1, ih2]
end

/-! ## An empty topology -/

/-- Without edges the loop of the removal phase passes over every vertex. -/
theorem remove_loop_no_edges (K : Kernel α) (state : lwgeom_tpsnap_state α) (cnum0 : Int) :
    ∀ (fuel i : Nat) (pa : POINTARRAY α) (removed : Int), pa.length ≤ i + fuel + 1 →
      remove_loop K state [] cnum0 fuel i pa removed = Outcome.ret (removed, pa) := by
  intro fuel
  induction fuel with
  | zero =>
    intro i pa removed h
    exact remove_loop_done K state [] cnum0 0 i pa removed (by omega)
  | succ f ih =>
    intro i pa removed h
    by_cases hlt : (i : Int) < (pa.length : Int) - 1
    · rw [remove_loop_succ K state [] cnum0 f i pa removed hlt]
      simp only [removal_decision, closest_edge_loop]
      exact ih (i + 1) pa removed (by omega)
    · exact remove_loop_done K state [] cnum0 (f + 1) i pa removed hlt

/-- A state over an empty topology with nothing cached. -/
theorem get_edges_empty (s : lwgeom_tpsnap_state α)
    (hempty : ∀ box, s.topo.edges_within_box box = some []) (hw : s.workedges = none) :
    ∃ s1, lwgeom_tpsnap_state_get_edges s = (s1, 0, []) ∧ s1.topo = s.topo ∧
      s1.workedges = none ∧ s1.iterate = s.iterate ∧
      s1.tolerance_removal = s.tolerance_removal := by
  refine ⟨{ s with workedges := none, num_workedges := 0 }, ?_, rfl, rfl, rfl, rfl⟩
  unfold lwgeom_tpsnap_state_get_edges lwt_be_getEdgeWithinBox2D
  simp only [hw, hempty]
  rfl

/-- Over an empty topology the processing of a point array returns the array
as it was, with one unit of fuel, and leaves nothing cached. -/
theorem ptarray_process_empty (K : Kernel α) (fuel : Nat) (pa : POINTARRAY α)
    (s : lwgeom_tpsnap_state α)
    (hempty : ∀ box, s.topo.edges_within_box box = some []) (hw : s.workedges = none) :
    ∃ s1, _lwgeom_tpsnap_ptarray K (fuel + 1) pa s = Outcome.ret (pa, s1) ∧
      (∀ box, s1.topo.edges_within_box box = some []) ∧ s1.workedges = none := by
  obtain ⟨s1, h1, ht1, hw1, hi1, hr1⟩ := get_edges_empty (tpsnap_begin pa s) hempty hw
  have hempty1 : ∀ box, s1.topo.edges_within_box box = some [] := by
    intro box
    rw [ht1]
    exact hempty box
  obtain ⟨s2, h2, ht2, hw2, hi2, hr2⟩ := get_edges_empty s1 hempty1 hw1
  have hpass : addition_pass K pa (tpsnap_begin pa s) = some (false, pa, s1) := by
    unfold addition_pass _rt_find_vertices_within_dist
    simp [h1, find_vertices_loop]
  have hadd : _lwgeom_tpsnap_ptarray_add K (fuel + 1) pa (tpsnap_begin pa s) =
      Outcome.ret (pa, s1) := by
    rw [_lwgeom_tpsnap_ptarray_add]
    simp [hpass]
  have hrem : _lwgeom_tpsnap_ptarray_remove K pa s1 = Outcome.ret (0, pa, s2) := by
    unfold _lwgeom_tpsnap_ptarray_remove
    simp only [h2]
    have := remove_loop_no_edges K s2 0 pa.length 1 pa 0 (by omega)
    simp [this]
  rw [ptarray_process_unfold, tpsnap_ptarray_loop]
  simp only [hadd]
  by_cases hge : s1.tolerance_removal ≥ 0
  · rw [if_pos hge]
    simp only [hrem]
    refine ⟨s2, by simp, ?_, hw2⟩
    intro box
    rw [ht2]
    exact hempty1 box
  · rw [if_neg hge]
    exact ⟨s1, rfl, hempty1, hw1⟩

/-- The visit of a list of arrays whose first part already reports an error
reports that error, whatever follows. -/
theorem visit_in_order_error_prefix {σ : Type} (visitor : rtptarray_visitor α σ)
    (pre post : List (POINTARRAY α)) (s : σ)
    (h : (visit_in_order visitor pre s).is_error = true) :
    visit_in_order visitor (pre ++ post) s = Outcome.error := by
  rw [visit_in_order_append]
  cases hv : visit_in_order visitor pre s with
  | error => rfl
  | nofuel => simp [hv, Outcome.is_error] at h
  | ret r => simp [hv, Outcome.is_error] at h

/-- The entry point in terms of the traversal. -/
theorem lwt_tpsnap_eq (K : Kernel α) (fuel : Nat) (topo : LWT_TOPOLOGY α) (g : LWGEOM α)
    (ts tr : α) (it : Bool) :
    lwt_tpsnap K fuel topo g ts tr it =
      (lwgeom_visit_lines (_lwgeom_tpsnap_ptarray K fuel) g
        (tpsnap_state_init topo ts tr it)).map Prod.fst := by
  unfold lwt_tpsnap lwgeom_clone_deep
  dsimp only
  cases h : lwgeom_visit_lines (_lwgeom_tpsnap_ptarray K fuel) g
      (tpsnap_state_init topo ts tr it) with
  | error => rfl
  | nofuel => rfl
  | ret r => rfl

/-! ## Plane geometry of the clamped projection -/

theorem sum_sq_ne_zero (a b : POINT2D α) (h : a ≠ b) :
    (b.x - a.x) * (b.x - a.x) + (b.y - a.y) * (b.y - a.y) ≠ 0 := by
  intro h0
  have h1 : (b.x - a.x) * (b.x - a.x) = 0 := by
    nlinarith [mul_self_nonneg (b.x - a.x), mul_self_nonneg (b.y - a.y)]
  have h2 : (b.y - a.y) * (b.y - a.y) = 0 := by
    nlinarith [mul_self_nonneg (b.x - a.x), mul_self_nonneg (b.y - a.y)]
  have hx : b.x = a.x := by
    have := mul_self_eq_zero.1 h1
    linarith
  have hy : b.y = a.y := by
    have := mul_self_eq_zero.1 h2
    linarith
  apply h
  cases a
  cases b
  simp only [POINT2D.mk.injEq]
  simp only at hx hy
  exact ⟨hx.symm, hy.symm⟩

/-- The parameter of a point of the line `ab` given by its parameter. -/
theorem segment_parameter_of_eq (v a b : POINT2D α) (t : α) (h : a ≠ b)
    (hx : v.x = a.x + (b.x - a.x) * t) (hy : v.y = a.y + (b.y - a.y) * t) :
    segment_parameter v a b = t := by
  unfold segment_parameter
  rw [div_eq_iff (sum_sq_ne_zero a b h), hx, hy]
  ring

/-- A point is its own closest point of the closed segment exactly when it is
`a + (b - a) t` for a parameter `t` between 0 and 1. -/
theorem closest_self_iff (v a b : POINT2D α) :
    closest_point_2d v a b = v ↔
      ∃ t : α, 0 ≤ t ∧ t ≤ 1 ∧ v.x = a.x + (b.x - a.x) * t ∧
        v.y = a.y + (b.y - a.y) * t := by
  constructor
  · intro h
    unfold closest_point_2d at h
    by_cases hab : a = b
    · rw [if_pos hab] at h
      exact ⟨0, le_refl 0, zero_le_one, by rw [← h]; ring, by rw [← h]; ring⟩
    · rw [if_neg hab] at h
      by_cases h0 : segment_parameter v a b ≤ 0
      · rw [if_pos h0] at h
        exact ⟨0, le_refl 0, zero_le_one, by rw [← h]; ring, by rw [← h]; ring⟩
      · rw [if_neg h0] at h
        by_cases h1 : 1 ≤ segment_parameter v a b
        · rw [if_pos h1] at h
          exact ⟨1, zero_le_one, le_refl 1, by rw [← h]; ring, by rw [← h]; ring⟩
        · rw [if_neg h1] at h
          refine ⟨segment_parameter v a b, le_of_lt (not_le.1 h0), le_of_lt (not_le.1 h1),
            ?_, ?_⟩
          · exact (congrArg POINT2D.x h).symm
          · exact (congrArg POINT2D.y h).symm
  · rintro ⟨t, ht0, ht1, hx, hy⟩
    unfold closest_point_2d
    by_cases hab : a = b
    · rw [if_pos hab]
      subst hab
      cases v
      cases a
      simp only [POINT2D.mk.injEq]
      simp only [sub_self, zero_mul, add_zero] at hx hy
      exact ⟨hx.symm, hy.symm⟩
    · rw [if_neg hab, segment_parameter_of_eq v a b t hab hx hy]
      by_cases h0 : t ≤ 0
      · rw [if_pos h0]
        have : t = 0 := le_antisymm h0 ht0
        subst this
        cases v
        cases a
        simp only [POINT2D.mk.injEq]
        simp only [mul_zero, add_zero] at hx hy
        exact ⟨hx.symm, hy.symm⟩
      · rw [if_neg h0]
        by_cases h1 : 1 ≤ t
        · rw [if_pos h1]
          have : t = 1 := le_antisymm ht1 h1
          subst this
          cases v
          cases b
          simp only [POINT2D.mk.injEq]
          simp only [mul_one, add_sub_cancel] at hx hy
          exact ⟨hx.symm, hy.symm⟩
        · rw [if_neg h1]
          cases v
          simp only [POINT2D.mk.injEq]
          simp only at hx hy
          exact ⟨hx.symm, hy.symm⟩

theorem closest_point_exact_xy (p a b : POINT4D α) :
    (closest_point_exact p a b).xy = closest_point_2d p.xy a.xy b.xy := by
  unfold closest_point_exact closest_point_2d
  by_cases hab : a.xy = b.xy
  · rw [if_pos hab, if_pos hab]
  · rw [if_neg hab, if_neg hab]
    by_cases h0 : segment_parameter p.xy a.xy b.xy ≤ 0
    · rw [if_pos h0, if_pos h0]
    · rw [if_neg h0, if_neg h0]
      by_cases h1 : 1 ≤ segment_parameter p.xy a.xy b.xy
      · rw [if_pos h1, if_pos h1]
      · rw [if_neg h1, if_neg h1]
        rfl

/-- The projection is one of the two endpoints exactly when the segment has no
length or the parameter is clamped. -/
theorem closest_point_exact_endpoint_iff (p a b : POINT4D α) :
    (closest_point_exact p a b = a ∨ closest_point_exact p a b = b) ↔
      (a.xy = b.xy ∨ segment_parameter p.xy a.xy b.xy ≤ 0 ∨
        1 ≤ segment_parameter p.xy a.xy b.xy) := by
  unfold closest_point_exact
  by_cases hab : a.xy = b.xy
  · rw [if_pos hab]
    exact ⟨fun _ => Or.inl hab, fun _ => Or.inl rfl⟩
  · rw [if_neg hab]
    by_cases h0 : segment_parameter p.xy a.xy b.xy ≤ 0
    · rw [if_pos h0]
      exact ⟨fun _ => Or.inr (Or.inl h0), fun _ => Or.inl rfl⟩
    · rw [if_neg h0]
      by_cases h1 : 1 ≤ segment_parameter p.xy a.xy b.xy
      · rw [if_pos h1]
        exact ⟨fun _ => Or.inr (Or.inr h1), fun _ => Or.inr rfl⟩
      · rw [if_neg h1]
        simp only [hab, h0, h1, or_self, iff_false, not_or]
        have hr0 : segment_parameter p.xy a.xy b.xy ≠ 0 := fun h => h0 (le_of_eq h)
        have hr1 : segment_parameter p.xy a.xy b.xy - 1 ≠ 0 := fun h =>
          h1 (le_of_eq (sub_eq_zero.1 h).symm)
        constructor
        · intro h
          apply hab
          have hx := congrArg POINT4D.x h
          have hy := congrArg POINT4D.y h
          simp only at hx hy
          have hx1 : (b.x - a.x) * segment_parameter p.xy a.xy b.xy = 0 := by linarith
          have hy1 : (b.y - a.y) * segment_parameter p.xy a.xy b.xy = 0 := by linarith
          have hx2 := (mul_eq_zero.1 hx1).resolve_right hr0
          have hy2 := (mul_eq_zero.1 hy1).resolve_right hr0
          simp only [POINT4D.xy, POINT2D.mk.injEq]
          constructor <;> linarith
        · intro h
          apply hab
          have hx := congrArg POINT4D.x h
          have hy := congrArg POINT4D.y h
          simp only at hx hy
          have hx1 : (b.x - a.x) * (segment_parameter p.xy a.xy b.xy - 1) = 0 := by
            linear_combination hx
          have hy1 : (b.y - a.y) * (segment_parameter p.xy a.xy b.xy - 1) = 0 := by
            linear_combination hy
          have hx2 := (mul_eq_zero.1 hx1).resolve_right hr1
          have hy2 := (mul_eq_zero.1 hy1).resolve_right hr1
          simp only [POINT4D.xy, POINT2D.mk.injEq]
          constructor <;> linarith

/-- A point that is its own closest point and projects strictly inside the
segment is `a + (b - a) r` for its parameter `r`. -/
theorem inside_eq_param (v a b : POINT2D α) (h : closest_point_2d v a b = v)
    (hab : a ≠ b) (h0 : 0 < segment_parameter v a b) (h1 : segment_parameter v a b < 1) :
    v.x = a.x + (b.x - a.x) * segment_parameter v a b ∧
      v.y = a.y + (b.y - a.y) * segment_parameter v a b := by
  unfold closest_point_2d at h
  rw [if_neg hab, if_neg (not_le.2 h0), if_neg (not_le.2 h1)] at h
  exact ⟨(congrArg POINT2D.x h).symm, (congrArg POINT2D.y h).symm⟩

/-- The first part of a split segment lies on the segment. -/
theorem on_first_part (v a b w : POINT2D α) (r : α) (h0 : 0 < r) (h1 : r < 1)
    (hwx : w.x = a.x + (b.x - a.x) * r) (hwy : w.y = a.y + (b.y - a.y) * r)
    (h : closest_point_2d v a w = v) : closest_point_2d v a b = v := by
  obtain ⟨t, ht0, ht1, hx, hy⟩ := (closest_self_iff v a w).1 h
  refine (closest_self_iff v a b).2 ⟨r * t, mul_nonneg (le_of_lt h0) ht0, ?_, ?_, ?_⟩
  · nlinarith
  · rw [hx, hwx]; ring
  · rw [hy, hwy]; ring

/-- The second part of a split segment lies on the segment. -/
theorem on_second_part (v a b w : POINT2D α) (r : α) (h0 : 0 < r) (h1 : r < 1)
    (hwx : w.x = a.x + (b.x - a.x) * r) (hwy : w.y = a.y + (b.y - a.y) * r)
    (h : closest_point_2d v w b = v) : closest_point_2d v a b = v := by
  obtain ⟨t, ht0, ht1, hx, hy⟩ := (closest_self_iff v w b).1 h
  refine (closest_self_iff v a b).2 ⟨r + (1 - r) * t, ?_, ?_, ?_, ?_⟩
  · nlinarith
  · nlinarith
  · rw [hx, hwx]; ring
  · rw [hy, hwy]; ring

/-- A point of a split segment lies on one of the two parts. -/
theorem on_some_part (v a b w : POINT2D α) (r : α) (h0 : 0 < r) (h1 : r < 1)
    (hwx : w.x = a.x + (b.x - a.x) * r) (hwy : w.y = a.y + (b.y - a.y) * r)
    (h : closest_point_2d v a b = v) :
    closest_point_2d v a w = v ∨ closest_point_2d v w b = v := by
  obtain ⟨t, ht0, ht1, hx, hy⟩ := (closest_self_iff v a b).1 h
  by_cases hle : t ≤ r
  · left
    refine (closest_self_iff v a w).2 ⟨t / r, div_nonneg ht0 (le_of_lt h0),
      (div_le_one h0).2 hle, ?_, ?_⟩
    · rw [hx, hwx]
      field_simp
      ring
    · rw [hy, hwy]
      field_simp
      ring
  · right
    have hr1 : 0 < 1 - r := by linarith
    refine (closest_self_iff v w b).2 ⟨(t - r) / (1 - r),
      div_nonneg (by linarith) (le_of_lt hr1), (div_le_one hr1).2 (by linarith), ?_, ?_⟩
    · rw [hx, hwx]
      field_simp
      ring
    · rw [hy, hwy]
      field_simp
      ring

/-- Strictly inside the first part is strictly inside the segment. -/
theorem inside_first_part (v a b w : POINT2D α) (r : α) (h0 : 0 < r) (h1 : r < 1)
    (hab : a ≠ b)
    (hwx : w.x = a.x + (b.x - a.x) * r) (hwy : w.y = a.y + (b.y - a.y) * r)
    (h : closest_point_2d v a w = v) (haw : a ≠ w)
    (hs0 : 0 < segment_parameter v a w) (hs1 : segment_parameter v a w < 1) :
    0 < segment_parameter v a b ∧ segment_parameter v a b < 1 := by
  obtain ⟨hx, hy⟩ := inside_eq_param v a w h haw hs0 hs1
  have : segment_parameter v a b = r * segment_parameter v a w := by
    apply segment_parameter_of_eq v a b _ hab
    · rw [hx, hwx]; ring
    · rw [hy, hwy]; ring
  rw [this]
  constructor
  · exact mul_pos h0 hs0
  · nlinarith

/-- Strictly inside the second part is strictly inside the segment. -/
theorem inside_second_part (v a b w : POINT2D α) (r : α) (h0 : 0 < r) (h1 : r < 1)
    (hab : a ≠ b)
    (hwx : w.x = a.x + (b.x - a.x) * r) (hwy : w.y = a.y + (b.y - a.y) * r)
    (h : closest_point_2d v w b = v) (hwb : w ≠ b)
    (hs0 : 0 < segment_parameter v w b) (hs1 : segment_parameter v w b < 1) :
    0 < segment_parameter v a b ∧ segment_parameter v a b < 1 := by
  obtain ⟨hx, hy⟩ := inside_eq_param v w b h hwb hs0 hs1
  have : segment_parameter v a b = r + (1 - r) * segment_parameter v w b := by
    apply segment_parameter_of_eq v a b _ hab
    · rw [hx, hwx]; ring
    · rw [hy, hwy]; ring
  rw [this]
  constructor
  · nlinarith
  · nlinarith

/-- An endpoint is its own closest point, with parameter 1 at the far end. -/
theorem closest_at_start (a b : POINT2D α) : closest_point_2d a a b = a :=
  (closest_self_iff a a b).2 ⟨0, le_refl 0, zero_le_one, by ring, by ring⟩

theorem closest_at_end (a b : POINT2D α) : closest_point_2d b a b = b :=
  (closest_self_iff b a b).2 ⟨1, zero_le_one, le_refl 1, by ring, by ring⟩

theorem segment_parameter_at_end (a b : POINT2D α) (h : a ≠ b) :
    segment_parameter b a b = 1 :=
  segment_parameter_of_eq b a b 1 h (by ring) (by ring)

/-! ## The closest segment of a point at distance zero -/

/-- When the closest-segment loop returns, every segment distance exists. -/
theorem closest_segment_loop_dist (K : Kernel α) (v : POINT2D α) :
    ∀ (rest : List (POINT4D α)) (p0 : POINT4D α) (j segno : Int) (dist : α) (r : Int × α),
      closest_segment_loop K v p0.xy rest j segno dist = some r →
      ∀ k, k + 1 < (p0 :: rest).length →
        ∃ d, segment_distance K v (p0 :: rest) k = some d := by
  intro rest
  induction rest with
  | nil =>
    intro p0 j segno dist r _ k hk
    simp at hk
  | cons q rest ih =>
    intro p0 j segno dist r h k hk
    rw [closest_segment_loop] at h
    cases hd : K.lw_dist2d_pt_seg v p0.xy q.xy with
    | none => simp [hd] at h
    | some d0 =>
      simp only [hd] at h
      cases k with
      | zero => exact ⟨d0, by rw [segment_distance_zero, hd]⟩
      | succ k =>
        rw [segment_distance_succ]
        have hk1 : k + 1 < (q :: rest).length := by
          simp only [List.length_cons] at hk ⊢
          omega
        split at h
        · exact ih q _ _ _ r h k hk1
        · exact ih q _ _ _ r h k hk1

theorem find_closest_segment_dist (K : Kernel α) (v : POINT2D α) (pa : POINTARRAY α)
    (r : Int × α) (h : _rt_find_closest_segment K v pa = some r) :
    ∀ k, k + 1 < pa.length → ∃ d, segment_distance K v pa k = some d := by
  intro k hk
  unfold _rt_find_closest_segment at h
  have hlen : ¬ pa.length < 2 := by omega
  rw [if_neg hlen] at h
  cases pa with
  | nil => simp at hk
  | cons p0 rest => exact closest_segment_loop_dist K v rest p0 _ _ _ r h k hk

/-- The result of the closest-segment search on an array with at least two
points: the initial values when no segment is closer than `FLT_MAX`, or else
the first segment at the smallest distance. -/
theorem find_closest_segment_cases (K : Kernel α) (v : POINT2D α) (pa : POINTARRAY α)
    (r : Int × α) (h : _rt_find_closest_segment K v pa = some r) (hlen : 2 ≤ pa.length) :
    (r = (-1, K.FLT_MAX) ∧
        ∀ k d, segment_distance K v pa k = some d → K.FLT_MAX ≤ d) ∨
    (∃ n : Nat, r.1 = (n : Int) ∧ n + 1 < pa.length ∧
        segment_distance K v pa n = some r.2 ∧ r.2 < K.FLT_MAX ∧
        (∀ k d, segment_distance K v pa k = some d → r.2 ≤ d) ∧
        (∀ k d, k < n → segment_distance K v pa k = some d → r.2 < d)) := by
  have hd := find_closest_segment_dist K v pa r h
  cases pa with
  | nil => simp at hlen
  | cons p0 rest =>
    obtain ⟨r1, hr1, hcase⟩ := closest_segment_loop_min K v rest p0 0 (-1) K.FLT_MAX hd
    have hnot : ¬ (p0 :: rest).length < 2 := by omega
    unfold _rt_find_closest_segment at h
    rw [if_neg hnot] at h
    have : r1 = r := by
      have h2 : some r1 = some r := by
        rw [← hr1, ← h]
        rfl
      exact Option.some.inj h2
    subst this
    rcases hcase with ⟨h1, h2⟩ | ⟨n, hn1, hn2, hn3, hn4, hn5, hn6⟩
    · exact Or.inl ⟨h1, h2⟩
    · refine Or.inr ⟨n, ?_, hn2, hn3, hn4, hn5, hn6⟩
      simpa using hn1

/-- In exact arithmetic the search returns the first segment at distance
zero when there is one. -/
theorem find_closest_segment_first_zero (K : Kernel α) (hK : exact_kernel K)
    (v : POINT2D α) (pa : POINTARRAY α) (r : Int × α)
    (h : _rt_find_closest_segment K v pa = some r) (n : Nat)
    (h0 : segment_distance K v pa n = some 0)
    (hfirst : ∀ j d, j < n → segment_distance K v pa j = some d → d ≠ 0) :
    r = ((n : Int), 0) := by
  have hlen : 2 ≤ pa.length := by
    have := segment_distance_some_lt K v pa n 0 h0
    omega
  have hnn : ∀ k d, segment_distance K v pa k = some d → 0 ≤ d := by
    intro k d hk
    unfold segment_distance at hk
    split at hk
    · exact hK.dist_nonneg _ _ _ _ hk
    · cases hk
  rcases find_closest_segment_cases K v pa r h hlen with ⟨_, h2⟩ | ⟨m, hm1, hm2, hm3, hm4, hm5, hm6⟩
  · exact absurd (h2 n 0 h0) (not_le.2 hK.FLT_MAX_pos)
  · have hr0 : r.2 = 0 := le_antisymm (hm5 n 0 h0) (hnn m r.2 hm3)
    have hmn : m = n := by
      rcases Nat.lt_trichotomy m n with hlt | heq | hgt
      · rw [hr0] at hm3
        exact absurd rfl (hfirst m 0 hlt hm3)
      · exact heq
      · have := hm6 n 0 hgt h0
        rw [hr0] at this
        exact absurd this (lt_irrefl _)
    obtain ⟨r1, r2⟩ := r
    simp only at hm1 hr0
    rw [hm1, hr0, hmn]

/-- A search that returns segment `n` at distance zero has found the first
segment at distance zero. -/
theorem find_closest_segment_zero (K : Kernel α) (hK : exact_kernel K)
    (v : POINT2D α) (pa : POINTARRAY α) (n : Nat)
    (h : _rt_find_closest_segment K v pa = some ((n : Int), 0)) :
    n + 1 < pa.length ∧ segment_distance K v pa n = some 0 ∧
      ∀ j d, j < n → segment_distance K v pa j = some d → d ≠ 0 := by
  have hlen : 2 ≤ pa.length := by
    by_contra hc
    unfold _rt_find_closest_segment at h
    rw [if_pos (by omega)] at h
    simp only [Option.some.injEq, Prod.mk.injEq] at h
    omega
  rcases find_closest_segment_cases K v pa _ h hlen with ⟨h1, _⟩ | ⟨m, hm1, hm2, hm3, _, _, hm6⟩
  · simp only [Prod.mk.injEq] at h1
    omega
  · simp only at hm1 hm3 hm6
    have : m = n := by omega
    subst this
    refine ⟨hm2, hm3, ?_⟩
    intro j d hj hd
    exact ne_of_gt (hm6 j d hj hd)

/-! ## Segments of an array and of the array after an insertion -/

theorem getPoint4d_p_nat (pa : POINTARRAY α) (j : Nat) (buf : POINT4D α) :
    getPoint4d_p pa (j : Int) buf = (pa.get? j).getD buf := by
  unfold getPoint4d_p
  rw [if_pos (Int.natCast_nonneg j), Int.toNat_natCast]

theorem getPoint4d_p_nat_succ (pa : POINTARRAY α) (j : Nat) (buf : POINT4D α) :
    getPoint4d_p pa ((j : Int) + 1) buf = (pa.get? (j + 1)).getD buf := by
  have : ((j : Int) + 1) = ((j + 1 : Nat) : Int) := by push_cast; ring
  rw [this, getPoint4d_p_nat]

/-- The endpoint check of a candidate with segment number `j`, on the points
the array holds at `j` and `j + 1`. -/
theorem endpoint_veto_get (K : Kernel α) (pa : POINTARRAY α) (v : POINT2D α) (j : Nat)
    (d : α) :
    endpoint_veto K pa ⟨v, (j : Int), d⟩ =
      (p4d_same (K.closest_point_on_segment ⟨v.x, v.y, 0, 0⟩
          ((pa.get? j).getD K.unwritten) ((pa.get? (j + 1)).getD K.unwritten))
          ((pa.get? j).getD K.unwritten) ||
        p4d_same (K.closest_point_on_segment ⟨v.x, v.y, 0, 0⟩
          ((pa.get? j).getD K.unwritten) ((pa.get? (j + 1)).getD K.unwritten))
          ((pa.get? (j + 1)).getD K.unwritten)) := by
  unfold endpoint_veto
  simp only [getPoint4d_p_nat, getPoint4d_p_nat_succ]

/-- The endpoint check in exact arithmetic: it passes exactly when the segment
has a length and the parameter of the point is strictly between 0 and 1. -/
theorem endpoint_veto_false_iff (K : Kernel α) (hK : exact_kernel K) (pa : POINTARRAY α)
    (v : POINT2D α) (j : Nat) (d : α) (A B : POINT4D α)
    (hA : pa.get? j = some A) (hB : pa.get? (j + 1) = some B) :
    endpoint_veto K pa ⟨v, (j : Int), d⟩ = false ↔
      (A.xy ≠ B.xy ∧ 0 < segment_parameter v A.xy B.xy ∧
        segment_parameter v A.xy B.xy < 1) := by
  rw [endpoint_veto_get, hA, hB]
  simp only [Option.getD_some, p4d_same, hK.projection, Bool.or_eq_false_iff,
    decide_eq_false_iff_not]
  have h := closest_point_exact_endpoint_iff (⟨v.x, v.y, 0, 0⟩ : POINT4D α) A B
  have hv : (⟨v.x, v.y, 0, 0⟩ : POINT4D α).xy = v := rfl
  rw [hv] at h
  constructor
  · rintro ⟨h1, h2⟩
    have h3 : ¬ (A.xy = B.xy ∨ segment_parameter v A.xy B.xy ≤ 0 ∨
        1 ≤ segment_parameter v A.xy B.xy) := fun hc => by
      rcases h.2 hc with h4 | h4
      · exact h1 h4
      · exact h2 h4
    simp only [not_or, not_le] at h3
    exact h3
  · rintro ⟨h1, h2, h3⟩
    have h4 : ¬ (closest_point_exact ⟨v.x, v.y, 0, 0⟩ A B = A ∨
        closest_point_exact ⟨v.x, v.y, 0, 0⟩ A B = B) := fun hc => by
      rcases h.1 hc with h5 | h5 | h5
      · exact h1 h5
      · exact absurd h2 (not_lt.2 h5)
      · exact absurd h3 (not_lt.2 h5)
    simp only [not_or] at h4
    exact h4

theorem segment_distance_of_get (K : Kernel α) (v : POINT2D α) (pa : POINTARRAY α)
    (j : Nat) (A B : POINT4D α) (hA : pa.get? j = some A) (hB : pa.get? (j + 1) = some B) :
    segment_distance K v pa j = K.lw_dist2d_pt_seg v A.xy B.xy := by
  unfold segment_distance
  rw [hA, hB]

/-- Two arrays that hold the same points at `j` and `j + 1` have the same
segment there. -/
theorem segment_distance_congr (K : Kernel α) (v : POINT2D α) (pa qa : POINTARRAY α)
    (j k : Nat) (h1 : pa.get? j = qa.get? k) (h2 : pa.get? (j + 1) = qa.get? (k + 1)) :
    segment_distance K v pa j = segment_distance K v qa k := by
  unfold segment_distance
  rw [h1, h2]

theorem endpoint_veto_congr (K : Kernel α) (v : POINT2D α) (pa qa : POINTARRAY α)
    (j k : Nat) (d : α) (h1 : pa.get? j = qa.get? k)
    (h2 : pa.get? (j + 1) = qa.get? (k + 1)) :
    endpoint_veto K pa ⟨v, (j : Int), d⟩ = endpoint_veto K qa ⟨v, (k : Int), d⟩ := by
  rw [endpoint_veto_get, endpoint_veto_get, h1, h2]

/-- The points of the array after the insertion at index `n + 1`. -/
theorem insert_get (pa : POINTARRAY α) (W : POINT4D α) (n : Nat) (hn : n + 1 ≤ pa.length) :
    (∀ j, j ≤ n → (pa.take (n + 1) ++ W :: pa.drop (n + 1)).get? j = pa.get? j) ∧
    (pa.take (n + 1) ++ W :: pa.drop (n + 1)).get? (n + 1) = some W ∧
    (∀ j, n + 1 ≤ j → (pa.take (n + 1) ++ W :: pa.drop (n + 1)).get? (j + 1) = pa.get? j) := by
  have hlen : (pa.take (n + 1)).length = n + 1 := by
    rw [List.length_take]
    omega
  simp only [List.get?_eq_getElem?]
  refine ⟨?_, ?_, ?_⟩
  · intro j hj
    rw [List.getElem?_append_left (by rw [hlen]; omega), List.getElem?_take_of_lt (by omega)]
  · rw [List.getElem?_append_right (by rw [hlen]), hlen, Nat.sub_self]
    exact List.getElem?_cons_zero
  · intro j hj
    rw [List.getElem?_append_right (by rw [hlen]; omega), hlen]
    have : j + 1 - (n + 1) = (j - (n + 1)) + 1 := by omega
    rw [this, List.getElem?_cons_succ, List.getElem?_drop]
    congr 1
    omega

theorem can_split_iff (K : Kernel α) (pa : POINTARRAY α) (v : POINT2D α) :
    can_split K pa v = true ↔
      ∃ k : Nat, _rt_find_closest_segment K v pa = some ((k : Int), 0) ∧
        endpoint_veto K pa ⟨v, (k : Int), 0⟩ = false := by
  unfold can_split
  constructor
  · intro h
    cases hcs : _rt_find_closest_segment K v pa with
    | none => simp [hcs] at h
    | some r =>
      obtain ⟨m, d⟩ := r
      simp only [hcs, Bool.and_eq_true, decide_eq_true_eq, Bool.not_eq_true'] at h
      obtain ⟨⟨hm, hd⟩, hv⟩ := h
      subst hd
      refine ⟨m.toNat, ?_, ?_⟩
      · rw [Int.toNat_of_nonneg hm]
      · rw [Int.toNat_of_nonneg hm]
        exact hv
  · rintro ⟨k, hcs, hv⟩
    simp only [hcs, hv, Int.natCast_nonneg, decide_True, Bool.not_false, Bool.and_self]

/-- Inserting a point that lies strictly inside its closest segment, at
distance zero: a point that can split a segment of the new array could split
one of the old array, and the inserted point can split none any more. -/
theorem can_split_after_split (K : Kernel α) (hK : exact_kernel K)
    (pa pa1 : POINTARRAY α) (n : Nat) (A B : POINT4D α) (w : POINT2D α)
    (hA : pa.get? n = some A) (hB : pa.get? (n + 1) = some B)
    (hlow : ∀ j, j ≤ n → pa1.get? j = pa.get? j)
    (hmid : pa1.get? (n + 1) = some ⟨w.x, w.y, 0, 0⟩)
    (hhigh : ∀ j, n + 1 ≤ j → pa1.get? (j + 1) = pa.get? j)
    (hw : _rt_find_closest_segment K w pa = some ((n : Int), 0))
    (hveto : endpoint_veto K pa ⟨w, (n : Int), 0⟩ = false) :
    (∀ v, _rt_find_closest_segment K v pa ≠ none →
      can_split K pa1 v = true → can_split K pa v = true) ∧
    can_split K pa1 w = false := by
  have hWxy : (⟨w.x, w.y, 0, 0⟩ : POINT4D α).xy = w := rfl
  have hA1 : pa1.get? n = some A := by rw [hlow n (le_refl n), hA]
  have hB1 : pa1.get? (n + 1 + 1) = some B := by rw [hhigh (n + 1) (le_refl _), hB]
  have hlenP : n + 1 < pa.length := (List.get?_eq_some.1 hB).1
  have hlenP1 : n + 1 + 1 < pa1.length := (List.get?_eq_some.1 hB1).1
  -- the inserted point on its segment
  obtain ⟨_, hw0, hwfirst⟩ := find_closest_segment_zero K hK w pa n hw
  rw [segment_distance_of_get K w pa n A B hA hB] at hw0
  have hwon : closest_point_2d w A.xy B.xy = w := (hK.dist_zero _ _ _ _ hw0).1 rfl
  obtain ⟨hab, hr0, hr1⟩ := (endpoint_veto_false_iff K hK pa w n 0 A B hA hB).1 hveto
  obtain ⟨hwx, hwy⟩ := inside_eq_param w A.xy B.xy hwon hab hr0 hr1
  -- the segments of the new array
  have hDn : ∀ v, segment_distance K v pa1 n = K.lw_dist2d_pt_seg v A.xy w := fun v => by
    rw [segment_distance_of_get K v pa1 n A _ hA1 hmid, hWxy]
  have hDn1 : ∀ v, segment_distance K v pa1 (n + 1) = K.lw_dist2d_pt_seg v w B.xy :=
    fun v => by rw [segment_distance_of_get K v pa1 (n + 1) _ B hmid hB1, hWxy]
  have hDlow : ∀ v j, j < n → segment_distance K v pa1 j = segment_distance K v pa j :=
    fun v j hj => segment_distance_congr K v pa1 pa j j (hlow j (by omega))
      (hlow (j + 1) (by omega))
  have hDhigh : ∀ v j, n + 1 ≤ j →
      segment_distance K v pa1 (j + 1) = segment_distance K v pa j :=
    fun v j hj => segment_distance_congr K v pa1 pa (j + 1) j (hhigh j hj)
      (hhigh (j + 1) (by omega))
  have hDP : ∀ v, segment_distance K v pa n = K.lw_dist2d_pt_seg v A.xy B.xy := fun v =>
    segment_distance_of_get K v pa n A B hA hB
  constructor
  · intro v hvP hsplit
    obtain ⟨k, hcs1, hv1⟩ := (can_split_iff K pa1 v).1 hsplit
    obtain ⟨hk1, hk0, hkfirst⟩ := find_closest_segment_zero K hK v pa1 k hcs1
    obtain ⟨r, hr⟩ := Option.ne_none_iff_exists'.1 hvP
    have hdistP := find_closest_segment_dist K v pa r hr
    have hdistP1 := find_closest_segment_dist K v pa1 _ hcs1
    -- when `v` lies on the old segment and strictly inside it
    have hold : closest_point_2d v A.xy B.xy = v →
        0 < segment_parameter v A.xy B.xy ∧ segment_parameter v A.xy B.xy < 1 →
        (∀ j d, j < n → segment_distance K v pa j = some d → d ≠ 0) →
        can_split K pa v = true := by
      intro hon hstrict hfirst
      obtain ⟨d0, hd0⟩ := hdistP n hlenP
      have hd00 : d0 = 0 := by
        rw [hDP] at hd0
        exact (hK.dist_zero _ _ _ _ hd0).2 hon
      subst hd00
      have := find_closest_segment_first_zero K hK v pa r hr n hd0 hfirst
      subst this
      exact (can_split_iff K pa v).2 ⟨n, hr,
        (endpoint_veto_false_iff K hK pa v n 0 A B hA hB).2 ⟨hab, hstrict.1, hstrict.2⟩⟩
    rcases Nat.lt_trichotomy k n with hlt | heq | hgt
    · -- a segment before the insertion
      have h0 : segment_distance K v pa k = some 0 := by rw [← hDlow v k hlt]; exact hk0
      have hfirst : ∀ j d, j < k → segment_distance K v pa j = some d → d ≠ 0 := by
        intro j d hj hd
        rw [← hDlow v j (by omega)] at hd
        exact hkfirst j d hj hd
      have := find_closest_segment_first_zero K hK v pa r hr k h0 hfirst
      subst this
      refine (can_split_iff K pa v).2 ⟨k, hr, ?_⟩
      rw [← endpoint_veto_congr K v pa1 pa k k 0 (hlow k (by omega)) (hlow (k + 1) (by omega))]
      exact hv1
    · -- the first part of the split segment
      subst heq
      rw [hDn] at hk0
      have hon1 : closest_point_2d v A.xy w = v := (hK.dist_zero _ _ _ _ hk0).1 rfl
      obtain ⟨haw, hs0, hs1⟩ :=
        (endpoint_veto_false_iff K hK pa1 v k 0 A _ hA1 hmid).1 hv1
      rw [hWxy] at haw hs0 hs1
      refine hold (on_first_part v A.xy B.xy w _ hr0 hr1 hwx hwy hon1)
        (inside_first_part v A.xy B.xy w _ hr0 hr1 hab hwx hwy hon1 haw hs0 hs1) ?_
      intro j d hj hd
      rw [← hDlow v j hj] at hd
      exact hkfirst j d hj hd
    · rcases Nat.lt_or_ge (n + 1) k with hgt2 | hle2
      · -- a segment after the insertion
        obtain ⟨k0, rfl⟩ : ∃ k0, k = k0 + 1 := ⟨k - 1, by omega⟩
        have hk0n : n + 1 ≤ k0 := by omega
        have h0 : segment_distance K v pa k0 = some 0 := by
          rw [← hDhigh v k0 hk0n]; exact hk0
        have hfirst : ∀ j d, j < k0 → segment_distance K v pa j = some d → d ≠ 0 := by
          intro j d hj hd
          rcases Nat.lt_trichotomy j n with hjn | hjn | hjn
          · rw [← hDlow v j hjn] at hd
            exact hkfirst j d (by omega) hd
          · subst hjn
            intro hd0
            subst hd0
            rw [hDP] at hd
            have hon : closest_point_2d v A.xy B.xy = v := (hK.dist_zero _ _ _ _ hd).1 rfl
            rcases on_some_part v A.xy B.xy w _ hr0 hr1 hwx hwy hon with h1 | h1
            · obtain ⟨d1, hd1⟩ := hdistP1 j (by omega)
              have hd1z : d1 = 0 := by
                rw [hDn] at hd1
                exact (hK.dist_zero _ _ _ _ hd1).2 h1
              subst hd1z
              exact hkfirst j 0 (by omega) hd1 rfl
            · obtain ⟨d1, hd1⟩ := hdistP1 (j + 1) (by omega)
              have hd1z : d1 = 0 := by
                rw [hDn1] at hd1
                exact (hK.dist_zero _ _ _ _ hd1).2 h1
              subst hd1z
              exact hkfirst (j + 1) 0 (by omega) hd1 rfl
          · rw [← hDhigh v j (by omega)] at hd
            exact hkfirst (j + 1) d (by omega) hd
        have := find_closest_segment_first_zero K hK v pa r hr k0 h0 hfirst
        subst this
        refine (can_split_iff K pa v).2 ⟨k0, hr, ?_⟩
        rw [← endpoint_veto_congr K v pa1 pa (k0 + 1) k0 0 (hhigh k0 hk0n)
          (hhigh (k0 + 1) (by omega))]
        exact hv1
      · -- the second part of the split segment
        have hkn : k = n + 1 := by omega
        subst hkn
        rw [hDn1] at hk0
        have hon1 : closest_point_2d v w B.xy = v := (hK.dist_zero _ _ _ _ hk0).1 rfl
        obtain ⟨hwb, hs0, hs1⟩ :=
          (endpoint_veto_false_iff K hK pa1 v (n + 1) 0 _ B hmid hB1).1 hv1
        rw [hWxy] at hwb hs0 hs1
        refine hold (on_second_part v A.xy B.xy w _ hr0 hr1 hwx hwy hon1)
          (inside_second_part v A.xy B.xy w _ hr0 hr1 hab hwx hwy hon1 hwb hs0 hs1) ?_
        intro j d hj hd
        rw [← hDlow v j hj] at hd
        exact hkfirst j d (by omega) hd
  · -- the inserted point is now the end of segment `n`
    cases hcs : _rt_find_closest_segment K w pa1 with
    | none => simp [can_split, hcs]
    | some r =>
      obtain ⟨d1, hd1⟩ := find_closest_segment_dist K w pa1 r hcs n (by omega)
      have hd1z : d1 = 0 := by
        rw [hDn] at hd1
        exact (hK.dist_zero _ _ _ _ hd1).2 (closest_at_end A.xy w)
      subst hd1z
      have hfirst : ∀ j d, j < n → segment_distance K w pa1 j = some d → d ≠ 0 := by
        intro j d hj hd
        rw [hDlow w j hj] at hd
        exact hwfirst j d hj hd
      have := find_closest_segment_first_zero K hK w pa1 r hcs n hd1 hfirst
      subst this
      by_contra hc
      have hc1 : can_split K pa1 w = true := by
        cases h : can_split K pa1 w
        · exact absurd h hc
        · rfl
      obtain ⟨k, hk, hvk⟩ := (can_split_iff K pa1 w).1 hc1
      rw [hcs] at hk
      simp only [Option.some.injEq, Prod.mk.injEq, Nat.cast_inj, and_true] at hk
      subst hk
      obtain ⟨haw, _, hs1⟩ := (endpoint_veto_false_iff K hK pa1 w n 0 A _ hA1 hmid).1 hvk
      rw [hWxy] at haw hs1
      rw [segment_parameter_at_end A.xy w haw] at hs1
      exact lt_irrefl _ hs1

/-! ## A pass that returns has measured every point of the pool -/

theorem extract_vertices_loop_dist (K : Kernel α) (state : lwgeom_tpsnap_state α)
    (pa : POINTARRAY α) :
    ∀ (l : List (POINT4D α)) (vset r : List (LWT_SNAPV α)),
      extract_vertices_loop K state pa l vset = some r →
      ∀ q ∈ l, in_workext state q.xy = true → _rt_find_closest_segment K q.xy pa ≠ none := by
  intro l
  induction l with
  | nil => intro vset r _ q hq; simp at hq
  | cons p rest ih =>
    intro vset r h q hq hin
    rw [extract_vertices_loop] at h
    by_cases hout : p.x < state.expanded_workext.xmin ∨ p.x > state.expanded_workext.xmax ∨
        p.y < state.expanded_workext.ymin ∨ p.y > state.expanded_workext.ymax
    · rw [if_pos hout] at h
      rcases List.mem_cons.1 hq with heq | hmem
      · subst heq
        rw [(outside_iff_not_in_workext state q).1 hout] at hin
        cases hin
      · exact ih _ _ h q hmem hin
    · rw [if_neg hout] at h
      cases hcs : _rt_find_closest_segment K p.xy pa with
      | none => simp [hcs] at h
      | some sd =>
        obtain ⟨segno, dist⟩ := sd
        simp only [hcs] at h
        rcases List.mem_cons.1 hq with heq | hmem
        · subst heq
          rw [hcs]
          simp
        · split at h
          · exact ih _ _ h q hmem hin
          · exact ih _ _ h q hmem hin

theorem find_vertices_loop_dist (K : Kernel α) (state : lwgeom_tpsnap_state α)
    (pa : POINTARRAY α) :
    ∀ (edges : List (LWT_ISO_EDGE α)) (vset r : List (LWT_SNAPV α)),
      find_vertices_loop K state pa edges vset = some r →
      ∀ e ∈ edges, ∀ q ∈ e.geom, in_workext state q.xy = true →
        _rt_find_closest_segment K q.xy pa ≠ none := by
  intro edges
  induction edges with
  | nil => intro vset r _ e he; simp at he
  | cons e0 rest ih =>
    intro vset r h e he q hq hin
    rw [find_vertices_loop] at h
    cases hx : _rt_extract_vertices_within_dist K state vset e0.geom pa with
    | none => simp [hx] at h
    | some vset1 =>
      simp only [hx] at h
      rcases List.mem_cons.1 he with heq | hmem
      · subst heq
        exact extract_vertices_loop_dist K state pa _ _ _ hx q hq hin
      · exact ih _ _ h e hmem q hq hin

theorem in_workext_fetched (s : lwgeom_tpsnap_state α) (v : POINT2D α) :
    in_workext (fetched s) v = in_workext s v := by
  unfold in_workext
  rw [fetched_expanded_workext]

theorem candidate_pool_fetched (s : lwgeom_tpsnap_state α) :
    candidate_pool (fetched s) = candidate_pool s := by
  unfold candidate_pool
  rw [work_edges_fetched]
  congr 1
  funext v
  exact in_workext_fetched s v

theorem mem_candidate_pool (s : lwgeom_tpsnap_state α) (v : POINT2D α) :
    v ∈ candidate_pool s ↔
      ∃ e ∈ work_edges s, ∃ q ∈ e.geom, q.xy = v ∧ in_workext s v = true := by
  unfold candidate_pool
  simp only [List.mem_filter, List.mem_flatMap, List.mem_map]
  constructor
  · rintro ⟨⟨e, he, q, hq, rfl⟩, hin⟩
    exact ⟨e, he, q, hq, rfl, hin⟩
  · rintro ⟨e, he, q, hq, rfl, hin⟩
    exact ⟨⟨e, he, q, hq, rfl⟩, hin⟩

/-- A pass that returns has found the closest segment of every point of the
pool. -/
theorem addition_pass_pool_dist (K : Kernel α) (pa : POINTARRAY α)
    (s : lwgeom_tpsnap_state α) (t : Bool × POINTARRAY α × lwgeom_tpsnap_state α)
    (h : addition_pass K pa s = some t) :
    ∀ v ∈ candidate_pool s, _rt_find_closest_segment K v pa ≠ none := by
  intro v hv
  obtain ⟨e, he, q, hq, rfl, hin⟩ := (mem_candidate_pool s v).1 hv
  unfold addition_pass _rt_find_vertices_within_dist at h
  obtain ⟨n, es, hg, hn, hes⟩ := get_edges_eq s
  rw [hg] at h
  simp only at h
  by_cases hn1 : n = -1
  · simp [hn1] at h
  · rw [if_neg hn1] at h
    cases hf : find_vertices_loop K (fetched s) pa (List.take n.toNat es) [] with
    | none => simp [hf] at h
    | some v1 =>
      rw [hes] at hf
      exact find_vertices_loop_dist K (fetched s) pa _ _ _ hf e he q hq
        (by rw [in_workext_fetched]; exact hin)

/-! ## Counting with two tests -/

theorem filter_length_le_of_imp {β : Type} (p q : β → Bool) :
    ∀ l : List β, (∀ x ∈ l, p x = true → q x = true) →
      (l.filter p).length ≤ (l.filter q).length := by
  intro l
  induction l with
  | nil => intro _; simp
  | cons a rest ih =>
    intro h
    have ih1 := ih (fun x hx => h x (List.mem_cons_of_mem a hx))
    have ha := h a (List.mem_cons_self a rest)
    cases hp : p a
    · rw [List.filter_cons_of_neg (by simp [hp])]
      cases hq : q a
      · rw [List.filter_cons_of_neg (by simp [hq])]
        exact ih1
      · rw [List.filter_cons_of_pos hq, List.length_cons]
        omega
    · rw [List.filter_cons_of_pos hp, List.filter_cons_of_pos (ha hp), List.length_cons,
        List.length_cons]
      omega

theorem filter_length_lt_of_imp {β : Type} (p q : β → Bool) :
    ∀ l : List β, (∀ x ∈ l, p x = true → q x = true) →
      (∃ w ∈ l, q w = true ∧ p w = false) →
      (l.filter p).length < (l.filter q).length := by
  intro l
  induction l with
  | nil => rintro _ ⟨w, hw, _⟩; simp at hw
  | cons a rest ih =>
    rintro h ⟨w, hw, hqw, hpw⟩
    have hrest : ∀ x ∈ rest, p x = true → q x = true :=
      fun x hx => h x (List.mem_cons_of_mem a hx)
    have hle := filter_length_le_of_imp p q rest hrest
    have ha := h a (List.mem_cons_self a rest)
    rcases List.mem_cons.1 hw with heq | hmem
    · subst heq
      rw [List.filter_cons_of_neg (by simp [hpw]), List.filter_cons_of_pos hqw,
        List.length_cons]
      omega
    · have ih1 := ih hrest ⟨w, hmem, hqw, hpw⟩
      cases hp : p a
      · rw [List.filter_cons_of_neg (by simp [hp])]
        cases hq : q a
        · rw [List.filter_cons_of_neg (by simp [hq])]
          exact ih1
        · rw [List.filter_cons_of_pos hq, List.length_cons]
          omega
      · rw [List.filter_cons_of_pos hp, List.filter_cons_of_pos (ha hp), List.length_cons,
          List.length_cons]
        omega

/-! ## Every snapped pass lowers the measure -/

theorem is_vertex_iff (v : POINT2D α) (pa : POINTARRAY α) :
    is_vertex v pa = true ↔ ∃ q ∈ pa, q.xy = v := by
  unfold is_vertex
  simp only [List.any_eq_true, decide_eq_true_eq]

theorem is_vertex_insert (v : POINT2D α) (pa : POINTARRAY α) (c : LWT_SNAPV α)
    (h : is_vertex v pa = true) : is_vertex v (insert_candidate pa c) = true := by
  obtain ⟨q, hq, hv⟩ := (is_vertex_iff v pa).1 h
  exact (is_vertex_iff v _).2 ⟨q, (insert_candidate_sublist pa c).subset hq, hv⟩

theorem is_vertex_inserted (pa : POINTARRAY α) (c : LWT_SNAPV α) :
    is_vertex c.pt (insert_candidate pa c) = true := by
  refine (is_vertex_iff c.pt _).2 ⟨⟨c.pt.x, c.pt.y, 0, 0⟩, ?_, rfl⟩
  unfold insert_candidate
  simp

/-- In exact arithmetic a vertex of the array is at distance zero from its
closest segment. -/
theorem vertex_closest_segment (K : Kernel α) (hK : exact_kernel K) (pa : POINTARRAY α)
    (hlen : 2 ≤ pa.length) (w : POINT2D α) (hw : is_vertex w pa = true) (r : Int × α)
    (hr : _rt_find_closest_segment K w pa = some r) :
    ∃ m : Nat, r = ((m : Int), 0) := by
  obtain ⟨q, hq, hqw⟩ := (is_vertex_iff w pa).1 hw
  obtain ⟨i, hi⟩ := List.mem_iff_get?.1 hq
  have hilt : i < pa.length := (List.get?_eq_some.1 hi).1
  have hdist := find_closest_segment_dist K w pa r hr
  have hzero : ∃ k, segment_distance K w pa k = some 0 := by
    by_cases hnext : i + 1 < pa.length
    · obtain ⟨q2, hq2⟩ : ∃ q2, pa.get? (i + 1) = some q2 :=
        ⟨pa.get ⟨i + 1, hnext⟩, List.get?_eq_get hnext⟩
      obtain ⟨d, hd⟩ := hdist i hnext
      refine ⟨i, ?_⟩
      rw [hd]
      rw [segment_distance_of_get K w pa i q q2 hi hq2] at hd
      have : d = 0 := (hK.dist_zero _ _ _ _ hd).2 (by
        rw [← hqw]
        exact closest_at_start q.xy q2.xy)
      rw [this]
    · obtain ⟨i0, rfl⟩ : ∃ i0, i = i0 + 1 := ⟨i - 1, by omega⟩
      obtain ⟨q0, hq0⟩ : ∃ q0, pa.get? i0 = some q0 :=
        ⟨pa.get ⟨i0, by omega⟩, List.get?_eq_get (by omega)⟩
      obtain ⟨d, hd⟩ := hdist i0 (by omega)
      refine ⟨i0, ?_⟩
      rw [hd]
      rw [segment_distance_of_get K w pa i0 q0 q hq0 hi] at hd
      have : d = 0 := (hK.dist_zero _ _ _ _ hd).2 (by
        rw [← hqw]
        exact closest_at_end q0.xy q.xy)
      rw [this]
  obtain ⟨k, hk⟩ := hzero
  rcases find_closest_segment_cases K w pa r hr hlen with ⟨_, h2⟩ | ⟨m, hm1, _, hm3, _, hm5, _⟩
  · exact absurd (h2 k 0 hk) (not_le.2 hK.FLT_MAX_pos)
  · refine ⟨m, ?_⟩
    have hnn : 0 ≤ r.2 := by
      unfold segment_distance at hm3
      split at hm3
      · exact hK.dist_nonneg _ _ _ _ hm3
      · cases hm3
    have h0 : r.2 = 0 := le_antisymm (hm5 k 0 hk) hnn
    obtain ⟨r1, r2⟩ := r
    simp only at hm1 h0
    rw [hm1, h0]

theorem addition_measure_fetched (K : Kernel α) (s : lwgeom_tpsnap_state α)
    (pa : POINTARRAY α) : addition_measure K (fetched s) pa = addition_measure K s pa := by
  unfold addition_measure
  rw [candidate_pool_fetched]

theorem measure_lt_of_first {a a1 b b1 N : Nat} (ha : a1 < a) (hb1 : b1 ≤ N) :
    a1 * (N + 1) + b1 < a * (N + 1) + b := by
  have h1 : (a1 + 1) * (N + 1) ≤ a * (N + 1) := Nat.mul_le_mul_right _ ha
  have h2 : (a1 + 1) * (N + 1) = a1 * (N + 1) + (N + 1) := by ring
  omega

theorem measure_lt_of_second {a a1 b b1 N : Nat} (ha : a1 ≤ a) (hb : b1 < b) :
    a1 * (N + 1) + b1 < a * (N + 1) + b := by
  have h1 : a1 * (N + 1) ≤ a * (N + 1) := Nat.mul_le_mul_right _ ha
  omega

/-- In exact arithmetic a pass that reports snapped lowers the measure. -/
theorem addition_pass_lowers_measure (K : Kernel α) (hK : exact_kernel K)
    (pa : POINTARRAY α) (s : lwgeom_tpsnap_state α) (hlen : 2 ≤ pa.length)
    (pa1 : POINTARRAY α) (s1 : lwgeom_tpsnap_state α)
    (h : addition_pass K pa s = some (true, pa1, s1)) :
    addition_measure K s pa1 < addition_measure K s pa ∧ 2 ≤ pa1.length := by
  have hpool := addition_pass_pool_dist K pa s _ h
  obtain ⟨_, _, _, ht⟩ := addition_pass_some K pa s true pa1 s1 h
  obtain ⟨c, hc, hpa1, _, hvalid⟩ := ht rfl
  obtain ⟨e, he, q, hq, hcq, hin, hcs, _⟩ := (mem_candidate_set K s pa _ c).1 hc
  have hcpool : c.pt ∈ candidate_pool s :=
    (mem_candidate_pool s c.pt).2 ⟨e, he, q, hq, hcq.symm, by rw [hcq]; exact hin⟩
  rw [← hcq] at hcs
  subst hpa1
  refine ⟨?_, by rw [insert_candidate_length]; omega⟩
  have hmono : ∀ x ∈ candidate_pool s,
      (!is_vertex x (insert_candidate pa c)) = true → (!is_vertex x pa) = true := by
    intro x _ hx
    cases hv : is_vertex x pa
    · rfl
    · rw [is_vertex_insert x pa c hv] at hx
      exact hx
  unfold addition_measure
  cases hvert : is_vertex c.pt pa
  · -- a new vertex
    apply measure_lt_of_first
    · exact filter_length_lt_of_imp _ _ _ hmono
        ⟨c.pt, hcpool, by simp [hvert], by simp [is_vertex_inserted pa c]⟩
    · exact List.length_filter_le _ _
  · -- a vertex again: it splits the segment it lies on
    obtain ⟨m, hm⟩ := vertex_closest_segment K hK pa hlen c.pt hvert _ hcs
    simp only [Prod.mk.injEq] at hm
    obtain ⟨hseg, hdist⟩ := hm
    have hcs0 : _rt_find_closest_segment K c.pt pa = some ((m : Int), 0) := by
      rw [hcs, hseg, hdist]
    have hceq : c = ⟨c.pt, (m : Int), 0⟩ := by
      cases c
      simp only at hseg hdist
      simp only [hseg, hdist]
    have hveto : endpoint_veto K pa ⟨c.pt, (m : Int), 0⟩ = false := by
      rw [← hceq]
      unfold valid_candidate at hvalid
      simp only [Bool.and_eq_true, Bool.not_eq_true'] at hvalid
      exact hvalid.1
    obtain ⟨hm1, _, _⟩ := find_closest_segment_zero K hK c.pt pa m hcs0
    obtain ⟨A, hA⟩ : ∃ A, pa.get? m = some A :=
      ⟨pa.get ⟨m, by omega⟩, List.get?_eq_get (by omega)⟩
    obtain ⟨B, hB⟩ : ∃ B, pa.get? (m + 1) = some B :=
      ⟨pa.get ⟨m + 1, hm1⟩, List.get?_eq_get hm1⟩
    have hins : insert_candidate pa c =
        pa.take (m + 1) ++ (⟨c.pt.x, c.pt.y, 0, 0⟩ : POINT4D α) :: pa.drop (m + 1) := by
      unfold insert_candidate
      have : (c.segno + 1).toNat = m + 1 := by rw [hseg]; omega
      rw [this]
    obtain ⟨hlow, hmid, hhigh⟩ := insert_get pa (⟨c.pt.x, c.pt.y, 0, 0⟩ : POINT4D α) m
      (by omega)
    rw [← hins] at hlow hmid hhigh
    obtain ⟨hsplit, hself⟩ := can_split_after_split K hK pa (insert_candidate pa c) m A B c.pt
      hA hB hlow hmid hhigh hcs0 hveto
    apply measure_lt_of_second
    · exact filter_length_le_of_imp _ _ _ hmono
    · exact filter_length_lt_of_imp _ _ _ (fun x hx => hsplit x (hpool x hx))
        ⟨c.pt, hcpool, (can_split_iff K pa c.pt).2 ⟨m, hcs0, hveto⟩, hself⟩

/-- In exact arithmetic the addition phase ends: with more fuel than the
measure of the array it does not run out of fuel. -/
theorem ptarray_add_terminates (K : Kernel α) (hK : exact_kernel K) :
    ∀ (fuel : Nat) (pa : POINTARRAY α) (s : lwgeom_tpsnap_state α), 2 ≤ pa.length →
      addition_measure K s pa < fuel →
      _lwgeom_tpsnap_ptarray_add K fuel pa s ≠ Outcome.nofuel := by
  intro fuel
  induction fuel with
  | zero => intro pa s _ h; omega
  | succ n ih =>
    intro pa s hlen hm
    rw [_lwgeom_tpsnap_ptarray_add]
    cases hp : addition_pass K pa s with
    | none => simp
    | some t =>
      obtain ⟨b, pa1, s1⟩ := t
      simp only
      split
      · next hcond =>
        simp only [Bool.and_eq_true] at hcond
        have hb : b = true := hcond.1
        subst hb
        obtain ⟨hlt, hlen1⟩ := addition_pass_lowers_measure K hK pa s hlen pa1 s1 hp
        have hs1 := (addition_pass_some K pa s true pa1 s1 hp).1
        apply ih pa1 s1 hlen1
        rw [hs1, addition_measure_fetched]
        omega
      · simp

/-! ## The removal phase keeps the vertices of the edges -/

theorem mem_zip_tail_of_get {β : Type} :
    ∀ (l : List β) (n : Nat) (a b : β), l.get? n = some a → l.get? (n + 1) = some b →
      (a, b) ∈ l.zip l.tail := by
  intro l
  induction l with
  | nil => intro n a b h; simp at h
  | cons x rest ih =>
    intro n a b ha hb
    cases rest with
    | nil => simp at hb
    | cons y rest2 =>
      cases n with
      | zero =>
        simp only [List.get?_cons_zero, Option.some.injEq, List.get?_cons_succ] at ha hb
        subst ha
        subst hb
        simp
      | succ n =>
        simp only [List.get?_cons_succ] at ha hb
        have := ih n a b ha hb
        simp only [List.tail_cons, List.zip_cons_cons, List.mem_cons]
        right
        simpa using this

theorem vertices_at_segment_ends_get (edges : List (LWT_ISO_EDGE α))
    (h : vertices_at_segment_ends edges = true) (e0 : LWT_ISO_EDGE α) (he0 : e0 ∈ edges)
    (q : POINT4D α) (hq : q ∈ e0.geom) (e : LWT_ISO_EDGE α) (he : e ∈ edges) (n : Nat)
    (A B : POINT4D α) (hA : e.geom.get? n = some A) (hB : e.geom.get? (n + 1) = some B)
    (hon : closest_point_2d q.xy A.xy B.xy = q.xy) : q.xy = A.xy ∨ q.xy = B.xy := by
  unfold vertices_at_segment_ends at h
  rw [List.all_eq_true] at h
  have h1 := h e0 he0
  rw [List.all_eq_true] at h1
  have h2 := h1 q hq
  rw [List.all_eq_true] at h2
  have h3 := h2 e he
  rw [List.all_eq_true] at h3
  have h4 := h3 (A, B) (mem_zip_tail_of_get e.geom n A B hA hB)
  simp only [Bool.or_eq_true, Bool.not_eq_true', decide_eq_false_iff_not,
    decide_eq_true_eq] at h4
  rcases h4 with (h5 | h5) | h5
  · exact absurd hon h5
  · exact Or.inl h5
  · exact Or.inr h5

theorem is_edge_vertex_iff (edges : List (LWT_ISO_EDGE α)) (v : POINT2D α) :
    is_edge_vertex edges v = true ↔ ∃ e ∈ edges, ∃ q ∈ e.geom, q.xy = v := by
  unfold is_edge_vertex
  simp only [List.any_eq_true, decide_eq_true_eq]

theorem segment_parameter_at_start (a b : POINT2D α) (h : a ≠ b) :
    segment_parameter a a b = 0 :=
  segment_parameter_of_eq a a b 0 h (by ring) (by ring)

/-- In exact arithmetic the distance of the closest segment is not negative. -/
theorem find_closest_segment_nonneg (K : Kernel α) (hK : exact_kernel K) (v : POINT2D α)
    (pa : POINTARRAY α) (r : Int × α) (h : _rt_find_closest_segment K v pa = some r) :
    0 ≤ r.2 := by
  by_cases hlen : 2 ≤ pa.length
  · rcases find_closest_segment_cases K v pa r h hlen with ⟨h1, _⟩ | ⟨m, _, _, hm3, _, _, _⟩
    · rw [h1]
      exact le_of_lt hK.FLT_MAX_pos
    · unfold segment_distance at hm3
      split at hm3
      · exact hK.dist_nonneg _ _ _ _ hm3
      · cases hm3
  · unfold _rt_find_closest_segment at h
    rw [if_pos (by omega)] at h
    rw [← Option.some.inj h]
    exact le_of_lt hK.FLT_MAX_pos

theorem find_closest_segment_zero_index (K : Kernel α) (hK : exact_kernel K)
    (v : POINT2D α) (pa : POINTARRAY α) (c : Int)
    (h : _rt_find_closest_segment K v pa = some (c, 0)) : ∃ n : Nat, c = (n : Int) := by
  by_cases hlen : 2 ≤ pa.length
  · rcases find_closest_segment_cases K v pa _ h hlen with ⟨h1, _⟩ | ⟨m, hm1, _⟩
    · simp only [Prod.mk.injEq] at h1
      exact absurd h1.2.symm (ne_of_gt hK.FLT_MAX_pos)
    · exact ⟨m, hm1⟩
  · unfold _rt_find_closest_segment at h
    rw [if_pos (by omega)] at h
    simp only [Option.some.injEq, Prod.mk.injEq] at h
    exact absurd h.2 (ne_of_gt hK.FLT_MAX_pos)

/-- The edge loop of the removal phase, when it returns an edge: the edge it
returns is the one it started with or an edge of the list with its
closest-segment result, at a distance within tolerance that no edge within
tolerance undercuts; and the search succeeded on every edge. -/
theorem closest_edge_loop_some (K : Kernel α) (state : lwgeom_tpsnap_state α)
    (V : POINT2D α) :
    ∀ (edges : List (LWT_ISO_EDGE α)) (ce : Option (POINTARRAY α)) (cn : Int) (cd : α)
      (epa : POINTARRAY α) (cnum : Int) (cdist : α),
      closest_edge_loop K state V edges ce cn cd = some (some epa, cnum, cdist) →
      ((ce = some epa ∧ cn = cnum ∧ cd = cdist) ∨
        (∃ e ∈ edges, e.geom = epa ∧
          _rt_find_closest_segment K V e.geom = some (cnum, cdist) ∧
          cdist ≤ state.tolerance_removal)) ∧
      cdist ≤ cd ∧
      (∀ e ∈ edges, ∃ r, _rt_find_closest_segment K V e.geom = some r ∧
        (r.2 ≤ state.tolerance_removal → cdist ≤ r.2)) := by
  intro edges
  induction edges with
  | nil =>
    intro ce cn cd epa cnum cdist h
    simp only [closest_edge_loop, Option.some.injEq, Prod.mk.injEq] at h
    obtain ⟨h1, h2, h3⟩ := h
    refine ⟨Or.inl ⟨h1, h2, h3⟩, le_of_eq h3.symm, ?_⟩
    intro e he
    simp at he
  | cons e0 rest ih =>
    intro ce cn cd epa cnum cdist h
    rw [closest_edge_loop] at h
    cases hcs : _rt_find_closest_segment K V e0.geom with
    | none => simp [hcs] at h
    | some sd =>
      obtain ⟨segno, dist⟩ := sd
      simp only [hcs] at h
      by_cases hgt : dist > state.tolerance_removal
      · rw [if_pos hgt] at h
        obtain ⟨h1, h2, h3⟩ := ih ce cn cd epa cnum cdist h
        refine ⟨?_, h2, ?_⟩
        · rcases h1 with h1 | ⟨e, he, h4⟩
          · exact Or.inl h1
          · exact Or.inr ⟨e, List.mem_cons_of_mem _ he, h4⟩
        · intro e he
          rcases List.mem_cons.1 he with heq | hmem
          · subst heq
            exact ⟨(segno, dist), hcs, fun hle => absurd hgt (not_lt.2 hle)⟩
          · exact h3 e hmem
      · rw [if_neg hgt] at h
        by_cases hlt : dist < cd
        · rw [if_pos hlt] at h
          obtain ⟨h1, h2, h3⟩ := ih (some e0.geom) segno dist epa cnum cdist h
          refine ⟨Or.inr ?_, le_of_lt (lt_of_le_of_lt h2 hlt), ?_⟩
          · rcases h1 with ⟨h4, h5, h6⟩ | ⟨e, he, h4⟩
            · refine ⟨e0, List.mem_cons_self _ _, Option.some.inj h4, ?_, ?_⟩
              · rw [hcs, h5, h6]
              · rw [← h6]
                exact not_lt.1 hgt
            · exact ⟨e, List.mem_cons_of_mem _ he, h4⟩
          · intro e he
            rcases List.mem_cons.1 he with heq | hmem
            · subst heq
              exact ⟨(segno, dist), hcs, fun _ => h2⟩
            · exact h3 e hmem
        · rw [if_neg hlt] at h
          obtain ⟨h1, h2, h3⟩ := ih ce cn cd epa cnum cdist h
          refine ⟨?_, h2, ?_⟩
          · rcases h1 with h1 | ⟨e, he, h4⟩
            · exact Or.inl h1
            · exact Or.inr ⟨e, List.mem_cons_of_mem _ he, h4⟩
          · intro e he
            rcases List.mem_cons.1 he with heq | hmem
            · subst heq
              exact ⟨(segno, dist), hcs, fun _ => le_trans h2 (not_lt.1 hlt)⟩
            · exact h3 e hmem

/-- In exact arithmetic, over edges with at least two points none of which
passes through a vertex, the removal phase does not remove a point that is a
vertex of an edge. -/
theorem removal_keeps_edge_vertex (K : Kernel α) (hK : exact_kernel K)
    (state : lwgeom_tpsnap_state α) (edges : List (LWT_ISO_EDGE α))
    (hwf : ∀ e ∈ edges, 2 ≤ e.geom.length)
    (hvalid : vertices_at_segment_ends edges = true) (cnum0 : Int) (V : POINT2D α)
    (hV : is_edge_vertex edges V = true) :
    removal_decision K state edges cnum0 V ≠ some true := by
  unfold removal_decision
  cases hloop : closest_edge_loop K state V edges none cnum0 (state.tolerance_removal + 1) with
  | none => simp
  | some t =>
    obtain ⟨ce, cnum, cdist⟩ := t
    cases ce with
    | none => simp
    | some epa =>
      obtain ⟨h1, _, h3⟩ := closest_edge_loop_some K state V edges none cnum0 _ epa cnum cdist
        hloop
      rcases h1 with ⟨h4, _⟩ | ⟨e, he, hgeom, hcs, htol⟩
      · cases h4
      · obtain ⟨e0, he0, q, hq, hqV⟩ := (is_edge_vertex_iff edges V).1 hV
        obtain ⟨r0, hr0, hmin⟩ := h3 e0 he0
        obtain ⟨m0, hm0⟩ := vertex_closest_segment K hK e0.geom (hwf e0 he0) V
          ((is_vertex_iff V e0.geom).2 ⟨q, hq, hqV⟩) r0 hr0
        have hnn : 0 ≤ cdist := find_closest_segment_nonneg K hK V e.geom _ hcs
        have hz : cdist = 0 := by
          have : cdist ≤ r0.2 := hmin (by rw [hm0]; exact le_trans hnn htol)
          rw [hm0] at this
          exact le_antisymm this hnn
        subst hz
        obtain ⟨n, hn⟩ := find_closest_segment_zero_index K hK V e.geom cnum hcs
        subst hn
        obtain ⟨hn1, hd0, _⟩ := find_closest_segment_zero K hK V e.geom n hcs
        obtain ⟨A, hA⟩ : ∃ A, e.geom.get? n = some A :=
          ⟨e.geom.get ⟨n, by omega⟩, List.get?_eq_get (by omega)⟩
        obtain ⟨B, hB⟩ : ∃ B, e.geom.get? (n + 1) = some B :=
          ⟨e.geom.get ⟨n + 1, hn1⟩, List.get?_eq_get hn1⟩
        rw [segment_distance_of_get K V e.geom n A B hA hB] at hd0
        have hon : closest_point_2d V A.xy B.xy = V := (hK.dist_zero _ _ _ _ hd0).1 rfl
        have hend : V = A.xy ∨ V = B.xy := by
          have := vertices_at_segment_ends_get edges hvalid e0 he0 q hq e he n A B hA hB
            (by rw [hqV]; exact hon)
          rw [hqV] at this
          exact this
        have hveto : endpoint_veto K e.geom ⟨V, (n : Int), 0⟩ = true := by
          cases hv : endpoint_veto K e.geom ⟨V, (n : Int), 0⟩
          · obtain ⟨hab, hs0, hs1⟩ :=
              (endpoint_veto_false_iff K hK e.geom V n 0 A B hA hB).1 hv
            rcases hend with h5 | h5
            · rw [h5, segment_parameter_at_start A.xy B.xy hab] at hs0
              exact absurd hs0 (lt_irrefl _)
            · rw [h5, segment_parameter_at_end A.xy B.xy hab] at hs1
              exact absurd hs1 (lt_irrefl _)
          · rfl
        subst hgeom
        have hsame : (p4d_same
            (K.closest_point_on_segment ⟨V.x, V.y, 0, 0⟩
              (getPoint4d_p e.geom (n : Int) K.unwritten)
              (getPoint4d_p e.geom ((n : Int) + 1) K.unwritten))
            (getPoint4d_p e.geom (n : Int) K.unwritten) ||
          p4d_same
            (K.closest_point_on_segment ⟨V.x, V.y, 0, 0⟩
              (getPoint4d_p e.geom (n : Int) K.unwritten)
              (getPoint4d_p e.geom ((n : Int) + 1) K.unwritten))
            (getPoint4d_p e.geom ((n : Int) + 1) K.unwritten)) = true := hveto
        simp only [hsame, Bool.not_true, ne_eq, Option.some.injEq, Bool.false_eq_true,
          not_false_eq_true]

/-! ## Counting the loose vertices through the two phases -/

theorem loose_vertices_insert (edges : List (LWT_ISO_EDGE α)) (pa : POINTARRAY α)
    (c : LWT_SNAPV α) (hc : is_edge_vertex edges c.pt = true) :
    loose_vertices edges (insert_candidate pa c) = loose_vertices edges pa := by
  unfold loose_vertices insert_candidate
  have hW : (⟨c.pt.x, c.pt.y, 0, 0⟩ : POINT4D α).xy = c.pt := rfl
  rw [List.filter_append, List.filter_cons_of_neg (by rw [hW, hc]; simp), ← List.filter_append,
    List.take_append_drop]

theorem loose_vertices_erase (edges : List (LWT_ISO_EDGE α)) (pa : POINTARRAY α) (i : Nat)
    (q : POINT4D α) (hq : pa.get? i = some q) (hloose : is_edge_vertex edges q.xy = false) :
    loose_vertices edges (pa.eraseIdx i) + 1 = loose_vertices edges pa := by
  have hi : i < pa.length := (List.get?_eq_some.1 hq).1
  have hdrop : pa.drop i = q :: pa.drop (i + 1) := by
    rw [List.drop_eq_getElem_cons hi]
    congr 1
    have := List.get?_eq_get hi
    rw [hq] at this
    exact (Option.some.inj this).symm
  unfold loose_vertices
  rw [List.eraseIdx_eq_take_drop_succ]
  conv_rhs => rw [← List.take_append_drop i pa, hdrop]
  rw [List.filter_append, List.filter_append,
    List.filter_cons_of_pos (by rw [hloose]; rfl)]
  simp only [List.length_append, List.length_cons]
  omega

/-- The addition phase inserts vertices of the cached edges only. -/
theorem ptarray_add_loose (K : Kernel α) :
    ∀ (fuel : Nat) (pa : POINTARRAY α) (s : lwgeom_tpsnap_state α) (pa1 : POINTARRAY α)
      (s1 : lwgeom_tpsnap_state α),
      _lwgeom_tpsnap_ptarray_add K fuel pa s = Outcome.ret (pa1, s1) →
      loose_vertices (work_edges s) pa1 = loose_vertices (work_edges s) pa ∧
        pa.length ≤ pa1.length := by
  intro fuel
  induction fuel with
  | zero => intro pa s pa1 s1 h; simp [_lwgeom_tpsnap_ptarray_add] at h
  | succ n ih =>
    intro pa s pa1 s1 h
    rw [_lwgeom_tpsnap_ptarray_add] at h
    cases hp : addition_pass K pa s with
    | none => simp [hp] at h
    | some t =>
      obtain ⟨b, pa2, s2⟩ := t
      simp only [hp] at h
      obtain ⟨hs2, _, hf, ht⟩ := addition_pass_some K pa s b pa2 s2 hp
      have hstep : loose_vertices (work_edges s) pa2 = loose_vertices (work_edges s) pa ∧
          pa.length ≤ pa2.length := by
        cases b with
        | false =>
          rw [hf rfl]
          exact ⟨rfl, le_refl _⟩
        | true =>
          obtain ⟨c, hc, hpa2, _, _⟩ := ht rfl
          obtain ⟨e, he, q, hq, hcq, _⟩ := (mem_candidate_set K s pa _ c).1 hc
          rw [hpa2]
          refine ⟨loose_vertices_insert _ pa c
            ((is_edge_vertex_iff _ c.pt).2 ⟨e, he, q, hq, hcq.symm⟩), ?_⟩
          rw [insert_candidate_length]
          omega
      split at h
      · obtain ⟨h1, h2⟩ := ih pa2 s2 pa1 s1 h
        rw [hs2, work_edges_fetched] at h1
        exact ⟨h1.trans hstep.1, le_trans hstep.2 h2⟩
      · simp only [Outcome.ret.injEq, Prod.mk.injEq] at h
        rw [← h.1]
        exact hstep

theorem getPoint2d_p_of_get (pa : POINTARRAY α) (i : Nat) (q : POINT4D α) (buf : POINT2D α)
    (h : pa.get? i = some q) : getPoint2d_p pa (i : Int) buf = q.xy := by
  unfold getPoint2d_p
  rw [if_pos (Int.natCast_nonneg i), Int.toNat_natCast, h]
  rfl

/-- In exact arithmetic, over edges with at least two points none of which
passes through a vertex, every point the removal loop removes is loose. -/
theorem remove_loop_loose (K : Kernel α) (hK : exact_kernel K)
    (state : lwgeom_tpsnap_state α) (edges : List (LWT_ISO_EDGE α))
    (hwf : ∀ e ∈ edges, 2 ≤ e.geom.length)
    (hvalid : vertices_at_segment_ends edges = true) (cnum0 : Int) :
    ∀ (fuel i : Nat) (pa : POINTARRAY α) (removed r : Int) (pa2 : POINTARRAY α),
      remove_loop K state edges cnum0 fuel i pa removed = Outcome.ret (r, pa2) →
      (loose_vertices edges pa2 : Int) + (r - removed) = loose_vertices edges pa := by
  intro fuel
  induction fuel with
  | zero =>
    intro i pa removed r pa2 h
    by_cases hlt : (i : Int) < (pa.length : Int) - 1
    · rw [remove_loop_zero K state edges cnum0 i pa removed hlt] at h
      cases h
    · rw [remove_loop_done K state edges cnum0 0 i pa removed hlt] at h
      simp only [Outcome.ret.injEq, Prod.mk.injEq] at h
      rw [← h.1, ← h.2]
      ring
  | succ f ih =>
    intro i pa removed r pa2 h
    by_cases hlt : (i : Int) < (pa.length : Int) - 1
    · rw [remove_loop_succ K state edges cnum0 f i pa removed hlt] at h
      have hi : i < pa.length := by omega
      have hq : pa.get? i = some (pa.get ⟨i, hi⟩) := List.get?_eq_get hi
      have hV := getPoint2d_p_of_get pa i _ K.unwritten.xy hq
      cases hdec : removal_decision K state edges cnum0 (getPoint2d_p pa i K.unwritten.xy) with
      | none => simp [hdec] at h
      | some b =>
        cases b with
        | false =>
          simp only [hdec] at h
          exact ih (i + 1) pa removed r pa2 h
        | true =>
          simp only [hdec] at h
          have hloose : is_edge_vertex edges (pa.get ⟨i, hi⟩).xy = false := by
            cases hv : is_edge_vertex edges (pa.get ⟨i, hi⟩).xy
            · rfl
            · rw [hV] at hdec
              exact absurd hdec
                (removal_keeps_edge_vertex K hK state edges hwf hvalid cnum0 _ hv)
          unfold ptarray_remove_point at h
          rw [if_pos hi] at h
          simp only at h
          have h1 := ih i (pa.eraseIdx i) (removed + 1) r pa2 h
          have h2 := loose_vertices_erase edges pa i _ hq hloose
          have h3 : ((loose_vertices edges (pa.eraseIdx i) : Nat) : Int) + 1 =
              loose_vertices edges pa := by exact_mod_cast h2
          linarith
    · rw [remove_loop_done K state edges cnum0 (f + 1) i pa removed hlt] at h
      simp only [Outcome.ret.injEq, Prod.mk.injEq] at h
      rw [← h.1, ← h.2]
      ring

/-- The removal loop ends within the fuel the removal phase gives it. -/
theorem remove_loop_fuel (K : Kernel α) (state : lwgeom_tpsnap_state α)
    (edges : List (LWT_ISO_EDGE α)) (cnum0 : Int) :
    ∀ (fuel i : Nat) (pa : POINTARRAY α) (removed : Int), pa.length ≤ i + fuel + 1 →
      remove_loop K state edges cnum0 fuel i pa removed ≠ Outcome.nofuel := by
  intro fuel
  induction fuel with
  | zero =>
    intro i pa removed h
    rw [remove_loop_done K state edges cnum0 0 i pa removed (by omega)]
    simp
  | succ f ih =>
    intro i pa removed h
    by_cases hlt : (i : Int) < (pa.length : Int) - 1
    · rw [remove_loop_succ K state edges cnum0 f i pa removed hlt]
      cases hdec : removal_decision K state edges cnum0 (getPoint2d_p pa i K.unwritten.xy) with
      | none => simp
      | some b =>
        cases b with
        | false =>
          simp only
          exact ih (i + 1) pa removed (by omega)
        | true =>
          simp only
          unfold ptarray_remove_point
          have hi : i < pa.length := by omega
          rw [if_pos hi]
          simp only
          apply ih
          rw [List.length_eraseIdx]
          rw [if_pos hi]
          omega
    · rw [remove_loop_done K state edges cnum0 (f + 1) i pa removed hlt]
      simp

theorem ptarray_remove_fuel (K : Kernel α) (pa : POINTARRAY α)
    (s : lwgeom_tpsnap_state α) :
    _lwgeom_tpsnap_ptarray_remove K pa s ≠ Outcome.nofuel := by
  unfold _lwgeom_tpsnap_ptarray_remove
  obtain ⟨n, es, hg, hn, hes⟩ := get_edges_eq s
  rw [hg]
  simp only
  by_cases hn1 : n = -1
  · rw [if_pos hn1]
    simp
  · rw [if_neg hn1]
    have := remove_loop_fuel K (fetched s) (es.take n.toNat) 0 pa.length 1 pa 0 (by omega)
    cases hr : remove_loop K (fetched s) (es.take n.toNat) 0 pa.length 1 pa 0 with
    | nofuel => exact absurd hr this
    | error => simp
    | ret t =>
      obtain ⟨r, pa1⟩ := t
      simp

/-- The removal phase, in exact arithmetic over edges none of which passes
through a vertex: the points removed are loose, and at least two points
stay. -/
theorem ptarray_remove_loose (K : Kernel α) (hK : exact_kernel K) (pa : POINTARRAY α)
    (s : lwgeom_tpsnap_state α) (hlen : 2 ≤ pa.length)
    (hwf : ∀ e ∈ work_edges s, 2 ≤ e.geom.length)
    (hvalid : vertices_at_segment_ends (work_edges s) = true)
    (r : Int) (pa1 : POINTARRAY α) (s1 : lwgeom_tpsnap_state α)
    (h : _lwgeom_tpsnap_ptarray_remove K pa s = Outcome.ret (r, pa1, s1)) :
    (loose_vertices (work_edges s) pa1 : Int) + r = loose_vertices (work_edges s) pa ∧
      2 ≤ pa1.length := by
  constructor
  · unfold _lwgeom_tpsnap_ptarray_remove at h
    obtain ⟨n, es, hg, hn, hes⟩ := get_edges_eq s
    rw [hg] at h
    simp only at h
    by_cases hn1 : n = -1
    · rw [if_pos hn1] at h
      cases h
    · rw [if_neg hn1, hes] at h
      cases hr : remove_loop K (fetched s) (work_edges s) 0 pa.length 1 pa 0 with
      | nofuel => simp [hr] at h
      | error => simp [hr] at h
      | ret t =>
        obtain ⟨r2, pa2⟩ := t
        simp only [hr, Outcome.ret.injEq, Prod.mk.injEq] at h
        obtain ⟨h1, h2, _⟩ := h
        subst h1
        subst h2
        have := remove_loop_loose K hK (fetched s) (work_edges s) hwf hvalid 0 pa.length 1 pa 0
          r2 pa2 hr
        simpa using this
  · obtain ⟨first, rest, hpa⟩ : ∃ first rest, pa = first :: rest := by
      cases pa with
      | nil => simp at hlen
      | cons a l => exact ⟨a, l, rfl⟩
    have hrest : rest ≠ [] := by
      intro hnil
      rw [hpa, hnil] at hlen
      simp at hlen
    obtain ⟨mid, last, hml⟩ : ∃ mid last, rest = mid ++ [last] :=
      ⟨rest.dropLast, rest.getLast hrest, (List.dropLast_append_getLast hrest).symm⟩
    rw [hpa, hml] at h
    obtain ⟨_, _, mid1, hpa1, _⟩ := ptarray_remove_ends K s first last mid r pa1 s1 h
    rw [hpa1]
    simp

theorem addition_measure_bound (K : Kernel α) (s : lwgeom_tpsnap_state α)
    (pa : POINTARRAY α) :
    addition_measure K s pa <
      ((candidate_pool s).length + 1) * ((candidate_pool s).length + 1) := by
  unfold addition_measure
  have h1 := List.length_filter_le (fun v => !is_vertex v pa) (candidate_pool s)
  have h2 := List.length_filter_le (can_split K pa) (candidate_pool s)
  have h3 := Nat.mul_le_mul_right ((candidate_pool s).length + 1) h1
  have h4 : ((candidate_pool s).length + 1) * ((candidate_pool s).length + 1) =
      (candidate_pool s).length * ((candidate_pool s).length + 1) +
        ((candidate_pool s).length + 1) := by ring
  omega

/-- In exact arithmetic, over cached edges with at least two points none of
which passes through a vertex, the outer loop ends: every further round
follows a removal phase that removed a loose vertex, and the addition phase
brings none back. -/
theorem tpsnap_loop_terminates (K : Kernel α) (hK : exact_kernel K) (n : Nat) :
    ∀ (fuel : Nat) (pa : POINTARRAY α) (s : lwgeom_tpsnap_state α), 2 ≤ pa.length →
      (∀ e ∈ work_edges s, 2 ≤ e.geom.length) →
      vertices_at_segment_ends (work_edges s) = true →
      ((candidate_pool s).length + 1) * ((candidate_pool s).length + 1) ≤ n →
      loose_vertices (work_edges s) pa < fuel →
      tpsnap_ptarray_loop K n fuel pa s ≠ Outcome.nofuel := by
  intro fuel
  induction fuel with
  | zero => intro pa s _ _ _ _ h; omega
  | succ f ih =>
    intro pa s hlen hwf hvalid hn hloose
    rw [tpsnap_ptarray_loop]
    have hadd := ptarray_add_terminates K hK n pa s hlen
      (lt_of_lt_of_le (addition_measure_bound K s pa) hn)
    cases ha : _lwgeom_tpsnap_ptarray_add K n pa s with
    | nofuel => exact absurd ha hadd
    | error => simp
    | ret t =>
      obtain ⟨pa1, s1⟩ := t
      simp only
      obtain ⟨hs1, _, _⟩ := ptarray_add_ret K n pa s pa1 s1 ha
      obtain ⟨hl1, hlen1⟩ := ptarray_add_loose K n pa s pa1 s1 ha
      split
      · have hrem := ptarray_remove_fuel K pa1 s1
        cases hr : _lwgeom_tpsnap_ptarray_remove K pa1 s1 with
        | nofuel => exact absurd hr hrem
        | error => simp
        | ret t2 =>
          obtain ⟨removed, pa2, s2⟩ := t2
          simp only
          split
          · next hcond =>
            simp only [Bool.and_eq_true, bne_iff_ne, ne_eq, decide_eq_true_eq] at hcond
            obtain ⟨hs2, _, hr0, _⟩ := ptarray_remove_ret K pa1 s1 removed pa2 s2 hr
            have hw1 : work_edges s1 = work_edges s := by rw [hs1, work_edges_fetched]
            have hw2 : work_edges s2 = work_edges s := by rw [hs2, work_edges_fetched, hw1]
            have hp2 : candidate_pool s2 = candidate_pool s := by
              rw [hs2, candidate_pool_fetched, hs1, candidate_pool_fetched]
            obtain ⟨hl2, hlen2⟩ := ptarray_remove_loose K hK pa1 s1 (by omega)
              (by rw [hw1]; exact hwf) (by rw [hw1]; exact hvalid) removed pa2 s2 hr
            rw [hw1] at hl2
            apply ih pa2 s2 hlen2 (by rw [hw2]; exact hwf) (by rw [hw2]; exact hvalid)
              (by rw [hp2]; exact hn)
            rw [hw2]
            have hne : removed ≠ 0 := by
              intro h0
              apply hcond.1
              simp [h0]
            have : (loose_vertices (work_edges s) pa2 : Int) < loose_vertices (work_edges s) pa1 := by
              omega
            have h5 : loose_vertices (work_edges s) pa2 < loose_vertices (work_edges s) pa1 := by
              exact_mod_cast this
            omega
          · simp
      · simp

mutual
/-- A geometry whose leaves are neither line-strings nor polygons has no
linear component. -/
theorem linear_components_of_no_leaf :
    ∀ (g : LWGEOM α), has_linear_leaf g = false → linear_components g = []
  | LWGEOM.LWPOLY rings, h => by simp [has_linear_leaf] at h
  | LWGEOM.LWLINE points, h => by simp [has_linear_leaf] at h
  | LWGEOM.LWPOINT point, _ => by simp only [linear_components]
  | LWGEOM.LWCIRCSTRING points, _ => by simp only [linear_components]
  | LWGEOM.LWTRIANGLE points, _ => by simp only [linear_components]
  | LWGEOM.LWCOLLECTION type geoms, h => by
    simp only [has_linear_leaf] at h
    have ih := linear_components_list_of_no_leaf geoms h
    cases type <;> simp only [linear_components, ih]
theorem linear_components_list_of_no_leaf :
    ∀ (geoms : List (LWGEOM α)), has_linear_leaf_list geoms = false →
      linear_components_list geoms = []
  | [], _ => by simp only [linear_components_list]
  | g :: rest, h => by
    simp only [has_linear_leaf_list, Bool.or_eq_false_iff] at h
    simp only [linear_components_list, linear_components_of_no_leaf g h.1,
      linear_components_list_of_no_leaf rest h.2, List.append_nil]
end

/-- The edge loop of `_rt_segment_covered` stops at the first edge that covers
the segment or on which the predicate fails. -/
theorem segment_covered_loop_append (K : Kernel α) (p1 p2 : POINT4D α)
    (e : LWT_ISO_EDGE α) (post : List (LWT_ISO_EDGE α)) :
    ∀ (pre : List (LWT_ISO_EDGE α)),
      (∀ e1 ∈ pre, K.GEOSCovers e1.geom p1 p2 = some false) →
      segment_covered_loop K p1 p2 (pre ++ e :: post) =
        match K.GEOSCovers e.geom p1 p2 with
        | none => none
        | some true => some true
        | some false => segment_covered_loop K p1 p2 post := by
  intro pre
  induction pre with
  | nil => intro _; rfl
  | cons e0 rest ih =>
    intro h
    simp only [List.cons_append, segment_covered_loop]
    rw [h e0 (List.mem_cons_self _ _)]
    exact ih (fun e1 he1 => h e1 (List.mem_cons_of_mem _ he1))

/-- A failure of the predicate that no covering edge precedes makes the edge
loop of `_rt_segment_covered` fail. -/
theorem segment_covered_loop_error (K : Kernel α) (p1 p2 : POINT4D α)
    (e : LWT_ISO_EDGE α) (post : List (LWT_ISO_EDGE α))
    (he : K.GEOSCovers e.geom p1 p2 = none) :
    ∀ (pre : List (LWT_ISO_EDGE α)),
      (∀ e1 ∈ pre, K.GEOSCovers e1.geom p1 p2 ≠ some true) →
      segment_covered_loop K p1 p2 (pre ++ e :: post) = none := by
  intro pre
  induction pre with
  | nil => intro _; simp only [List.nil_append, segment_covered_loop, he]
  | cons e0 rest ih =>
    intro h
    simp only [List.cons_append, segment_covered_loop]
    cases hc : K.GEOSCovers e0.geom p1 p2 with
    | none => rfl
    | some b =>
      cases b with
      | true => exact absurd hc (h e0 (List.mem_cons_self _ _))
      | false => exact ih (fun e1 he1 => h e1 (List.mem_cons_of_mem _ he1))

/-- What `_rt_segment_covered` returns is the result of its edge loop over the
cached edges. -/
theorem rt_segment_covered_loop (K : Kernel α) (state : lwgeom_tpsnap_state α)
    (p1 p2 : POINT4D α) (hb : backend_ok state) :
    _rt_segment_covered K state p1 p2 =
      (segment_covered_loop K p1 p2 (work_edges state)).map (fun c => (c, fetched state)) := by
  unfold _rt_segment_covered
  obtain ⟨n, es, hg, hn, hes⟩ := get_edges_eq state
  rw [hg]
  simp only
  rw [if_neg (hn.2 hb), hes]
  cases segment_covered_loop K p1 p2 (work_edges state) <;> rfl

/-- The count the vertex loop of the removal phase returns grows by one with
every point it takes out of the array. -/
theorem remove_loop_length (K : Kernel α) (state : lwgeom_tpsnap_state α)
    (edges : List (LWT_ISO_EDGE α)) (cnum0 : Int) :
    ∀ (fuel i : Nat) (pa : POINTARRAY α) (removed r : Int) (pa1 : POINTARRAY α),
      remove_loop K state edges cnum0 fuel i pa removed = Outcome.ret (r, pa1) →
      (pa1.length : Int) + (r - removed) = (pa.length : Int) := by
  intro fuel
  induction fuel with
  | zero =>
    intro i pa removed r pa1 h
    by_cases hg : (i : Int) < (pa.length : Int) - 1
    · rw [remove_loop_zero K state edges cnum0 i _ removed hg] at h
      exact absurd h (by simp)
    · rw [remove_loop_done K state edges cnum0 0 i _ removed hg] at h
      simp only [Outcome.ret.injEq, Prod.mk.injEq] at h
      rw [← h.1, ← h.2]
      ring
  | succ f ih =>
    intro i pa removed r pa1 h
    by_cases hg : (i : Int) < (pa.length : Int) - 1
    · rw [remove_loop_succ K state edges cnum0 f i _ removed hg] at h
      cases hd : removal_decision K state edges cnum0 (getPoint2d_p pa i K.unwritten.xy) with
      | none => simp [hd] at h
      | some b =>
        cases b with
        | false =>
          simp only [hd] at h
          exact ih (i + 1) pa removed r pa1 h
        | true =>
          simp only [hd] at h
          have hi : i < pa.length := by omega
          unfold ptarray_remove_point at h
          rw [if_pos hi] at h
          simp only at h
          have h1 := ih i (pa.eraseIdx i) (removed + 1) r pa1 h
          rw [List.length_eraseIdx, if_pos hi] at h1
          have h2 : ((pa.length - 1 : Nat) : Int) = (pa.length : Int) - 1 := by omega
          rw [h2] at h1
          linarith
    · rw [remove_loop_done K state edges cnum0 _ i _ removed hg] at h
      simp only [Outcome.ret.injEq, Prod.mk.injEq] at h
      rw [← h.1, ← h.2]
      ring

/-- The count the removal phase returns is the number of points the array has
lost. -/
theorem ptarray_remove_length (K : Kernel α) (pa : POINTARRAY α)
    (s : lwgeom_tpsnap_state α) (r : Int) (pa1 : POINTARRAY α)
    (s1 : lwgeom_tpsnap_state α)
    (h : _lwgeom_tpsnap_ptarray_remove K pa s = Outcome.ret (r, pa1, s1)) :
    (pa1.length : Int) + r = (pa.length : Int) := by
  unfold _lwgeom_tpsnap_ptarray_remove at h
  obtain ⟨n, es, hg, hn, hes⟩ := get_edges_eq s
  rw [hg] at h
  simp only at h
  by_cases hn1 : n = -1
  · rw [if_pos hn1] at h
    exact absurd h (by simp)
  · rw [if_neg hn1] at h
    cases hl : remove_loop K (fetched s) (es.take n.toNat) 0 pa.length 1 pa 0 with
    | ret v =>
      obtain ⟨r0, pa0⟩ := v
      rw [hl] at h
      simp only [Outcome.ret.injEq, Prod.mk.injEq] at h
      have := remove_loop_length K (fetched s) (es.take n.toNat) 0 pa.length 1 pa 0 r0 pa0 hl
      rw [← h.1, ← h.2.1]
      linarith
    | error => rw [hl] at h; exact absurd h (by simp)
    | nofuel => rw [hl] at h; exact absurd h (by simp)

/-- When the edge loop of the removal phase, started without an edge, returns
an edge, the segment number it returns was assigned in the loop: the content
of the variable before the loop does not show in the result. -/
theorem closest_edge_loop_assigned (K : Kernel α) (state : lwgeom_tpsnap_state α)
    (V : POINT2D α) :
    ∀ (edges : List (LWT_ISO_EDGE α)) (cn cn1 : Int) (cd : α)
      (epa : POINTARRAY α) (cnum : Int) (cdist : α),
      closest_edge_loop K state V edges none cn cd = some (some epa, cnum, cdist) →
      closest_edge_loop K state V edges none cn1 cd = some (some epa, cnum, cdist) := by
  intro edges
  induction edges with
  | nil =>
    intro cn cn1 cd epa cnum cdist h
    simp [closest_edge_loop] at h
  | cons e0 rest ih =>
    intro cn cn1 cd epa cnum cdist h
    simp only [closest_edge_loop] at h ⊢
    cases hc : _rt_find_closest_segment K V e0.geom with
    | none => simp [hc] at h
    | some r =>
      obtain ⟨segno, dist⟩ := r
      simp only [hc] at h ⊢
      by_cases h1 : dist > state.tolerance_removal
      · rw [if_pos h1] at h ⊢
        exact ih cn cn1 cd epa cnum cdist h
      · rw [if_neg h1] at h ⊢
        by_cases h2 : dist < cd
        · rw [if_pos h2] at h ⊢
          exact h
        · rw [if_neg h2] at h ⊢
          exact ih cn cn1 cd epa cnum cdist h

/-- In exact arithmetic and with `tolerance_snap` below `FLT_MAX`: after a pass
has inserted the reference vertex of candidate `c` behind point `n` of the
array, every candidate of the following pass with the same vertex has distance
zero and segment number `n`, the segment that ends at the inserted point
(point `n + 1` of the new array); its projection is an endpoint of that
segment, `_rt_snap_to_valid_vertex` rejects it, and a following pass that
reports snapped has inserted another vertex. -/
theorem inserted_vertex_rejected (K : Kernel α) (hK : exact_kernel K) (pa : POINTARRAY α)
    (s : lwgeom_tpsnap_state α) (htol : s.tolerance_snap < K.FLT_MAX)
    (pa1 : POINTARRAY α) (s1 : lwgeom_tpsnap_state α)
    (h : addition_pass K pa s = some (true, pa1, s1)) :
    ∃ (c : LWT_SNAPV α) (n : Nat), c ∈ candidate_set K s pa (work_edges s) ∧
      c.segno = (n : Int) ∧ n + 1 < pa.length ∧
      pa1 = pa.take (n + 1) ++ (⟨c.pt.x, c.pt.y, 0, 0⟩ : POINT4D α) :: pa.drop (n + 1) ∧
      pa1.get? (n + 1) = some ⟨c.pt.x, c.pt.y, 0, 0⟩ ∧
      (∀ c1 ∈ candidate_set K s1 pa1 (work_edges s1), c1.pt = c.pt →
        c1.dist = 0 ∧ c1.segno = (n : Int) ∧ endpoint_veto K pa1 c1 = true ∧
        ∀ st, _rt_snap_to_valid_vertex K pa1 c1 st = some (false, pa1, st)) ∧
      (∀ pa2 s2, addition_pass K pa1 s1 = some (true, pa2, s2) →
        ∃ c2 ∈ candidate_set K s1 pa1 (work_edges s1),
          c2.pt ≠ c.pt ∧ pa2 = insert_candidate pa1 c2) := by
  obtain ⟨_, _, _, ht⟩ := addition_pass_some K pa s true pa1 s1 h
  obtain ⟨c, hc, hpa1, _, hvalid⟩ := ht rfl
  obtain ⟨e, he, q, hq, hcq, _, hcs, hdist⟩ := (mem_candidate_set K s pa _ c).1 hc
  rw [← hcq] at hcs
  have hrange := find_closest_segment_range K c.pt pa _ hcs
  rcases hrange with hbad | ⟨h5, h6, _⟩
  · simp only [Prod.mk.injEq] at hbad
    rw [hbad.2] at hdist
    exact absurd (lt_of_le_of_lt hdist htol) (lt_irrefl _)
  simp only at h5 h6
  obtain ⟨n, hn⟩ : ∃ n : Nat, c.segno = (n : Int) := ⟨c.segno.toNat, by omega⟩
  have hlen : n + 1 < pa.length := by omega
  have hshape : pa1 =
      pa.take (n + 1) ++ (⟨c.pt.x, c.pt.y, 0, 0⟩ : POINT4D α) :: pa.drop (n + 1) := by
    rw [hpa1]
    unfold insert_candidate
    have : (c.segno + 1).toNat = n + 1 := by omega
    rw [this]
  obtain ⟨hlow, hmid, hhigh⟩ := insert_get pa (⟨c.pt.x, c.pt.y, 0, 0⟩ : POINT4D α) n
    (by omega)
  rw [← hshape] at hlow hmid hhigh
  have hWxy : (⟨c.pt.x, c.pt.y, 0, 0⟩ : POINT4D α).xy = c.pt := rfl
  have hA : pa.get? n = some (pa.get ⟨n, by omega⟩) := List.get?_eq_get _
  have hA1 : pa1.get? n = some (pa.get ⟨n, by omega⟩) := by rw [hlow n (le_refl n), hA]
  have hlen1 : 2 ≤ pa1.length := by
    rw [hpa1, insert_candidate_length]
    omega
  have hn1 : n + 1 < pa1.length := (List.get?_eq_some.1 hmid).1
  -- the distances of the inserted vertex to the segments of the old array
  have hold : ∀ j d, j < n → segment_distance K c.pt pa j = some d → d ≠ 0 := by
    intro j d hj hd
    have hnn := find_closest_segment_nonneg K hK c.pt pa _ hcs
    simp only at hnn
    rcases find_closest_segment_cases K c.pt pa _ hcs (by omega) with
      ⟨hb, _⟩ | ⟨m, hm1, _, _, _, _, hm6⟩
    · simp only [Prod.mk.injEq] at hb
      omega
    · simp only at hm1 hm6
      have hmn : m = n := by omega
      subst hmn
      exact ne_of_gt (lt_of_le_of_lt hnn (hm6 j d hj hd))
  -- the veto on the segment that ends at the inserted point
  have hveto : ∀ d, endpoint_veto K pa1 ⟨c.pt, (n : Int), d⟩ = true := by
    intro d
    rw [endpoint_veto_get, hA1, hmid]
    simp only [Option.getD_some, p4d_same, hK.projection, Bool.or_eq_true, decide_eq_true_eq]
    apply (closest_point_exact_endpoint_iff _ _ _).2
    by_cases hab : (pa.get ⟨n, by omega⟩).xy = c.pt
    · exact Or.inl hab
    · exact Or.inr (Or.inr (le_of_eq (segment_parameter_at_end _ _ hab).symm))
  have hcand : ∀ c1 ∈ candidate_set K s1 pa1 (work_edges s1), c1.pt = c.pt →
      c1.dist = 0 ∧ c1.segno = (n : Int) := by
    intro c1 hc1 hpt
    obtain ⟨e1, _, q1, _, hq1, _, hcs1, _⟩ := (mem_candidate_set K s1 pa1 _ c1).1 hc1
    rw [← hq1, hpt] at hcs1
    obtain ⟨d0, hd0⟩ := find_closest_segment_dist K c.pt pa1 _ hcs1 n hn1
    have hd00 : d0 = 0 := by
      rw [segment_distance_of_get K c.pt pa1 n _ _ hA1 hmid, hWxy] at hd0
      exact (hK.dist_zero _ _ _ _ hd0).2 (closest_at_end _ _)
    rw [hd00] at hd0
    have hfirst : ∀ j d, j < n → segment_distance K c.pt pa1 j = some d → d ≠ 0 := by
      intro j d hj hd
      rw [segment_distance_congr K c.pt pa1 pa j j (hlow j (by omega))
        (hlow (j + 1) (by omega))] at hd
      exact hold j d hj hd
    have := find_closest_segment_first_zero K hK c.pt pa1 _ hcs1 n hd0 hfirst
    simp only [Prod.mk.injEq] at this
    exact ⟨this.2, this.1⟩
  refine ⟨c, n, hc, hn, hlen, hshape, hmid, ?_, ?_⟩
  · intro c1 hc1 hpt
    obtain ⟨k1, k2⟩ := hcand c1 hc1 hpt
    have hv : endpoint_veto K pa1 c1 = true := by
      have hc1eq : c1 = ⟨c.pt, (n : Int), c1.dist⟩ := by
        cases c1
        simp only at hpt k2
        simp only [hpt, k2]
      rw [hc1eq]
      exact hveto _
    exact ⟨k1, k2, hv, fun st => snap_to_valid_vertex_endpoint K pa1 c1 st hv⟩
  · intro pa2 s2 h2
    obtain ⟨_, _, _, ht2⟩ := addition_pass_some K pa1 s1 true pa2 s2 h2
    obtain ⟨c2, hc2, hpa2, _, hvalid2⟩ := ht2 rfl
    refine ⟨c2, hc2, ?_, hpa2⟩
    intro hpt
    obtain ⟨_, k2⟩ := hcand c2 hc2 hpt
    have hc2eq : c2 = ⟨c.pt, (n : Int), c2.dist⟩ := by
      cases c2
      simp only at hpt k2
      simp only [hpt, k2]
    have hv := hveto c2.dist
    rw [← hc2eq] at hv
    unfold valid_candidate at hvalid2
    rw [hv] at hvalid2
    simp at hvalid2

/-! ## A second run within the same extent -/

/-- With `iterate = true`, the processing of a point array applied to its own
successful output, from the state the first run returned, returns that output
unchanged whenever the output has the bounding box of the input, so that the
work extent computed anew is the one of the first run. -/
theorem idempotent_when_extent_unchanged (K : Kernel α) (fuel m : Nat)
    (pa pa1 : POINTARRAY α) (s s1 : lwgeom_tpsnap_state α)
    (hit : s.iterate = true)
    (h : _lwgeom_tpsnap_ptarray K fuel pa s = Outcome.ret (pa1, s1))
    (hbox : ptarray_calculate_gbox_cartesian pa1 s.workext =
      ptarray_calculate_gbox_cartesian pa s.workext) :
    _lwgeom_tpsnap_ptarray K (m + 1) pa1 s1 = Outcome.ret (pa1, s1) := by
  rw [ptarray_process_unfold] at h
  obtain ⟨h1, h2, h3⟩ := tpsnap_ptarray_loop_ret K fuel fuel pa _ pa1 s1 h
  obtain ⟨h4, h5⟩ := h3 (by simpa [tpsnap_begin] using hit)
  have hst : tpsnap_begin pa1 s1 = s1 := by
    apply tpsnap_begin_stable pa pa1 s s1
    · rw [h1, fetched_workext]
    · rw [h1, fetched_expanded_workext]
    · rw [h1, fetched_tolerance_snap]
      rfl
    · exact hbox
  rw [ptarray_process_unfold, hst]
  have hadd : _lwgeom_tpsnap_ptarray_add K (m + 1) pa1 s1 = Outcome.ret (pa1, s1) := by
    simp only [_lwgeom_tpsnap_ptarray_add, h4, Bool.false_and, Bool.false_eq_true, if_false]
  simp only [tpsnap_ptarray_loop, hadd]
  by_cases ht : s1.tolerance_removal ≥ 0
  · have htb : (tpsnap_begin pa s).tolerance_removal ≥ 0 := by
      rw [h1, fetched_tolerance_removal] at ht
      exact ht
    rw [if_pos ht, h5 htb]
    simp
  · rw [if_neg ht]

end EngineTheorems

/-! ## The rational kernel -/

section RationalTheorems

theorem kernelQ_dist_total (buf : POINT4D ℚ) (p a b : POINT2D ℚ) :
    (kernelQ buf).lw_dist2d_pt_seg p a b ≠ none := by
  simp [kernelQ, dist2d_pt_seg_rat]

theorem kernelQ_covers_total (buf : POINT4D ℚ) (e : POINTARRAY ℚ) (p q : POINT4D ℚ) :
    (kernelQ buf).GEOSCovers e p q ≠ none := by
  simp only [kernelQ, GEOSCovers_rat]
  cases e with
  | nil => simp
  | cons a rest =>
    simp only
    split <;> simp

/-! ## The rational kernel is exact -/

theorem isqrt_loop_zero : ∀ b : Nat, isqrt_loop 0 b 0 = 0 := by
  intro b
  induction b with
  | zero => rfl
  | succ b ih =>
    rw [isqrt_loop]
    have : ¬ (0 + 2 ^ b) * (0 + 2 ^ b) ≤ 0 := by
      have h : 0 < 2 ^ b := Nat.two_pow_pos b
      have h2 : 0 < (0 + 2 ^ b) * (0 + 2 ^ b) := by
        rw [Nat.zero_add]
        exact Nat.mul_pos h h
      omega
    rw [if_neg this]
    exact ih

theorem isqrt_loop_pos (n : Nat) (hn : 1 ≤ n) : ∀ b r : Nat, 1 ≤ isqrt_loop n (b + 1) r := by
  intro b
  induction b with
  | zero =>
    intro r
    rw [isqrt_loop]
    simp only [pow_zero]
    by_cases h : (r + 1) * (r + 1) ≤ n
    · rw [if_pos h]
      simp only [isqrt_loop]
      omega
    · rw [if_neg h]
      simp only [isqrt_loop]
      by_contra hc
      have hr : r = 0 := by omega
      subst hr
      simp at h
      omega
  | succ b ih =>
    intro r
    rw [isqrt_loop]
    split
    · exact ih _
    · exact ih _

theorem isqrt_eq_zero_iff (n : Nat) : isqrt n = 0 ↔ n = 0 := by
  unfold isqrt
  constructor
  · intro h
    by_contra hn
    have h2 : 1 ≤ isqrt_loop n 320 0 := isqrt_loop_pos n (by omega) 319 0
    omega
  · intro h
    subst h
    exact isqrt_loop_zero 320

theorem rat_sqrt_nonneg (q : ℚ) : 0 ≤ rat_sqrt q := by
  unfold rat_sqrt
  exact Rat.mkRat_nonneg (Int.natCast_nonneg _) _

theorem rat_sqrt_eq_zero_iff (q : ℚ) (hq : 0 ≤ q) : rat_sqrt q = 0 ↔ q = 0 := by
  unfold rat_sqrt
  have hden : isqrt q.den ≠ 0 := fun h => q.den_nz ((isqrt_eq_zero_iff _).1 h)
  rw [Rat.mkRat_eq_zero hden]
  have hnum : 0 ≤ q.num := Rat.num_nonneg.2 hq
  constructor
  · intro h
    have h1 : isqrt q.num.toNat = 0 := by exact_mod_cast h
    have h2 := (isqrt_eq_zero_iff _).1 h1
    have h3 : q.num = 0 := by omega
    exact Rat.zero_iff_num_zero.2 h3
  · intro h
    subst h
    simp [isqrt_eq_zero_iff]

theorem sqdist_nonneg (p q : POINT2D ℚ) : 0 ≤ sqdist p q := by
  unfold sqdist
  nlinarith [mul_self_nonneg (q.x - p.x), mul_self_nonneg (q.y - p.y)]

theorem sqdist_eq_zero_iff (p q : POINT2D ℚ) : sqdist p q = 0 ↔ q = p := by
  unfold sqdist
  constructor
  · intro h
    have h1 : (q.x - p.x) * (q.x - p.x) = 0 := by
      nlinarith [mul_self_nonneg (q.x - p.x), mul_self_nonneg (q.y - p.y)]
    have h2 : (q.y - p.y) * (q.y - p.y) = 0 := by
      nlinarith [mul_self_nonneg (q.x - p.x), mul_self_nonneg (q.y - p.y)]
    have hx := mul_self_eq_zero.1 h1
    have hy := mul_self_eq_zero.1 h2
    cases p
    cases q
    simp only [POINT2D.mk.injEq]
    simp only at hx hy
    constructor <;> linarith
  · intro h
    subst h
    ring

theorem closest2d_eq (p a b : POINT2D ℚ) : closest2d p a b = closest_point_2d p a b := rfl

theorem closest_point_on_segment_rat_eq (p a b : POINT4D ℚ) :
    closest_point_on_segment_rat p a b = closest_point_exact p a b := rfl

/-- The rational kernel meets the contract of the Geometry Kernel in exact
arithmetic. -/
theorem exact_kernelQ (buf : POINT4D ℚ) : exact_kernel (kernelQ buf) where
  FLT_MAX_pos := by
    show (0 : ℚ) < 340282346638528859811704183484516925440
    norm_num
  projection := closest_point_on_segment_rat_eq
  dist_nonneg := by
    intro p a b d h
    have h1 : some (rat_sqrt (sqdist p (closest2d p a b))) = some d := h
    rw [← Option.some.inj h1]
    exact rat_sqrt_nonneg _
  dist_zero := by
    intro p a b d h
    have h1 : some (rat_sqrt (sqdist p (closest2d p a b))) = some d := h
    rw [← Option.some.inj h1, rat_sqrt_eq_zero_iff _ (sqdist_nonneg _ _), sqdist_eq_zero_iff,
      closest2d_eq]

/-- The pass after an insertion on scenario S4: the first pass inserts
`B = (7,0.5)` behind point 0; in the following pass every candidate with that
vertex has distance zero and segment number 0, and is rejected. -/
theorem inserted_vertex_rejected_S4 :
    addition_pass K0 S_line (tpsnap_begin S_line (S4_state true)) =
      some (true, [pt 0 0, pt 7 0.5, pt 10 0],
        fetched (tpsnap_begin S_line (S4_state true))) ∧
    ∀ c1 ∈ candidate_set K0 (fetched (tpsnap_begin S_line (S4_state true)))
        [pt 0 0, pt 7 0.5, pt 10 0]
        (work_edges (fetched (tpsnap_begin S_line (S4_state true)))),
      c1.pt = ⟨7, 0.5⟩ →
      c1.dist = 0 ∧ c1.segno = 0 ∧
        endpoint_veto K0 [pt 0 0, pt 7 0.5, pt 10 0] c1 = true := by
  have hpass : addition_pass K0 S_line (tpsnap_begin S_line (S4_state true)) =
      some (true, [pt 0 0, pt 7 0.5, pt 10 0],
        fetched (tpsnap_begin S_line (S4_state true))) :=
    addition_pass_of_view K0 _ _ _ _ (by decide!)
  refine ⟨hpass, ?_⟩
  obtain ⟨c, n, _, _, hlen, hshape, _, hcand, _⟩ :=
    inserted_vertex_rejected K0 (exact_kernelQ _) S_line
      (tpsnap_begin S_line (S4_state true)) (by decide!) _ _ hpass
  have hn0 : n = 0 := by
    have : (S_line : POINTARRAY ℚ).length = 2 := rfl
    omega
  subst hn0
  have hpt : c.pt = ⟨7, 0.5⟩ := by
    have h1 := congrArg (fun l : POINTARRAY ℚ => (l.get? 1).map POINT4D.xy) hshape
    simp only [S_line] at h1
    have h2 : some (⟨7, 0.5⟩ : POINT2D ℚ) = some c.pt := h1
    exact (Option.some.inj h2).symm
  intro c1 hc1 hc1pt
  obtain ⟨k1, k2, k3, _⟩ := hcand c1 hc1 (by rw [hc1pt, hpt])
  exact ⟨k1, by simpa using k2, k3⟩

/-- An instance: the processing of `[(0,0),(10,10)]` against the
edge `[(5,4),(20,4)]` inserts `(5,4)`, which is inside the bounding box of
the input; processing the result again leaves it as it is. -/
theorem idempotent_when_extent_unchanged_box :
    box_state.iterate = true ∧
    (_lwgeom_tpsnap_ptarray K0 2 box_line box_state).points =
      some [pt 0 0, pt 5 4, pt 10 10] ∧
    ptarray_calculate_gbox_cartesian [pt 0 0, pt 5 4, pt 10 10] box_state.workext =
      ptarray_calculate_gbox_cartesian box_line box_state.workext ∧
    ∃ s1, _lwgeom_tpsnap_ptarray K0 2 box_line box_state =
        Outcome.ret ([pt 0 0, pt 5 4, pt 10 10], s1) ∧
      _lwgeom_tpsnap_ptarray K0 1 [pt 0 0, pt 5 4, pt 10 10] s1 =
        Outcome.ret ([pt 0 0, pt 5 4, pt 10 10], s1) := by
  have hp : (_lwgeom_tpsnap_ptarray K0 2 box_line box_state).points =
      some [pt 0 0, pt 5 4, pt 10 10] := by decide!
  have hbox : ptarray_calculate_gbox_cartesian [pt 0 0, pt 5 4, pt 10 10]
      box_state.workext = ptarray_calculate_gbox_cartesian box_line box_state.workext := by
    decide!
  obtain ⟨s1, h1⟩ := Outcome.points_eq_some _ _ hp
  exact ⟨rfl, hp, hbox, s1, h1,
    idempotent_when_extent_unchanged K0 2 0 box_line _ box_state s1 rfl h1 hbox⟩

end RationalTheorems

/-! ## The Geobuf encoder -/

section GeobufTheorems

open Geobuf

variable {α : Type} [LinearOrderedField α] [FloorRing α]

/-- The dimension count `encode_feature` fixes. -/
theorem encode_feature_dimensions {G β : Type} (F : flag_accessors) (flags : G → Nat)
    (encode_geometry : Context → G → β) (ctx : Context) (lwgeom : G)
    (h : ctx.has_dimensions = false) :
    (encode_feature F flags encode_geometry ctx lwgeom).1.dimensions =
      if F.FLAGS_GET_Z (flags lwgeom) ≠ 0 ∨ F.FLAGS_GET_M (flags lwgeom) ≠ 0 then 3
      else if F.FLAGS_GET_ZM (flags lwgeom) ≠ 0 then 4
      else 2 := by
  unfold encode_feature
  simp only [h, Bool.false_eq_true, not_false_eq_true, if_true]

/-- The value `set_int_value` stores for an `intval` that fits in 32 bits. -/
theorem set_int_value_small (intval : Int) (h1 : -(2 ^ 31) < intval)
    (h2 : intval < 2 ^ 63) : int_of_value (set_int_value intval) = some intval := by
  unfold set_int_value
  by_cases hpos : intval ≥ 0
  · rw [if_pos hpos]
    simp only [int_of_value, to_uint64, Option.some.injEq]
    rw [Int.toNat_of_nonneg (Int.emod_nonneg _ (by norm_num))]
    exact Int.emod_eq_of_lt hpos (by omega)
  · rw [if_neg hpos]
    simp only [int_of_value, to_uint64, abs_int, to_int, Option.some.injEq]
    have e1 : (intval + 2 ^ 31) % 2 ^ 32 = intval + 2 ^ 31 :=
      Int.emod_eq_of_lt (by omega) (by omega)
    rw [e1]
    have e2 : intval + 2 ^ 31 - 2 ^ 31 < 0 := by omega
    rw [if_pos e2]
    have e3 : (-(intval + 2 ^ 31 - 2 ^ 31) + 2 ^ 31) % 2 ^ 32 =
        -(intval + 2 ^ 31 - 2 ^ 31) + 2 ^ 31 := Int.emod_eq_of_lt (by omega) (by omega)
    rw [e3]
    have e4 : (-(intval + 2 ^ 31 - 2 ^ 31) + 2 ^ 31 - 2 ^ 31) % 2 ^ 64 = -intval := by
      rw [Int.emod_eq_of_lt (by omega) (by omega)]
      ring
    rw [Int.toNat_of_nonneg (Int.emod_nonneg _ (by norm_num)), e4]
    ring

end GeobufTheorems

/-! # The claims -/

section Claims

variable {α : Type} [LinearOrderedField α]

/-- C1 (the code departs from the claim): with `tolerance_snap = 2 * FLT_MAX`
the candidate finder emits for the reference vertex `(0, 2 * FLT_MAX)`, which
is no closer than `FLT_MAX` to the line `[(0,0),(1,0)]`, a record with
`segno = -1`; the pass then reads point `-1` of the array and inserts the
vertex at index 0.  The processing returns successfully and the first point
of the result is not the first point of the input. -/
theorem C1_first_point_not_kept :
    candidate_set K_far (tpsnap_begin [pt 0 0, pt 1 0] far_state) [pt 0 0, pt 1 0]
        (work_edges (tpsnap_begin [pt 0 0, pt 1 0] far_state)) =
      [⟨⟨0, 2 * FLT_MAX_Q⟩, -1, FLT_MAX_Q⟩] ∧
    (_lwgeom_tpsnap_ptarray K_far 1 [pt 0 0, pt 1 0] far_state).points =
      some [pt 0 (2 * FLT_MAX_Q), pt 0 0, pt 1 0] ∧
    ([pt 0 (2 * FLT_MAX_Q), pt 0 0, pt 1 0] : POINTARRAY ℚ).head? ≠
      ([pt 0 0, pt 1 0] : POINTARRAY ℚ).head? := by
  refine ⟨by decide!, by decide!, by decide!⟩

/-- C2: a single pass of the Addition Phase sorts the candidate set in
ascending order of distance, then x, then y, and inserts exactly one vertex:
the first candidate of the sorted list whose projection is not an endpoint of
its segment and whose segment is not covered by a reference edge.  No later
candidate is inserted, and when no candidate passes both checks the array is
unchanged and the pass reports no-snap.  The covers predicate is assumed not
to fail and every `segno` to be a segment index of the array. -/
theorem C2_first_valid_candidate_wins (K : Kernel α) (pa : POINTARRAY α)
    (vset : List (LWT_SNAPV α)) (state : lwgeom_tpsnap_state α)
    (hb : backend_ok state)
    (hcov : ∀ e ∈ work_edges state, ∀ p q, K.GEOSCovers e.geom p q ≠ none)
    (hseg : ∀ v ∈ vset, 0 ≤ v.segno ∧ v.segno + 1 < pa.length) :
    (qsort compare_snapv vset).Perm vset ∧
    (qsort compare_snapv vset).Sorted (fun a b =>
      a.dist < b.dist ∨ (a.dist = b.dist ∧
        (a.pt.x < b.pt.x ∨ (a.pt.x = b.pt.x ∧ a.pt.y ≤ b.pt.y)))) ∧
    snap_view (_rt_snap_to_first_valid_vertex K pa (qsort compare_snapv vset) state) =
      some (first_valid_insertion K pa (work_edges state) (qsort compare_snapv vset)) ∧
    (∀ c ∈ vset, (insert_candidate pa c).length = pa.length + 1) := by
  refine ⟨qsort_perm vset, ?_, ?_, ?_⟩
  · exact (qsort_sorted vset).imp (fun {a b} h => (compare_snapv_le_iff a b).1 h)
  · obtain ⟨st, _, h⟩ := snap_to_first_valid_vertex_eq K pa (qsort compare_snapv vset)
      state hb hcov (fun v hv => by
        have := hseg v ((qsort_perm vset).mem_iff.1 hv)
        omega)
    rw [h]
    unfold first_valid_insertion
    cases (qsort compare_snapv vset).find? (valid_candidate K pa (work_edges state)) <;>
      simp [snap_view]
  · intro c hc
    have := hseg c hc
    unfold insert_candidate
    simp only [List.length_append, List.length_take, List.length_cons, List.length_drop]
    omega

/-- Witness of C2, scenario S4: with `P = [(0,0),(10,0)]` and the candidates
`A = (3,0.9)`, `B = (7,0.5)` the pass inserts `B` and only `B`; the whole run
with `iterate = false` gives `[(0,0),(7,0.5),(10,0)]`. -/
theorem C2_first_valid_candidate_wins_witness :
    backend_ok (tpsnap_begin S_line (S4_state false)) ∧
    (∀ v ∈ S4_candidates, 0 ≤ v.segno ∧ v.segno + 1 < S_line.length) ∧
    snap_view (_rt_snap_to_first_valid_vertex K0 S_line (qsort compare_snapv S4_candidates)
        (tpsnap_begin S_line (S4_state false))) =
      some (first_valid_insertion K0 S_line
        (work_edges (tpsnap_begin S_line (S4_state false)))
        (qsort compare_snapv S4_candidates)) ∧
    candidate_set K0 (tpsnap_begin S_line (S4_state false)) S_line
        (work_edges (tpsnap_begin S_line (S4_state false))) = S4_candidates ∧
    snap_view (_rt_snap_to_first_valid_vertex K0 S_line (qsort compare_snapv S4_candidates)
        (tpsnap_begin S_line (S4_state false))) =
      some (true, [pt 0 0, pt 7 0.5, pt 10 0]) ∧
    (_lwgeom_tpsnap_ptarray K0 1 S_line (S4_state false)).points =
      some [pt 0 0, pt 7 0.5, pt 10 0] := by
  have hb : backend_ok (tpsnap_begin S_line (S4_state false)) := by
    unfold backend_ok
    decide!
  have hseg : ∀ v ∈ S4_candidates, 0 ≤ v.segno ∧ v.segno + 1 < S_line.length := by
    decide!
  exact ⟨hb, hseg,
    (C2_first_valid_candidate_wins K0 S_line S4_candidates _ hb
      (fun e _ p q => kernelQ_covers_total _ _ _ _) hseg).2.2.1,
    by decide!, by decide!, by decide!⟩

/-- C3: the candidate set built by `_rt_find_vertices_within_dist` holds, one
record per occurrence and in the order of the edges, exactly the
reference-edge vertices that lie inside the expanded work extent (its boundary
included) and whose closest-segment distance is at most `tolerance_snap`
(equality included); each record carries the vertex and its closest-segment
result, so every record has `dist ≤ tolerance_snap`.  The backend and the
distance kernel are assumed not to fail. -/
theorem C3_candidate_set_exact (K : Kernel α) (pa : POINTARRAY α)
    (state : lwgeom_tpsnap_state α) (hb : backend_ok state)
    (hk : ∀ p a b, K.lw_dist2d_pt_seg p a b ≠ none) :
    _rt_find_vertices_within_dist K [] pa state =
      some ((work_edges state).flatMap
              (fun e => e.geom.filterMap (candidate_of K state pa)),
            fetched state) ∧
    (∀ q : POINT4D α, ∀ c, candidate_of K state pa q = some c ↔
      (state.expanded_workext.xmin ≤ q.x ∧ q.x ≤ state.expanded_workext.xmax ∧
        state.expanded_workext.ymin ≤ q.y ∧ q.y ≤ state.expanded_workext.ymax) ∧
      c.pt = q.xy ∧ _rt_find_closest_segment K q.xy pa = some (c.segno, c.dist) ∧
      c.dist ≤ state.tolerance_snap) ∧
    (∀ vset st, _rt_find_vertices_within_dist K [] pa state = some (vset, st) →
      ∀ c ∈ vset, c.dist ≤ state.tolerance_snap) := by
  have h1 := find_vertices_within_dist_total K [] pa state hb hk
  simp only [List.nil_append] at h1
  refine ⟨h1, ?_, ?_⟩
  · intro q c
    unfold candidate_of
    simp only [in_workext, POINT4D.xy, decide_eq_true_eq]
    constructor
    · intro h
      split at h
      · next hin =>
        refine ⟨hin, ?_⟩
        cases hcs : _rt_find_closest_segment K ⟨q.x, q.y⟩ pa with
        | none => simp [hcs] at h
        | some sd =>
          obtain ⟨segno, dist⟩ := sd
          simp only [hcs] at h
          split at h
          · next hd =>
            simp only [Option.some.injEq] at h
            subst h
            exact ⟨rfl, rfl, hd⟩
          · simp at h
      · simp at h
    · rintro ⟨hin, h2, h3, h4⟩
      rw [if_pos hin, h3]
      simp only [h4, if_true, Option.some.injEq]
      cases c
      simp_all
  · intro vset st h c hc
    rw [h1] at h
    simp only [Option.some.injEq, Prod.mk.injEq] at h
    rw [← h.1] at hc
    obtain ⟨e, he, q, hq, m1, m2, m3, m4⟩ :=
      (mem_candidate_set K state pa (work_edges state) c).1 hc
    exact m4

/-- Witness of C3, scenario S4: both reference vertices are inside the
expanded work extent and within `tolerance_snap` of the line. -/
theorem C3_candidate_set_exact_witness :
    backend_ok (tpsnap_begin S_line (S4_state false)) ∧
    (∀ p a b, K0.lw_dist2d_pt_seg p a b ≠ none) ∧
    snap_view ((_rt_find_vertices_within_dist K0 [] S_line
        (tpsnap_begin S_line (S4_state false))).map
          (fun r => (true, r.1.map (fun c => (⟨c.pt.x, c.pt.y, 0, 0⟩ : POINT4D ℚ)), r.2))) =
      some (true, [pt 3 0.9, pt 7 0.5]) ∧
    _rt_find_vertices_within_dist K0 [] S_line (tpsnap_begin S_line (S4_state false)) =
      some ((work_edges (tpsnap_begin S_line (S4_state false))).flatMap
              (fun e => e.geom.filterMap
                (candidate_of K0 (tpsnap_begin S_line (S4_state false)) S_line)),
            fetched (tpsnap_begin S_line (S4_state false))) := by
  have hb : backend_ok (tpsnap_begin S_line (S4_state false)) := by
    unfold backend_ok
    decide!
  exact ⟨hb, kernelQ_dist_total _, by decide!,
    (C3_candidate_set_exact K0 S_line _ hb (kernelQ_dist_total _)).1⟩

/-- C5 (the code departs from the claim): the processing of `[(0,0),(16,0)]`
against the edge `[(8,6),(-2,11)]` with `tolerance_snap = 10` and
`iterate = true` returns `[(0,0),(8,6),(16,0)]`: the work extent is not
enlarged when `(8,6)` is inserted, so the vertex `(-2,11)` stays outside the
expanded work extent of the input.  The processing of that result, from a
fresh state or from the state the first run returned, inserts `(-2,11)`: the
first result is not a fixed point. -/
theorem C5_not_idempotent :
    (_lwgeom_tpsnap_ptarray K0 2 grow_line grow_state).points =
      some [pt 0 0, pt 8 6, pt 16 0] ∧
    (_lwgeom_tpsnap_ptarray K0 2 [pt 0 0, pt 8 6, pt 16 0] grow_state).points =
      some [pt 0 0, pt (-2) 11, pt 8 6, pt 16 0] ∧
    (_lwgeom_tpsnap_ptarray K0 2 [pt 0 0, pt 8 6, pt 16 0]
        (fetched (tpsnap_begin grow_line grow_state))).points =
      some [pt 0 0, pt (-2) 11, pt 8 6, pt 16 0] := by
  refine ⟨by decide!, by decide!, by decide!⟩

/-- Counterexample to C6: with `tolerance_snap = 0` and removal disabled the
reference vertex `(5,0)` of the edge `[(5,0),(5,5)]`, which lies on the line
`[(0,0),(10,0)]` strictly inside its only segment, is inserted. -/
theorem C6_zero_tolerance_inserts :
    on_line_state.tolerance_snap = 0 ∧ on_line_state.tolerance_removal < 0 ∧
    (_lwgeom_tpsnap_ptarray_add K0 2 S_line (tpsnap_begin S_line on_line_state)).points =
      some [pt 0 0, pt 5 0, pt 10 0] ∧
    (_lwgeom_tpsnap_ptarray K0 2 S_line on_line_state).points =
      some [pt 0 0, pt 5 0, pt 10 0] := by
  refine ⟨by decide!, by decide!, by decide!, by decide!⟩

/-- C6 as amended: if `tolerance_snap = 0` and no vertex of a cached edge
inside the expanded work extent has a closest-segment distance of 0 or less
(no reference vertex lies on the input), the Addition Phase inserts no
vertex; hence with removal disabled the output equals the input.  The backend
and the distance kernel are assumed not to fail. -/
theorem C6_zero_tolerance_no_vertex_on_input (K : Kernel α) (fuel : Nat)
    (pa : POINTARRAY α) (s : lwgeom_tpsnap_state α)
    (h0 : s.tolerance_snap = 0) (hrem : s.tolerance_removal < 0)
    (hb : backend_ok (tpsnap_begin pa s))
    (hk : ∀ p a b, K.lw_dist2d_pt_seg p a b ≠ none)
    (hfar : ∀ e ∈ work_edges (tpsnap_begin pa s), ∀ q ∈ e.geom,
      in_workext (tpsnap_begin pa s) q.xy = true →
      ∀ sd, _rt_find_closest_segment K q.xy pa = some sd → 0 < sd.2) :
    _lwgeom_tpsnap_ptarray_add K (fuel + 1) pa (tpsnap_begin pa s) =
      Outcome.ret (pa, fetched (tpsnap_begin pa s)) ∧
    _lwgeom_tpsnap_ptarray K (fuel + 1) pa s =
      Outcome.ret (pa, fetched (tpsnap_begin pa s)) := by
  have hempty : candidate_set K (tpsnap_begin pa s) pa (work_edges (tpsnap_begin pa s)) = [] := by
    apply List.eq_nil_iff_forall_not_mem.2
    intro c hc
    obtain ⟨e, he, q, hq, m1, m2, m3, m4⟩ := (mem_candidate_set K _ pa _ c).1 hc
    have := hfar e he q hq m2 _ m3
    have ht : (tpsnap_begin pa s).tolerance_snap = 0 := h0
    rw [ht] at m4
    exact absurd (lt_of_lt_of_le this m4) (lt_irrefl _)
  have hpass : addition_pass K pa (tpsnap_begin pa s) =
      some (false, pa, fetched (tpsnap_begin pa s)) := by
    unfold addition_pass
    rw [find_vertices_within_dist_total K [] pa _ hb hk, hempty]
    simp
  have hadd : _lwgeom_tpsnap_ptarray_add K (fuel + 1) pa (tpsnap_begin pa s) =
      Outcome.ret (pa, fetched (tpsnap_begin pa s)) := by
    simp only [_lwgeom_tpsnap_ptarray_add, hpass, Bool.false_and, Bool.false_eq_true, if_false]
  refine ⟨hadd, ?_⟩
  rw [ptarray_process_unfold]
  simp only [tpsnap_ptarray_loop, hadd]
  have : ¬ (fetched (tpsnap_begin pa s)).tolerance_removal ≥ 0 := by
    rw [fetched_tolerance_removal]
    exact not_le.2 hrem
  rw [if_neg this]

/-- Witness of C6 as amended: for the line `[(0,0),(10,10)]` and
`tolerance_snap = 0` the reference edge `[(2,5),(8,3)]` is cached and both its
vertices are inside the expanded work extent `[0,10] x [0,10]`, at a distance
above 0 from the line; the candidate set is empty and the line comes back as
it was. -/
theorem C6_zero_tolerance_no_vertex_on_input_witness :
    off_line_state.tolerance_snap = 0 ∧ off_line_state.tolerance_removal < 0 ∧
    backend_ok (tpsnap_begin box_line off_line_state) ∧
    work_edges (tpsnap_begin box_line off_line_state) = [mkEdge 1 [pt 2 5, pt 8 3]] ∧
    candidate_pool (tpsnap_begin box_line off_line_state) = [⟨2, 5⟩, ⟨8, 3⟩] ∧
    (∀ sd, _rt_find_closest_segment K0 ⟨2, 5⟩ box_line = some sd → 0 < sd.2) ∧
    (∀ sd, _rt_find_closest_segment K0 ⟨8, 3⟩ box_line = some sd → 0 < sd.2) ∧
    (_lwgeom_tpsnap_ptarray K0 1 box_line off_line_state).points = some box_line := by
  have h0 : off_line_state.tolerance_snap = 0 := by decide!
  have hrem : off_line_state.tolerance_removal < 0 := by decide!
  have hb : backend_ok (tpsnap_begin box_line off_line_state) := by
    unfold backend_ok
    decide!
  have hw : work_edges (tpsnap_begin box_line off_line_state) =
      [mkEdge 1 [pt 2 5, pt 8 3]] := by decide!
  have hd1 : ∀ sd, _rt_find_closest_segment K0 ⟨2, 5⟩ box_line = some sd → 0 < sd.2 := by
    have h : (_rt_find_closest_segment K0 ⟨2, 5⟩ box_line).all
        (fun sd => decide (0 < sd.2)) = true := by decide!
    intro sd hsd
    rw [hsd] at h
    simpa using h
  have hd2 : ∀ sd, _rt_find_closest_segment K0 ⟨8, 3⟩ box_line = some sd → 0 < sd.2 := by
    have h : (_rt_find_closest_segment K0 ⟨8, 3⟩ box_line).all
        (fun sd => decide (0 < sd.2)) = true := by decide!
    intro sd hsd
    rw [hsd] at h
    simpa using h
  have hfar : ∀ e ∈ work_edges (tpsnap_begin box_line off_line_state), ∀ q ∈ e.geom,
      in_workext (tpsnap_begin box_line off_line_state) q.xy = true →
      ∀ sd, _rt_find_closest_segment K0 q.xy box_line = some sd → 0 < sd.2 := by
    intro e he q hq _
    rw [hw, List.mem_singleton] at he
    subst he
    have hq2 : q = pt 2 5 ∨ q = pt 8 3 := by
      simpa [mkEdge] using hq
    rcases hq2 with rfl | rfl
    · exact hd1
    · exact hd2
  refine ⟨h0, hrem, hb, hw, by decide!, hd1, hd2, ?_⟩
  rw [(C6_zero_tolerance_no_vertex_on_input K0 0 box_line off_line_state h0 hrem hb
    (kernelQ_dist_total _) hfar).2]
  rfl

/-- Counterexample to C7: in scenario S1 as stated the only segment of the
input is covered by the reference edge `[(0,0),(10,0)]`, so `(5,0.2)` is not
inserted: the result is not `[(0,0),(5,0.2),(10,0)]`. -/
theorem C7_S1_not_as_claimed :
    (_lwgeom_tpsnap_ptarray K0 3 S_line S1_state).points ≠
      some [pt 0 0, pt 5 0.2, pt 10 0] := by
  decide!

/-- C7 as amended: in scenario S1 as stated snapping the line
`[(0,0),(10,0)]` yields the line unchanged, its segment being covered by the
first reference edge; with the second reference edge alone it yields
`[(0,0),(5,0.2),(10,0)]`. -/
theorem C7_S1_covered (k : Nat) :
    (_lwgeom_tpsnap_ptarray K0 (1 + k) S_line S1_state).points = some [pt 0 0, pt 10 0] ∧
    (_lwgeom_tpsnap_ptarray K0 (2 + k) S_line S1_second_edge_state).points =
      some [pt 0 0, pt 5 0.2, pt 10 0] := by
  exact ⟨ptarray_process_points_mono K0 1 _ _ _ (by decide!) k,
    ptarray_process_points_mono K0 2 _ _ _ (by decide!) k⟩

/-- Counterexample to C8: the two edges `[(-5,0),(5,0)]` and `[(0,2),(0,7)]`
are both at distance 1 from the interior vertex `(0,1)` of the input.  With
the first edge first in the cached list the vertex is removed (its projection
is inside the segment); with the second edge first it is kept (its projection
is the first vertex of that edge): the tie is broken by first encounter. -/
theorem C8_removal_depends_on_edge_order :
    work_edges (tpsnap_begin tie_line (tie_state [tie_edge_a, tie_edge_b])) =
      [tie_edge_a, tie_edge_b] ∧
    work_edges (tpsnap_begin tie_line (tie_state [tie_edge_b, tie_edge_a])) =
      [tie_edge_b, tie_edge_a] ∧
    [tie_edge_a, tie_edge_b].Perm [tie_edge_b, tie_edge_a] ∧
    (_lwgeom_tpsnap_ptarray K0 2 tie_line (tie_state [tie_edge_a, tie_edge_b])).points =
      some [pt (-10) 0, pt 10 7] ∧
    (_lwgeom_tpsnap_ptarray K0 2 tie_line (tie_state [tie_edge_b, tie_edge_a])).points =
      some [pt (-10) 0, pt 0 1, pt 10 7] := by
  refine ⟨by decide!, by decide!, List.Perm.swap _ _ _, by decide!, by decide!⟩

/-- C8 as amended: the Addition Phase gives the same point array for every
permutation of the cached edge list (same work extent, tolerance and iterate
flag), when neither the backend nor the kernel fails. -/
theorem C8_addition_phase_edge_order_independent (K : Kernel α) (fuel : Nat)
    (pa : POINTARRAY α) (s1 s2 : lwgeom_tpsnap_state α)
    (hperm : (work_edges s1).Perm (work_edges s2))
    (hext : s1.expanded_workext = s2.expanded_workext)
    (htol : s1.tolerance_snap = s2.tolerance_snap)
    (hit : s1.iterate = s2.iterate)
    (hb1 : backend_ok s1) (hb2 : backend_ok s2)
    (hk : ∀ p a b, K.lw_dist2d_pt_seg p a b ≠ none)
    (hcov : ∀ e ∈ work_edges s1, ∀ p q, K.GEOSCovers e.geom p q ≠ none) :
    (_lwgeom_tpsnap_ptarray_add K fuel pa s1).points =
      (_lwgeom_tpsnap_ptarray_add K fuel pa s2).points :=
  ptarray_add_perm K hk fuel pa s1 s2 hperm hext htol hit hb1 hb2 hcov

/-- Witness of C8 as amended: the Addition Phase of scenario S4 run from the
states of scenario S1 with the two reference edges in either order. -/
theorem C8_addition_phase_edge_order_independent_witness :
    (work_edges (tpsnap_begin S_line S1_state)).Perm
      (work_edges (tpsnap_begin S_line S1_swapped_state)) ∧
    backend_ok (tpsnap_begin S_line S1_state) ∧
    backend_ok (tpsnap_begin S_line S1_swapped_state) ∧
    (_lwgeom_tpsnap_ptarray_add K0 3 S_line (tpsnap_begin S_line S1_state)).points =
      (_lwgeom_tpsnap_ptarray_add K0 3 S_line (tpsnap_begin S_line S1_swapped_state)).points := by
  have hperm : (work_edges (tpsnap_begin S_line S1_state)).Perm
      (work_edges (tpsnap_begin S_line S1_swapped_state)) := by
    have h1 : work_edges (tpsnap_begin S_line S1_state) =
        [mkEdge 1 [pt 0 0, pt 10 0], mkEdge 2 [pt 5 0.2, pt 5 5]] := by decide!
    have h2 : work_edges (tpsnap_begin S_line S1_swapped_state) =
        [mkEdge 2 [pt 5 0.2, pt 5 5], mkEdge 1 [pt 0 0, pt 10 0]] := by decide!
    rw [h1, h2]
    exact List.Perm.swap _ _ _
  have hb1 : backend_ok (tpsnap_begin S_line S1_state) := by
    unfold backend_ok
    decide!
  have hb2 : backend_ok (tpsnap_begin S_line S1_swapped_state) := by
    unfold backend_ok
    decide!
  exact ⟨hperm, hb1, hb2,
    C8_addition_phase_edge_order_independent K0 3 S_line _ _ hperm rfl rfl rfl hb1 hb2
      (kernelQ_dist_total _) (fun e _ p q => kernelQ_covers_total _ _ _ _)⟩

/-- C9: for two states whose cached edge lists are permutations of each
other (same expanded work extent and tolerance), any two candidates that
compare equal under `compare_snapv` are the same record; hence any two
arrangements of the two candidate sets that are sorted by `compare_snapv`
are the same list, whatever the sorting routine, and the single addition
pass inserts the same vertex at the same place, or nothing, in both cases.
The backend and the kernel are assumed not to fail. -/
theorem C9_sorted_candidates_edge_order_independent (K : Kernel α) (pa : POINTARRAY α)
    (s1 s2 : lwgeom_tpsnap_state α)
    (hperm : (work_edges s1).Perm (work_edges s2))
    (hext : s1.expanded_workext = s2.expanded_workext)
    (htol : s1.tolerance_snap = s2.tolerance_snap)
    (hb1 : backend_ok s1) (hb2 : backend_ok s2)
    (hk : ∀ p a b, K.lw_dist2d_pt_seg p a b ≠ none)
    (hcov : ∀ e ∈ work_edges s1, ∀ p q, K.GEOSCovers e.geom p q ≠ none) :
    (∀ a ∈ candidate_set K s1 pa (work_edges s1),
      ∀ b ∈ candidate_set K s2 pa (work_edges s2), compare_snapv a b = 0 → a = b) ∧
    (∀ l1 l2 : List (LWT_SNAPV α),
      l1.Perm (candidate_set K s1 pa (work_edges s1)) →
      l2.Perm (candidate_set K s2 pa (work_edges s2)) →
      l1.Sorted (fun a b => compare_snapv a b ≤ 0) →
      l2.Sorted (fun a b => compare_snapv a b ≤ 0) → l1 = l2) ∧
    snap_view (addition_pass K pa s1) = snap_view (addition_pass K pa s2) := by
  refine ⟨?_, ?_, addition_pass_perm K pa s1 s2 hperm hext htol hb1 hb2 hk hcov⟩
  · intro a ha b hb h0
    obtain ⟨hd, hp⟩ := compare_snapv_eq_zero a b h0
    exact candidate_eq_of_key K s1 s2 pa _ _ a b ha hb hd hp
  · intro l1 l2 h1 h2 hs1 hs2
    exact sorted_candidates_perm K pa s1 s2 hperm hext htol l1 l2 h1 h2 hs1 hs2

/-- Witness of C9: scenario S1 with its two reference edges in either order;
the sorted candidate list is `(0,0)`, `(10,0)`, `(5,0.2)` in both cases. -/
theorem C9_sorted_candidates_edge_order_independent_witness :
    (work_edges (tpsnap_begin S_line S1_state)).Perm
      (work_edges (tpsnap_begin S_line S1_swapped_state)) ∧
    qsort compare_snapv (candidate_set K0 (tpsnap_begin S_line S1_state) S_line
        (work_edges (tpsnap_begin S_line S1_state))) =
      [⟨⟨0, 0⟩, 0, 0⟩, ⟨⟨10, 0⟩, 0, 0⟩, ⟨⟨5, 0.2⟩, 0, 0.2⟩] ∧
    qsort compare_snapv (candidate_set K0 (tpsnap_begin S_line S1_swapped_state) S_line
        (work_edges (tpsnap_begin S_line S1_swapped_state))) =
      [⟨⟨0, 0⟩, 0, 0⟩, ⟨⟨10, 0⟩, 0, 0⟩, ⟨⟨5, 0.2⟩, 0, 0.2⟩] ∧
    snap_view (addition_pass K0 S_line (tpsnap_begin S_line S1_state)) =
      snap_view (addition_pass K0 S_line (tpsnap_begin S_line S1_swapped_state)) := by
  have hperm : (work_edges (tpsnap_begin S_line S1_state)).Perm
      (work_edges (tpsnap_begin S_line S1_swapped_state)) := by
    have h1 : work_edges (tpsnap_begin S_line S1_state) =
        [mkEdge 1 [pt 0 0, pt 10 0], mkEdge 2 [pt 5 0.2, pt 5 5]] := by decide!
    have h2 : work_edges (tpsnap_begin S_line S1_swapped_state) =
        [mkEdge 2 [pt 5 0.2, pt 5 5], mkEdge 1 [pt 0 0, pt 10 0]] := by decide!
    rw [h1, h2]
    exact List.Perm.swap _ _ _
  have hb1 : backend_ok (tpsnap_begin S_line S1_state) := by
    unfold backend_ok
    decide!
  have hb2 : backend_ok (tpsnap_begin S_line S1_swapped_state) := by
    unfold backend_ok
    decide!
  exact ⟨hperm, by decide!, by decide!,
    (C9_sorted_candidates_edge_order_independent K0 S_line _ _ hperm rfl rfl hb1 hb2
      (kernelQ_dist_total _) (fun e _ p q => kernelQ_covers_total _ _ _ _)).2.2⟩

/-- C10: for a Geometry Kernel that keeps its contract in exact arithmetic, a
point array with at least two points and any cached edge list, the Addition
Phase terminates.  Every pass that reports snapped lowers a measure of the
array that is below `(N + 1) * (N + 1)`, `N` being the number of vertices of
the cached edges inside the expanded work extent; so with more fuel than the
measure the phase does not run out of fuel, and when it returns with
`iterate = true` the last pass has reported no-snap. -/
theorem C10_addition_phase_terminates (K : Kernel α) (hK : exact_kernel K)
    (pa : POINTARRAY α) (state : lwgeom_tpsnap_state α) (hlen : 2 ≤ pa.length) :
    addition_measure K state pa <
      ((candidate_pool state).length + 1) * ((candidate_pool state).length + 1) ∧
    (∀ pa1 s1, addition_pass K pa state = some (true, pa1, s1) →
      addition_measure K state pa1 < addition_measure K state pa) ∧
    ∀ fuel, addition_measure K state pa < fuel →
      _lwgeom_tpsnap_ptarray_add K fuel pa state ≠ Outcome.nofuel ∧
      ∀ pa1 s1, _lwgeom_tpsnap_ptarray_add K fuel pa state = Outcome.ret (pa1, s1) →
        state.iterate = true → addition_pass K pa1 s1 = some (false, pa1, s1) := by
  refine ⟨?_, ?_, ?_⟩
  · unfold addition_measure
    have h1 := List.length_filter_le (fun v => !is_vertex v pa) (candidate_pool state)
    have h2 := List.length_filter_le (can_split K pa) (candidate_pool state)
    have h3 := Nat.mul_le_mul_right ((candidate_pool state).length + 1) h1
    have h4 : ((candidate_pool state).length + 1) * ((candidate_pool state).length + 1) =
        (candidate_pool state).length * ((candidate_pool state).length + 1) +
          ((candidate_pool state).length + 1) := by ring
    omega
  · intro pa1 s1 h
    exact (addition_pass_lowers_measure K hK pa state hlen pa1 s1 h).1
  · intro fuel hfuel
    refine ⟨ptarray_add_terminates K hK fuel pa state hlen hfuel, ?_⟩
    intro pa1 s1 h hit
    exact (ptarray_add_ret K fuel pa state pa1 s1 h).2.2 hit

/-- Witness of C10, scenario S4 with `iterate = true` and the rational kernel:
the measure of the input line is 6, two passes report snapped, the third
reports no-snap, and the phase returns `[(0,0),(3,0.9),(7,0.5),(10,0)]`. -/
theorem C10_addition_phase_terminates_witness :
    exact_kernel K0 ∧ 2 ≤ S_line.length ∧
    addition_measure K0 (tpsnap_begin S_line (S4_state true)) S_line = 6 ∧
    _lwgeom_tpsnap_ptarray_add K0 7 S_line (tpsnap_begin S_line (S4_state true)) ≠
      Outcome.nofuel ∧
    (_lwgeom_tpsnap_ptarray_add K0 7 S_line (tpsnap_begin S_line (S4_state true))).points =
      some [pt 0 0, pt 3 0.9, pt 7 0.5, pt 10 0] :=
  ⟨exact_kernelQ _, by decide, by decide!,
    ((C10_addition_phase_terminates K0 (exact_kernelQ _) S_line
      (tpsnap_begin S_line (S4_state true)) (by decide)).2.2 7 (by decide!)).1,
    by decide!⟩

/-- C11 as stated fails: on the line `[(0,1),(10,1)]` with reference edges
`[(-100,0),(100,0)]` and `[(5,0),(5,-50)]`, `tolerance_snap = 1`,
`tolerance_removal = 0` and `iterate = true`, the Addition Phase inserts the
reference vertex `(5,0)`, the Removal Phase removes it again (the first edge
passes through it, inside its segment) and reports one removal, and the outer
loop starts over from the array and the state it started with.  The
processing does not return for any amount of fuel. -/
theorem C11_outer_loop_cycles :
    snap_view (addition_pass K0 cycle_line (tpsnap_begin cycle_line cycle_state)) =
      some (true, [pt 0 1, pt 5 0, pt 10 1]) ∧
    snap_view (addition_pass K0 [pt 0 1, pt 5 0, pt 10 1]
      (fetched (tpsnap_begin cycle_line cycle_state))) =
      some (false, [pt 0 1, pt 5 0, pt 10 1]) ∧
    (_lwgeom_tpsnap_ptarray_remove K0 [pt 0 1, pt 5 0, pt 10 1]
      (fetched (tpsnap_begin cycle_line cycle_state))).removal = some (1, cycle_line) ∧
    vertices_at_segment_ends (work_edges (tpsnap_begin cycle_line cycle_state)) = false ∧
    ∀ fuel : Nat, _lwgeom_tpsnap_ptarray K0 fuel cycle_line cycle_state = Outcome.nofuel := by
  have hA : snap_view (addition_pass K0 cycle_line (tpsnap_begin cycle_line cycle_state)) =
      some (true, [pt 0 1, pt 5 0, pt 10 1]) := by decide!
  have hB : snap_view (addition_pass K0 [pt 0 1, pt 5 0, pt 10 1]
      (fetched (tpsnap_begin cycle_line cycle_state))) =
      some (false, [pt 0 1, pt 5 0, pt 10 1]) := by decide!
  have hC : (_lwgeom_tpsnap_ptarray_remove K0 [pt 0 1, pt 5 0, pt 10 1]
      (fetched (tpsnap_begin cycle_line cycle_state))).removal = some (1, cycle_line) := by
    decide!
  refine ⟨hA, hB, hC, by decide!, ?_⟩
  have hA1 := addition_pass_of_view K0 _ _ _ _ hA
  have hB1 := addition_pass_of_view K0 _ _ _ _ hB
  have hC1 := ptarray_remove_of_view K0 _ _ _ _ hC
  rw [fetched_fetched] at hB1 hC1
  have hA2 : addition_pass K0 cycle_line (fetched (tpsnap_begin cycle_line cycle_state)) =
      some (true, [pt 0 1, pt 5 0, pt 10 1],
        fetched (tpsnap_begin cycle_line cycle_state)) := by
    rw [addition_pass_fetched]
    exact hA1
  have hit : (fetched (tpsnap_begin cycle_line cycle_state)).iterate = true := by
    rw [fetched_iterate]
    rfl
  have hrem : (fetched (tpsnap_begin cycle_line cycle_state)).tolerance_removal ≥ 0 := by
    rw [fetched_tolerance_removal]
    decide!
  -- the addition phase, from either state
  have hadd : ∀ (n : Nat) (s : lwgeom_tpsnap_state ℚ),
      addition_pass K0 cycle_line s =
        some (true, [pt 0 1, pt 5 0, pt 10 1],
          fetched (tpsnap_begin cycle_line cycle_state)) →
      _lwgeom_tpsnap_ptarray_add K0 n cycle_line s = Outcome.nofuel ∨
      _lwgeom_tpsnap_ptarray_add K0 n cycle_line s =
        Outcome.ret ([pt 0 1, pt 5 0, pt 10 1],
          fetched (tpsnap_begin cycle_line cycle_state)) := by
    intro n s hs
    match n with
    | 0 => exact Or.inl rfl
    | 1 =>
      left
      rw [_lwgeom_tpsnap_ptarray_add]
      simp only [hs, hit, Bool.and_self, if_true]
      rfl
    | n + 2 =>
      right
      rw [_lwgeom_tpsnap_ptarray_add]
      simp only [hs, hit, Bool.and_self, if_true]
      rw [_lwgeom_tpsnap_ptarray_add]
      simp only [hB1, Bool.false_and]
      rfl
  have hloop : ∀ (n fuel : Nat) (s : lwgeom_tpsnap_state ℚ),
      addition_pass K0 cycle_line s =
        some (true, [pt 0 1, pt 5 0, pt 10 1],
          fetched (tpsnap_begin cycle_line cycle_state)) →
      tpsnap_ptarray_loop K0 n fuel cycle_line s = Outcome.nofuel := by
    intro n fuel
    induction fuel with
    | zero =>
      intro s _
      rfl
    | succ f ih =>
      intro s hs
      rw [tpsnap_ptarray_loop]
      rcases hadd n s hs with h | h
      · rw [h]
      · rw [h]
        simp only [hrem, if_true, hC1, hit]
        exact ih _ hA2
  intro fuel
  rw [ptarray_process_unfold]
  exact hloop fuel fuel _ hA1

/-- C11 as amended: for a Geometry Kernel that keeps its contract in exact
arithmetic, a point array with at least two points and cached edges that have
at least two points each and do not pass through a vertex of a cached edge,
the processing of the point array terminates for every `tolerance_removal`
and either value of `iterate`: with more fuel than `(N + 1) * (N + 1)` plus
the number of points of the array that are not edge vertices, `N` being the
size of the candidate pool, it does not run out of fuel; and when it returns
with `iterate = true` and `tolerance_removal ≥ 0`, the last addition pass
reported no-snap and the last removal phase removed nothing. -/
theorem C11_outer_loop_terminates_on_planar_edges (K : Kernel α) (hK : exact_kernel K)
    (pa : POINTARRAY α) (state : lwgeom_tpsnap_state α) (hlen : 2 ≤ pa.length)
    (hwf : ∀ e ∈ work_edges (tpsnap_begin pa state), 2 ≤ e.geom.length)
    (hvalid : vertices_at_segment_ends (work_edges (tpsnap_begin pa state)) = true) :
    ∀ fuel,
      ((candidate_pool (tpsnap_begin pa state)).length + 1) *
          ((candidate_pool (tpsnap_begin pa state)).length + 1) +
        loose_vertices (work_edges (tpsnap_begin pa state)) pa < fuel →
      _lwgeom_tpsnap_ptarray K fuel pa state ≠ Outcome.nofuel ∧
      ∀ pa1 s1, _lwgeom_tpsnap_ptarray K fuel pa state = Outcome.ret (pa1, s1) →
        state.iterate = true → state.tolerance_removal ≥ 0 →
        addition_pass K pa1 s1 = some (false, pa1, s1) ∧
          _lwgeom_tpsnap_ptarray_remove K pa1 s1 = Outcome.ret (0, pa1, s1) := by
  intro fuel hfuel
  rw [ptarray_process_unfold]
  refine ⟨tpsnap_loop_terminates K hK fuel fuel pa (tpsnap_begin pa state) hlen hwf hvalid
    (by omega) (by omega), ?_⟩
  intro pa1 s1 h hit hrem
  obtain ⟨_, _, h3⟩ := tpsnap_ptarray_loop_ret K fuel fuel pa (tpsnap_begin pa state) pa1 s1 h
  obtain ⟨h4, h5⟩ := h3 hit
  exact ⟨h4, h5 hrem⟩

/-- Witness of the amended C11, scenario S5 with `iterate = true` and the
rational kernel: the edge `[(0,0),(10,0)]` passes through no vertex, the
bound is 11, and the run returns `[(0,0),(10,0)]`. -/
theorem C11_outer_loop_terminates_on_planar_edges_witness :
    exact_kernel K0 ∧ 2 ≤ S5_line.length ∧
    vertices_at_segment_ends (work_edges (tpsnap_begin S5_line S5_state)) = true ∧
    ((candidate_pool (tpsnap_begin S5_line S5_state)).length + 1) *
        ((candidate_pool (tpsnap_begin S5_line S5_state)).length + 1) +
      loose_vertices (work_edges (tpsnap_begin S5_line S5_state)) S5_line = 11 ∧
    _lwgeom_tpsnap_ptarray K0 12 S5_line S5_state ≠ Outcome.nofuel ∧
    (_lwgeom_tpsnap_ptarray K0 12 S5_line S5_state).points = some [pt 0 0, pt 10 0] :=
  ⟨exact_kernelQ _, by decide, by decide!, by decide!,
    ((C11_outer_loop_terminates_on_planar_edges K0 (exact_kernelQ _) S5_line S5_state
      (by decide) (by decide!) (by decide!)) 12 (by decide!)).1,
    by decide!⟩

/-- C12 (the code departs from the claim): for the MultiLineString of
`[(0,0),(10,0)]` and `[(100,0),(110,0)]` over the edges `[(5,0.5),(5,5)]` and
`[(105,0.5),(105,5)]` with `tolerance_snap = 1`, the edges fetched for the
first line stay cached: while the second line is processed the loops run over
the edge next to the first line, not over the Edge Store's answer for the
expanded work extent of the second line, which is the edge next to it.  The
second line comes back unchanged, while snapped on its own it gains the vertex
`(105,0.5)`; with the two lines in the other order it is the line
`[(0,0),(10,0)]` that comes back unchanged. -/
theorem C12_cache_kept_across_point_arrays :
    edges_consulted_after
        (_lwgeom_tpsnap_ptarray K0 3 S_line (tpsnap_state_init two_edges_topo 1 (-1) true))
        far_line = some [near_edge] ∧
    two_edges_topo.edges_within_box
        (gbox_expand (ptarray_calculate_gbox_cartesian far_line ⟨0, 0, 0, 0⟩) 1) =
      some [far_edge] ∧
    (lwt_tpsnap K0 3 two_edges_topo two_lines 1 (-1) true).lines =
      some [[pt 0 0, pt 5 0.5, pt 10 0], [pt 100 0, pt 110 0]] ∧
    (lwt_tpsnap K0 3 two_edges_topo (LWGEOM.LWLINE far_line) 1 (-1) true).lines =
      some [[pt 100 0, pt 105 0.5, pt 110 0]] ∧
    (lwt_tpsnap K0 3 two_edges_topo
        (LWGEOM.LWCOLLECTION LWCOLLECTION_TYPE.MULTILINETYPE
          [LWGEOM.LWLINE far_line, LWGEOM.LWLINE S_line]) 1 (-1) true).lines =
      some [[pt 100 0, pt 105 0.5, pt 110 0], [pt 0 0, pt 10 0]] := by
  refine ⟨by decide!, by decide!, by decide!, by decide!, by decide!⟩

/-- C13: with `iterate = false` and `tolerance_removal < 0` the processing of a
point array is one single addition pass: it ends after that pass (it needs no
more than one unit of fuel), and when it returns, its result is the input with
at most one point inserted, so the output has length `|P|` or `|P| + 1`. -/
theorem C13_at_most_one_insertion (K : Kernel α) (fuel : Nat) (pa : POINTARRAY α)
    (state : lwgeom_tpsnap_state α) (hit : state.iterate = false)
    (hrem : state.tolerance_removal < 0) :
    (_lwgeom_tpsnap_ptarray K (fuel + 1) pa state =
      match addition_pass K pa (tpsnap_begin pa state) with
      | none => Outcome.error
      | some (_, pa1, s1) => Outcome.ret (pa1, s1)) ∧
    _lwgeom_tpsnap_ptarray K (fuel + 1) pa state ≠ Outcome.nofuel ∧
    ∀ pa1 s1, _lwgeom_tpsnap_ptarray K (fuel + 1) pa state = Outcome.ret (pa1, s1) →
      (pa1 = pa ∨ ∃ c ∈ candidate_set K (tpsnap_begin pa state) pa
          (work_edges (tpsnap_begin pa state)), pa1 = insert_candidate pa c) ∧
      (pa1.length = pa.length ∨ pa1.length = pa.length + 1) := by
  have h0 : _lwgeom_tpsnap_ptarray K (fuel + 1) pa state =
      match addition_pass K pa (tpsnap_begin pa state) with
      | none => Outcome.error
      | some (_, pa1, s1) => Outcome.ret (pa1, s1) := by
    rw [ptarray_process_unfold,
      tpsnap_loop_no_removal K _ _ _ (tpsnap_begin pa state) hrem,
      ptarray_add_once K _ _ (tpsnap_begin pa state) hit]
  refine ⟨h0, ?_, ?_⟩
  · rw [h0]
    cases addition_pass K pa (tpsnap_begin pa state) with
    | none => simp
    | some t => simp
  · intro pa1 s1 h
    rw [h0] at h
    cases hp : addition_pass K pa (tpsnap_begin pa state) with
    | none => simp [hp] at h
    | some t =>
      obtain ⟨b, pa2, s2⟩ := t
      simp only [hp, Outcome.ret.injEq, Prod.mk.injEq] at h
      obtain ⟨rfl, rfl⟩ := h
      refine ⟨?_, (addition_pass_shape K pa _ b pa2 s2 hp).2⟩
      obtain ⟨_, _, hf, ht⟩ := addition_pass_some K pa _ b pa2 s2 hp
      cases b with
      | false => exact Or.inl (hf rfl)
      | true =>
        obtain ⟨c, hc, hc1, _, _⟩ := ht rfl
        exact Or.inr ⟨c, hc, hc1⟩

/-- Witness of C13, scenario S4 with `iterate = false`: of the two candidates
only `B = (7,0.5)` is inserted, the output has three points. -/
theorem C13_at_most_one_insertion_witness :
    (S4_state false).iterate = false ∧ (S4_state false).tolerance_removal < 0 ∧
    (_lwgeom_tpsnap_ptarray K0 1 S_line (S4_state false)).points =
      some [pt 0 0, pt 7 0.5, pt 10 0] ∧
    ∀ pa1 s1, _lwgeom_tpsnap_ptarray K0 (0 + 1) S_line (S4_state false) =
        Outcome.ret (pa1, s1) →
      pa1.length = S_line.length ∨ pa1.length = S_line.length + 1 :=
  ⟨rfl, by decide!, by decide!, fun pa1 s1 h =>
    ((C13_at_most_one_insertion K0 0 S_line (S4_state false) rfl (by decide!)).2.2
      pa1 s1 h).2⟩

/-- C14: over an empty reference topology (the Edge Store answers every box
with no edges) the entry point succeeds and returns the input geometry as it
was, for every geometry, both tolerances, either value of `iterate` and every
kernel, with one unit of fuel. -/
theorem C14_empty_topology_identity (K : Kernel α) (fuel : Nat) (topo : LWT_TOPOLOGY α)
    (g : LWGEOM α) (tolerance_snap tolerance_removal : α) (iterate : Bool)
    (hempty : ∀ box, topo.edges_within_box box = some []) :
    lwt_tpsnap K (fuel + 1) topo g tolerance_snap tolerance_removal iterate =
      Outcome.ret g := by
  rw [lwt_tpsnap_eq]
  obtain ⟨s1, h1, _⟩ := visit_lines_unchanged (_lwgeom_tpsnap_ptarray K (fuel + 1))
    (fun s => (∀ box, s.topo.edges_within_box box = some []) ∧ s.workedges = none)
    (fun pa s hs => by
      obtain ⟨s1, h1, h2, h3⟩ := ptarray_process_empty K fuel pa s hs.1 hs.2
      exact ⟨s1, h1, h2, h3⟩)
    g (tpsnap_state_init topo tolerance_snap tolerance_removal iterate) ⟨hempty, rfl⟩
  rw [h1]
  rfl

/-- Witness of C14, scenario S6: over the Edge Store without edges, with
`tolerance_snap = 1.0`, `tolerance_removal = 0.5` and `iterate = true`, the
collection of a point, a line, a polygon, nested collections and a triangle
comes back as it was. -/
theorem C14_empty_topology_identity_witness :
    (∀ box, (edge_store ([] : List (LWT_ISO_EDGE ℚ))).edges_within_box box = some []) ∧
    lwt_tpsnap K0 (0 + 1) (edge_store []) mixed_geom 1.0 0.5 true = Outcome.ret mixed_geom :=
  ⟨fun _ => rfl,
    C14_empty_topology_identity K0 0 (edge_store []) mixed_geom 1.0 0.5 true (fun _ => rfl)⟩

/-- C15 (the code departs from the claim): with `tolerance_snap = 2 * FLT_MAX`
and the line `[(0,0),(1,0)]`, the single candidate of the pass is the
reference vertex `(0, 2 * FLT_MAX)` with `segno = -1`: no segment is closer to
it than `FLT_MAX`, so the closest-segment search leaves its initial values.
The pass reports snapped for that candidate and the new array has the vertex
at index 0, before `P[0]`: `segno` is not in `0 .. |P|-2` and the vertex does
not sit between two formerly consecutive points. -/
theorem C15_snapped_with_segno_minus_one :
    qsort compare_snapv
        (candidate_set K_far (tpsnap_begin [pt 0 0, pt 1 0] far_state) [pt 0 0, pt 1 0]
          (work_edges (tpsnap_begin [pt 0 0, pt 1 0] far_state))) =
      [⟨⟨0, 2 * FLT_MAX_Q⟩, -1, FLT_MAX_Q⟩] ∧
    snap_view (_rt_snap_to_valid_vertex K_far [pt 0 0, pt 1 0]
        ⟨⟨0, 2 * FLT_MAX_Q⟩, -1, FLT_MAX_Q⟩ (tpsnap_begin [pt 0 0, pt 1 0] far_state)) =
      some (true, [pt 0 (2 * FLT_MAX_Q), pt 0 0, pt 1 0]) ∧
    snap_view (addition_pass K_far [pt 0 0, pt 1 0]
        (tpsnap_begin [pt 0 0, pt 1 0] far_state)) =
      some (true, [pt 0 (2 * FLT_MAX_Q), pt 0 0, pt 1 0]) ∧
    ¬ (0 : Int) ≤ (⟨⟨0, 2 * FLT_MAX_Q⟩, -1, FLT_MAX_Q⟩ : LWT_SNAPV ℚ).segno := by
  refine ⟨by decide!, by decide!, by decide!, by decide⟩

/-- C16: the entry point returns a geometry exactly when the visit, in order,
of the linear components of the input with the per-point-array processing
succeeds for every one of them; the geometry returned then holds the arrays
that processing returned and is otherwise the input.  When the processing of
a point array reports an error after the arrays before it succeeded, or more
generally when the visit of a first part of the components reports an error,
the entry point returns NULL (`error`) whatever arrays follow: they are not
processed and no partly snapped geometry is returned. -/
theorem C16_geometry_or_null (K : Kernel α) (fuel : Nat) (topo : LWT_TOPOLOGY α)
    (g : LWGEOM α) (tolerance_snap tolerance_removal : α) (iterate : Bool) :
    ((∃ g1, lwt_tpsnap K fuel topo g tolerance_snap tolerance_removal iterate =
        Outcome.ret g1) ↔
      ∃ out s1, visit_in_order (_lwgeom_tpsnap_ptarray K fuel) (linear_components g)
        (tpsnap_state_init topo tolerance_snap tolerance_removal iterate) =
        Outcome.ret (out, s1)) ∧
    (∀ g1, lwt_tpsnap K fuel topo g tolerance_snap tolerance_removal iterate =
        Outcome.ret g1 →
      (∃ s1, visit_in_order (_lwgeom_tpsnap_ptarray K fuel) (linear_components g)
        (tpsnap_state_init topo tolerance_snap tolerance_removal iterate) =
        Outcome.ret (linear_components g1, s1)) ∧
      unvisited_part g1 = unvisited_part g) ∧
    (∀ pre pa post out s1, linear_components g = pre ++ pa :: post →
      visit_in_order (_lwgeom_tpsnap_ptarray K fuel) pre
        (tpsnap_state_init topo tolerance_snap tolerance_removal iterate) =
        Outcome.ret (out, s1) →
      _lwgeom_tpsnap_ptarray K fuel pa s1 = Outcome.error →
      lwt_tpsnap K fuel topo g tolerance_snap tolerance_removal iterate = Outcome.error) ∧
    (∀ pre post, linear_components g = pre ++ post →
      (visit_in_order (_lwgeom_tpsnap_ptarray K fuel) pre
        (tpsnap_state_init topo tolerance_snap tolerance_removal iterate)).is_error = true →
      lwt_tpsnap K fuel topo g tolerance_snap tolerance_removal iterate = Outcome.error) := by
  have hspec := visit_lines_spec (_lwgeom_tpsnap_ptarray K fuel) g
    (tpsnap_state_init topo tolerance_snap tolerance_removal iterate)
  have hunv := visit_lines_unvisited (_lwgeom_tpsnap_ptarray K fuel) g
    (tpsnap_state_init topo tolerance_snap tolerance_removal iterate)
  have herr : visit_in_order (_lwgeom_tpsnap_ptarray K fuel) (linear_components g)
      (tpsnap_state_init topo tolerance_snap tolerance_removal iterate) = Outcome.error →
      lwt_tpsnap K fuel topo g tolerance_snap tolerance_removal iterate = Outcome.error := by
    intro h
    rw [lwt_tpsnap_eq]
    rw [h] at hspec
    cases hv : lwgeom_visit_lines (_lwgeom_tpsnap_ptarray K fuel) g
        (tpsnap_state_init topo tolerance_snap tolerance_removal iterate) with
    | error => rfl
    | nofuel => simp [hv, Outcome.map] at hspec
    | ret r => simp [hv, Outcome.map] at hspec
  rw [lwt_tpsnap_eq]
  refine ⟨?_, ?_, ?_, ?_⟩
  · constructor
    · rintro ⟨g1, h⟩
      cases hv : lwgeom_visit_lines (_lwgeom_tpsnap_ptarray K fuel) g
          (tpsnap_state_init topo tolerance_snap tolerance_removal iterate) with
      | error => simp [hv, Outcome.map] at h
      | nofuel => simp [hv, Outcome.map] at h
      | ret r =>
        rw [hv] at hspec
        exact ⟨_, _, hspec.symm⟩
    · rintro ⟨out, s1, h⟩
      rw [h] at hspec
      cases hv : lwgeom_visit_lines (_lwgeom_tpsnap_ptarray K fuel) g
          (tpsnap_state_init topo tolerance_snap tolerance_removal iterate) with
      | error => simp [hv, Outcome.map] at hspec
      | nofuel => simp [hv, Outcome.map] at hspec
      | ret r => exact ⟨r.1, rfl⟩
  · intro g1 h
    cases hv : lwgeom_visit_lines (_lwgeom_tpsnap_ptarray K fuel) g
        (tpsnap_state_init topo tolerance_snap tolerance_removal iterate) with
    | error => simp [hv, Outcome.map] at h
    | nofuel => simp [hv, Outcome.map] at h
    | ret r =>
      obtain ⟨g2, s2⟩ := r
      simp only [hv, Outcome.map, Outcome.ret.injEq] at h
      subst h
      rw [hv] at hspec
      exact ⟨⟨s2, hspec.symm⟩, hunv g2 s2 hv⟩
  · intro pre pa post out s1 hg hpre hpa
    rw [← lwt_tpsnap_eq]
    apply herr
    rw [hg]
    exact visit_in_order_error _ pre post pa _ s1 out hpre hpa
  · intro pre post hg hpre
    rw [← lwt_tpsnap_eq]
    apply herr
    rw [hg]
    exact visit_in_order_error_prefix _ pre post _ hpre

/-- Witness of C16: over an Edge Store that fails east of `x = 50`, the first
line of a MultiLineString of three is processed, the second reports the
backend error, and the entry point returns NULL; the first line alone gives a
geometry. -/
theorem C16_geometry_or_null_witness :
    linear_components three_lines = [S_line, far_line] ++ [third_line] ∧
    (visit_in_order (_lwgeom_tpsnap_ptarray K0 1) [S_line, far_line]
      (tpsnap_state_init flaky_topo 1 (-1) true)).is_error = true ∧
    (visit_in_order (_lwgeom_tpsnap_ptarray K0 1) [S_line]
      (tpsnap_state_init flaky_topo 1 (-1) true)).is_error = false ∧
    lwt_tpsnap K0 1 flaky_topo three_lines 1 (-1) true = Outcome.error ∧
    (lwt_tpsnap K0 1 flaky_topo (LWGEOM.LWLINE S_line) 1 (-1) true).lines =
      some [S_line] :=
  ⟨by decide!, by decide!, by decide!,
    (C16_geometry_or_null K0 1 flaky_topo three_lines 1 (-1) true).2.2.2
      [S_line, far_line] [third_line] (by decide!) (by decide!),
    by decide!⟩

/-- C17: `lwgeom_visit_lines` is the visit, in document order, of the linear
components of the geometry, which are the point arrays of the line-strings
and polygon rings reached through MultiLineString, MultiPolygon and
GeometryCollection nodes: same outcome, same user data, the returned geometry
holds the arrays the visitor returned and is otherwise the input.  For a
geometry without linear components the visitor is not called.  A geometry
whose leaves are neither line-strings nor polygons has none, and the entry
point returns it as it was for every topology, tolerance and kernel, whatever
the fuel. -/
theorem C17_visit_exactly_linear_components {σ : Type} (visitor : rtptarray_visitor α σ)
    (g : LWGEOM α) (s : σ) :
    (lwgeom_visit_lines visitor g s).map (fun r => (linear_components r.1, r.2)) =
      visit_in_order visitor (linear_components g) s ∧
    (∀ g1 s1, lwgeom_visit_lines visitor g s = Outcome.ret (g1, s1) →
      unvisited_part g1 = unvisited_part g) ∧
    (linear_components g = [] → lwgeom_visit_lines visitor g s = Outcome.ret (g, s)) ∧
    (has_linear_leaf g = false → linear_components g = []) ∧
    (has_linear_leaf g = false →
      ∀ (K : Kernel α) (fuel : Nat) (topo : LWT_TOPOLOGY α)
        (tolerance_snap tolerance_removal : α) (iterate : Bool),
        lwt_tpsnap K fuel topo g tolerance_snap tolerance_removal iterate =
          Outcome.ret g) := by
  refine ⟨visit_lines_spec visitor g s, visit_lines_unvisited visitor g s,
    visit_lines_none visitor g s, linear_components_of_no_leaf g, ?_⟩
  intro h K fuel topo ts tr it
  rw [lwt_tpsnap_eq, visit_lines_none _ g _ (linear_components_of_no_leaf g h)]
  rfl

/-- Witness of C17: the linear components of the mixed collection are the
line, the two rings and the nested line, in that order; the line inside the
MultiCurve and the triangle are not among them.  The collection of a Point
and a MultiPoint has no linear leaf, and snapping it over the topology of
scenario S1 returns it as it was. -/
theorem C17_visit_exactly_linear_components_witness :
    linear_components mixed_geom = [S_line, outer_ring, inner_ring, far_line] ∧
    (lwgeom_visit_lines (fun pa (log : List (POINTARRAY ℚ)) => Outcome.ret (pa, log ++ [pa]))
        mixed_geom []).map (fun r => (linear_components r.1, r.2)) =
      visit_in_order (fun pa (log : List (POINTARRAY ℚ)) => Outcome.ret (pa, log ++ [pa]))
        [S_line, outer_ring, inner_ring, far_line] [] ∧
    has_linear_leaf points_only = false ∧
    lwt_tpsnap K0 1 S1_state.topo points_only 1.0 (-1) true = Outcome.ret points_only :=
  ⟨by decide!,
    (C17_visit_exactly_linear_components
      (fun pa (log : List (POINTARRAY ℚ)) => Outcome.ret (pa, log ++ [pa]))
      mixed_geom []).1,
    by decide!,
    (C17_visit_exactly_linear_components
      (fun pa (log : List (POINTARRAY ℚ)) => Outcome.ret (pa, log ++ [pa]))
      points_only []).2.2.2.2 (by decide!) K0 1 S1_state.topo 1.0 (-1) true⟩

/-- C18: with `tolerance_removal < 0`, whatever `iterate` is, the processing of
a point array is exactly one addition phase: the body of the outer loop runs
once and the removal phase is not entered.  No vertex is removed: the input is
a subsequence of the output, which is at least as long. -/
theorem C18_removal_skipped (K : Kernel α) (fuel : Nat) (pa : POINTARRAY α)
    (state : lwgeom_tpsnap_state α) (hrem : state.tolerance_removal < 0) :
    _lwgeom_tpsnap_ptarray K (fuel + 1) pa state =
      _lwgeom_tpsnap_ptarray_add K (fuel + 1) pa (tpsnap_begin pa state) ∧
    ∀ pa1 s1, _lwgeom_tpsnap_ptarray K (fuel + 1) pa state = Outcome.ret (pa1, s1) →
      pa.Sublist pa1 ∧ pa.length ≤ pa1.length := by
  have h0 : _lwgeom_tpsnap_ptarray K (fuel + 1) pa state =
      _lwgeom_tpsnap_ptarray_add K (fuel + 1) pa (tpsnap_begin pa state) := by
    rw [ptarray_process_unfold,
      tpsnap_loop_no_removal K _ _ _ (tpsnap_begin pa state) hrem]
  refine ⟨h0, ?_⟩
  intro pa1 s1 h
  rw [h0] at h
  have hs := ptarray_add_sublist K _ _ _ _ _ h
  exact ⟨hs, hs.length_le⟩

/-- Witness of C18, scenario S4 with `iterate = true`: both candidates are
inserted by the one addition phase and the two input points are kept. -/
theorem C18_removal_skipped_witness :
    (S4_state true).tolerance_removal < 0 ∧
    (_lwgeom_tpsnap_ptarray K0 (3 + 1) S_line (S4_state true)).points =
      some [pt 0 0, pt 3 0.9, pt 7 0.5, pt 10 0] ∧
    _lwgeom_tpsnap_ptarray K0 (3 + 1) S_line (S4_state true) =
      _lwgeom_tpsnap_ptarray_add K0 (3 + 1) S_line (tpsnap_begin S_line (S4_state true)) :=
  ⟨by decide!, by decide!,
    (C18_removal_skipped K0 3 S_line (S4_state true) (by decide!)).1⟩

/-- C19: for a point array with at least two points whose segment distances
to `v` all exist and are below `FLT_MAX`, `_rt_find_closest_segment` succeeds;
the distance it reports is the distance of the reported segment and the
smallest of all segment distances, and the reported segment is the first one
at that distance: every earlier segment is strictly farther.  For an array
with fewer than two points it succeeds with `segno = -1`. -/
theorem C19_closest_segment_is_first_minimum (K : Kernel α) (v : POINT2D α)
    (pa : POINTARRAY α) (hlen : 2 ≤ pa.length)
    (hd : ∀ j, j + 1 < pa.length →
      ∃ d, segment_distance K v pa j = some d ∧ d < K.FLT_MAX) :
    (∃ (n : Nat) (dist : α),
      _rt_find_closest_segment K v pa = some ((n : Int), dist) ∧
      n + 1 < pa.length ∧
      segment_distance K v pa n = some dist ∧
      (∀ j d, segment_distance K v pa j = some d → dist ≤ d) ∧
      (∀ j d, j < n → segment_distance K v pa j = some d → dist < d)) ∧
    (∀ qa : POINTARRAY α, qa.length < 2 →
      _rt_find_closest_segment K v qa = some (-1, K.FLT_MAX)) := by
  constructor
  · match pa, hlen, hd with
    | p0 :: rest, hlen, hd =>
      have hnot : ¬ (p0 :: rest).length < 2 := by omega
      obtain ⟨r, hr, hcase⟩ := closest_segment_loop_min K v rest p0 0 (-1) K.FLT_MAX
        (fun k hk => (hd k hk).imp (fun d h => h.1))
      have hres : _rt_find_closest_segment K v (p0 :: rest) = some r := by
        unfold _rt_find_closest_segment
        rw [if_neg hnot]
        exact hr
      rcases hcase with ⟨_, hmin⟩ | ⟨n, hn1, hn2, hn3, _, hn5, hn6⟩
      · obtain ⟨d, hd1, hd2⟩ := hd 0 (by omega)
        exact absurd (hmin 0 d hd1) (not_le.2 hd2)
      · refine ⟨n, r.2, ?_, hn2, hn3, hn5, hn6⟩
        rw [hres]
        obtain ⟨r1, r2⟩ := r
        simp only [Nat.zero_add] at hn1
        simp only [hn1]
  · intro qa hq
    unfold _rt_find_closest_segment
    rw [if_pos hq]

/-- Witness of C19: the point `(5,1)` is at distance 1 from both segments of
`[(0,0),(5,0),(10,0)]`; the first of them, segment 0, is reported. -/
theorem C19_closest_segment_is_first_minimum_witness :
    segment_distance K0 ⟨5, 1⟩ [pt 0 0, pt 5 0, pt 10 0] 0 = some 1 ∧
    segment_distance K0 ⟨5, 1⟩ [pt 0 0, pt 5 0, pt 10 0] 1 = some 1 ∧
    _rt_find_closest_segment K0 ⟨5, 1⟩ [pt 0 0, pt 5 0, pt 10 0] = some (0, 1) ∧
    ∃ (n : Nat) (dist : ℚ),
      _rt_find_closest_segment K0 ⟨5, 1⟩ [pt 0 0, pt 5 0, pt 10 0] =
        some ((n : Int), dist) ∧
      n + 1 < ([pt 0 0, pt 5 0, pt 10 0] : POINTARRAY ℚ).length ∧
      segment_distance K0 ⟨5, 1⟩ [pt 0 0, pt 5 0, pt 10 0] n = some dist ∧
      (∀ j d, segment_distance K0 ⟨5, 1⟩ [pt 0 0, pt 5 0, pt 10 0] j = some d → dist ≤ d) ∧
      (∀ j d, j < n → segment_distance K0 ⟨5, 1⟩ [pt 0 0, pt 5 0, pt 10 0] j = some d →
        dist < d) :=
  ⟨by decide!, by decide!, by decide!,
    (C19_closest_segment_is_first_minimum K0 ⟨5, 1⟩ [pt 0 0, pt 5 0, pt 10 0]
      (by decide) (by
        intro j hj
        have hj2 : j < 2 := by
          simp only [List.length_cons, List.length_nil] at hj
          omega
        interval_cases j
        · exact ⟨1, by decide!, by decide!⟩
        · exact ⟨1, by decide!, by decide!⟩)).1⟩

/-- C20: for a candidate whose `segno = n` is a segment of the array, with
endpoints `sp1 = P[n]` and `sp2 = P[n+1]`: when the projection of the candidate
onto the segment is `sp1` or `sp2`, `_rt_snap_to_valid_vertex` reports no-snap
with the array and the state unchanged, whatever the covers predicate would
answer (it is not consulted, so its failure is not reported).  Otherwise, the
backend and the covers predicate not failing, it reports no-snap with the
array unchanged when a reference edge covers the segment, and it reports
snapped with the candidate inserted after `P[n]` when none does; so it reports
snapped exactly when the projection is neither endpoint and no edge covers the
segment. -/
theorem C20_snap_iff_not_endpoint_not_covered (K : Kernel α) (pa : POINTARRAY α)
    (v : LWT_SNAPV α) (state : lwgeom_tpsnap_state α) (n : Nat) (sp1 sp2 : POINT4D α)
    (hn : v.segno = (n : Int)) (h1 : pa.get? n = some sp1)
    (h2 : pa.get? (n + 1) = some sp2) :
    ((K.closest_point_on_segment ⟨v.pt.x, v.pt.y, 0, 0⟩ sp1 sp2 = sp1 ∨
        K.closest_point_on_segment ⟨v.pt.x, v.pt.y, 0, 0⟩ sp1 sp2 = sp2) →
      ∀ cov, _rt_snap_to_valid_vertex
        ⟨K.FLT_MAX, K.lw_dist2d_pt_seg, K.closest_point_on_segment, cov, K.unwritten⟩
        pa v state = some (false, pa, state)) ∧
    (backend_ok state →
      (∀ e ∈ work_edges state, ∀ p q, K.GEOSCovers e.geom p q ≠ none) →
      (covered_by K (work_edges state) sp1 sp2 = true →
        snap_view (_rt_snap_to_valid_vertex K pa v state) = some (false, pa)) ∧
      (K.closest_point_on_segment ⟨v.pt.x, v.pt.y, 0, 0⟩ sp1 sp2 ≠ sp1 →
        K.closest_point_on_segment ⟨v.pt.x, v.pt.y, 0, 0⟩ sp1 sp2 ≠ sp2 →
        covered_by K (work_edges state) sp1 sp2 = false →
        snap_view (_rt_snap_to_valid_vertex K pa v state) =
          some (true, pa.take (n + 1) ++ (⟨v.pt.x, v.pt.y, 0, 0⟩ : POINT4D α) ::
            pa.drop (n + 1))) ∧
      ((∃ pa1 st, _rt_snap_to_valid_vertex K pa v state = some (true, pa1, st)) ↔
        (K.closest_point_on_segment ⟨v.pt.x, v.pt.y, 0, 0⟩ sp1 sp2 ≠ sp1 ∧
          K.closest_point_on_segment ⟨v.pt.x, v.pt.y, 0, 0⟩ sp1 sp2 ≠ sp2 ∧
          covered_by K (work_edges state) sp1 sp2 = false))) := by
  have hcastn : v.segno + 1 = ((n + 1 : Nat) : Int) := by rw [hn]; push_cast; ring
  have hg1 : ∀ buf, getPoint4d_p pa v.segno buf = sp1 := by
    intro buf
    rw [hn]
    exact getPoint4d_p_of_get pa n sp1 buf h1
  have hg2 : ∀ buf, getPoint4d_p pa (v.segno + 1) buf = sp2 := by
    intro buf
    rw [hcastn]
    exact getPoint4d_p_of_get pa (n + 1) sp2 buf h2
  have hlen : n + 1 < pa.length := (List.get?_eq_some.1 h2).1
  have hveto : endpoint_veto K pa v =
      (decide (K.closest_point_on_segment ⟨v.pt.x, v.pt.y, 0, 0⟩ sp1 sp2 = sp1) ||
        decide (K.closest_point_on_segment ⟨v.pt.x, v.pt.y, 0, 0⟩ sp1 sp2 = sp2)) := by
    unfold endpoint_veto p4d_same
    simp only [hg1, hg2]
  have hins : insert_candidate pa v =
      pa.take (n + 1) ++ (⟨v.pt.x, v.pt.y, 0, 0⟩ : POINT4D α) :: pa.drop (n + 1) := by
    unfold insert_candidate
    rw [hcastn, Int.toNat_natCast]
  refine ⟨?_, ?_⟩
  · intro hproj cov
    apply snap_to_valid_vertex_endpoint
    unfold endpoint_veto p4d_same
    simp only [hg1, hg2]
    rcases hproj with h | h
    · simp [h]
    · simp [h]
  · intro hb hcov
    obtain ⟨st, _, hres⟩ := snap_to_valid_vertex_eq K pa v state hb hcov (by
      rw [hcastn, Int.toNat_natCast]
      omega)
    have hvalid : valid_candidate K pa (work_edges state) v =
        (!(decide (K.closest_point_on_segment ⟨v.pt.x, v.pt.y, 0, 0⟩ sp1 sp2 = sp1) ||
          decide (K.closest_point_on_segment ⟨v.pt.x, v.pt.y, 0, 0⟩ sp1 sp2 = sp2)) &&
          !covered_by K (work_edges state) sp1 sp2) := by
      unfold valid_candidate
      rw [hveto, hg1, hg2]
    rw [hres, hvalid, hins]
    refine ⟨?_, ?_, ?_⟩
    · intro hc
      simp [snap_view, hc]
    · intro hp1 hp2 hc
      simp [snap_view, hc, hp1, hp2]
    · constructor
      · rintro ⟨pa1, st1, h⟩
        simp only [Option.some.injEq, Prod.mk.injEq, Bool.and_eq_true, Bool.not_eq_true',
          Bool.or_eq_false_iff, decide_eq_false_iff_not] at h
        exact ⟨h.1.1.1, h.1.1.2, h.1.2⟩
      · rintro ⟨hp1, hp2, hc⟩
        exact ⟨pa.take (n + 1) ++ (⟨v.pt.x, v.pt.y, 0, 0⟩ : POINT4D α) :: pa.drop (n + 1),
          st, by simp [hc, hp1, hp2]⟩

/-- Witness of C20, scenarios S3 and S2.  In S3 the reference vertex `(0,0)`
projects onto the endpoint `(0,0)` of the input segment: no-snap.  In S2 the
reference vertex `(5,0)` projects inside the input segment, which the edge
`[(0,0),(10,0)]` covers: no-snap.  Both runs return the input unchanged. -/
theorem C20_snap_iff_not_endpoint_not_covered_witness :
    (_rt_snap_to_valid_vertex K0 S_line ⟨⟨0, 0⟩, 0, 0⟩ (tpsnap_begin S_line S3_state) =
      some (false, S_line, tpsnap_begin S_line S3_state)) ∧
    snap_view (_rt_snap_to_valid_vertex K0 S_line ⟨⟨5, 0⟩, 0, 0⟩
      (tpsnap_begin S_line S2_state)) = some (false, S_line) ∧
    (_lwgeom_tpsnap_ptarray K0 1 S_line S3_state).points = some S_line ∧
    (_lwgeom_tpsnap_ptarray K0 1 S_line S2_state).points = some S_line :=
  ⟨(C20_snap_iff_not_endpoint_not_covered K0 S_line ⟨⟨0, 0⟩, 0, 0⟩
      (tpsnap_begin S_line S3_state) 0 (pt 0 0) (pt 10 0) rfl rfl rfl).1
      (Or.inl (by decide!)) K0.GEOSCovers,
    ((C20_snap_iff_not_endpoint_not_covered K0 S_line ⟨⟨5, 0⟩, 0, 0⟩
      (tpsnap_begin S_line S2_state) 0 (pt 0 0) (pt 10 0) rfl rfl rfl).2
      (by unfold backend_ok; decide!)
      (fun e _ p q => kernelQ_covers_total _ _ _ _)).1 (by decide!),
    by decide!, by decide!⟩

/-- C21: for a state whose backend does not fail, `_rt_segment_covered`
answers over the cached edges as follows.  When the covers predicate fails on
no cached edge it returns 1 (`true`) if some cached edge covers the segment and
0 (`false`) otherwise.  When the predicate fails on an edge and no edge before
it in the list covers the segment, it returns -1 (`none`).  When an edge
covers the segment and the predicate answers "no" for the edges before it, it
returns 1 whatever the later edges are, also when the predicate would fail on
one of them. -/
theorem C21_segment_covered (K : Kernel α) (state : lwgeom_tpsnap_state α)
    (p1 p2 : POINT4D α) (hb : backend_ok state) :
    ((∀ e ∈ work_edges state, K.GEOSCovers e.geom p1 p2 ≠ none) →
      ((∃ e ∈ work_edges state, K.GEOSCovers e.geom p1 p2 = some true) →
        _rt_segment_covered K state p1 p2 = some (true, fetched state)) ∧
      ((¬ ∃ e ∈ work_edges state, K.GEOSCovers e.geom p1 p2 = some true) →
        _rt_segment_covered K state p1 p2 = some (false, fetched state))) ∧
    (∀ pre e post, work_edges state = pre ++ e :: post →
      (∀ e1 ∈ pre, K.GEOSCovers e1.geom p1 p2 ≠ some true) →
      K.GEOSCovers e.geom p1 p2 = none →
      _rt_segment_covered K state p1 p2 = none) ∧
    (∀ pre e post, work_edges state = pre ++ e :: post →
      (∀ e1 ∈ pre, K.GEOSCovers e1.geom p1 p2 = some false) →
      K.GEOSCovers e.geom p1 p2 = some true →
      _rt_segment_covered K state p1 p2 = some (true, fetched state)) := by
  refine ⟨?_, ?_, ?_⟩
  · intro hcov
    rw [rt_segment_covered_eq K state p1 p2 hb hcov]
    constructor
    · rintro ⟨e, he, hc⟩
      have : covered_by K (work_edges state) p1 p2 = true := by
        unfold covered_by
        rw [List.any_eq_true]
        exact ⟨e, he, by simp [hc]⟩
      rw [this]
    · intro hno
      have : covered_by K (work_edges state) p1 p2 = false := by
        rw [← Bool.not_eq_true]
        intro hc
        unfold covered_by at hc
        rw [List.any_eq_true] at hc
        obtain ⟨e, he, hc⟩ := hc
        exact hno ⟨e, he, by simpa using hc⟩
      rw [this]
  · intro pre e post hw hpre he
    rw [rt_segment_covered_loop K state p1 p2 hb, hw,
      segment_covered_loop_error K p1 p2 e post he pre hpre]
    rfl
  · intro pre e post hw hpre he
    rw [rt_segment_covered_loop K state p1 p2 hb, hw,
      segment_covered_loop_append K p1 p2 e post pre hpre, he]
    rfl

/-- Witness of C21, for the segment `(0,0)-(10,0)` and a predicate that fails
on the one-point edge line `[(3,1)]`.  With the edges `[(0,1),(10,1)]`,
`[(0,0),(10,0)]`, `[(3,1)]` the second edge covers the segment and the answer
is 1, the failing third edge not being reached; with the failing edge moved
before the covering one the answer is -1. -/
theorem C21_segment_covered_witness :
    _rt_segment_covered K_covers_fail (tpsnap_begin S_line cover_then_fail_state)
      (pt 0 0) (pt 10 0) =
      some (true, fetched (tpsnap_begin S_line cover_then_fail_state)) ∧
    _rt_segment_covered K_covers_fail (tpsnap_begin S_line fail_then_cover_state)
      (pt 0 0) (pt 10 0) = none :=
  ⟨(C21_segment_covered K_covers_fail (tpsnap_begin S_line cover_then_fail_state)
      (pt 0 0) (pt 10 0) (by unfold backend_ok; decide!)).2.2
      [mkEdge 1 [pt 0 1, pt 10 1]] (mkEdge 2 [pt 0 0, pt 10 0]) [mkEdge 3 [pt 3 1]]
      (by decide!) (by decide!) (by decide!),
    (C21_segment_covered K_covers_fail (tpsnap_begin S_line fail_then_cover_state)
      (pt 0 0) (pt 10 0) (by unfold backend_ok; decide!)).2.1
      [mkEdge 1 [pt 0 1, pt 10 1]] (mkEdge 3 [pt 3 1]) [mkEdge 2 [pt 0 0, pt 10 0]]
      (by decide!) (by decide!) (by decide!)⟩

/-- C22: whenever the Removal Phase succeeds on a point array `P`, the value
it returns is not negative and is the number of vertices it deleted, the
length of `P` before minus the length of `P` after; it returns 0 exactly when
it leaves `P` as it was. -/
theorem C22_removal_count (K : Kernel α) (pa pa1 : POINTARRAY α)
    (s s1 : lwgeom_tpsnap_state α) (r : Int)
    (h : _lwgeom_tpsnap_ptarray_remove K pa s = Outcome.ret (r, pa1, s1)) :
    0 ≤ r ∧ r = (pa.length : Int) - (pa1.length : Int) ∧ (r = 0 ↔ pa1 = pa) := by
  have hlen := ptarray_remove_length K pa s r pa1 s1 h
  obtain ⟨_, _, h0, hz⟩ := ptarray_remove_ret K pa s r pa1 s1 h
  refine ⟨h0, by linarith, hz, ?_⟩
  intro e
  rw [e] at hlen
  linarith

/-- Witness of C22, scenario S5: the Removal Phase on
`[(0,0),(3,0.1),(7,-0.2),(10,0)]` against the edge `[(0,0),(10,0)]` with
`tolerance_removal = 0.5` returns 2 with the array `[(0,0),(10,0)]`, two
points shorter; on `[(0,0),(10,0)]` it returns 0 and the array as it was. -/
theorem C22_removal_count_witness :
    _lwgeom_tpsnap_ptarray_remove K0 S5_line (tpsnap_begin S5_line S5_state) =
      Outcome.ret (2, [pt 0 0, pt 10 0], fetched (tpsnap_begin S5_line S5_state)) ∧
    _lwgeom_tpsnap_ptarray_remove K0 [pt 0 0, pt 10 0] (tpsnap_begin S5_line S5_state) =
      Outcome.ret (0, [pt 0 0, pt 10 0], fetched (tpsnap_begin S5_line S5_state)) ∧
    (0 : Int) ≤ 2 ∧
    (2 : Int) = ((S5_line.length : Nat) : Int) -
      ((([pt 0 0, pt 10 0] : POINTARRAY ℚ).length : Nat) : Int) ∧
    ((2 : Int) = 0 ↔ ([pt 0 0, pt 10 0] : POINTARRAY ℚ) = S5_line) := by
  have h1 : _lwgeom_tpsnap_ptarray_remove K0 S5_line (tpsnap_begin S5_line S5_state) =
      Outcome.ret (2, [pt 0 0, pt 10 0], fetched (tpsnap_begin S5_line S5_state)) :=
    ptarray_remove_of_view K0 _ _ _ _ (by decide!)
  have h2 : _lwgeom_tpsnap_ptarray_remove K0 [pt 0 0, pt 10 0]
      (tpsnap_begin S5_line S5_state) =
      Outcome.ret (0, [pt 0 0, pt 10 0], fetched (tpsnap_begin S5_line S5_state)) :=
    ptarray_remove_of_view K0 _ _ _ _ (by decide!)
  exact ⟨h1, h2, C22_removal_count K0 S5_line [pt 0 0, pt 10 0] _ _ 2 h1⟩

/-- C23: in the Removal Phase with `tolerance_removal` below `FLT_MAX`,
whenever the edge loop of a vertex iteration ends with `closest_segment_edge`
set (non-null), `closest_segment_number` was assigned in that same iteration
(the value the variable held before the loop does not show in the result): it
is the closest-segment index of a cached edge, the one `closest_segment_edge`
is the line of, and it is a segment index of that line,
`0 <= closest_segment_number <= npoints - 2`, so that the two segment endpoints
read for the projection are points of the line. -/
theorem C23_closest_segment_number_valid (K : Kernel α) (state : lwgeom_tpsnap_state α)
    (V : POINT2D α) (edges : List (LWT_ISO_EDGE α)) (cnum0 : Int)
    (epa : POINTARRAY α) (cnum : Int) (cdist : α)
    (htol : state.tolerance_removal < K.FLT_MAX)
    (h : closest_edge_loop K state V edges none cnum0 (state.tolerance_removal + 1) =
      some (some epa, cnum, cdist)) :
    (∀ c : Int, closest_edge_loop K state V edges none c (state.tolerance_removal + 1) =
      some (some epa, cnum, cdist)) ∧
    (∃ e ∈ edges, e.geom = epa ∧
      _rt_find_closest_segment K V e.geom = some (cnum, cdist)) ∧
    0 ≤ cnum ∧ cnum ≤ (epa.length : Int) - 2 ∧
    ∃ Ep1 Ep2, epa.get? cnum.toNat = some Ep1 ∧ epa.get? (cnum.toNat + 1) = some Ep2 ∧
      ∀ buf, getPoint4d_p epa cnum buf = Ep1 ∧ getPoint4d_p epa (cnum + 1) buf = Ep2 := by
  obtain ⟨hsrc, hle, _⟩ := closest_edge_loop_some K state V edges none cnum0
    (state.tolerance_removal + 1) epa cnum cdist h
  rcases hsrc with ⟨h0, _, _⟩ | ⟨e, he, hgeom, hcs, hd⟩
  · exact absurd h0 (by simp)
  · have hrange := find_closest_segment_range K V e.geom (cnum, cdist) hcs
    rcases hrange with hbad | ⟨h1, h2, _⟩
    · simp only [Prod.mk.injEq] at hbad
      rw [hbad.2] at hd
      exact absurd hd (not_le.2 htol)
    · simp only at h1 h2
      rw [hgeom] at h2
      have hn : ((cnum.toNat : Nat) : Int) = cnum := Int.toNat_of_nonneg h1
      have hlt1 : cnum.toNat < epa.length := by omega
      have hlt2 : cnum.toNat + 1 < epa.length := by omega
      refine ⟨fun c => closest_edge_loop_assigned K state V edges cnum0 c _ epa cnum cdist h,
        ⟨e, he, hgeom, hcs⟩, h1, by omega,
        epa.get ⟨cnum.toNat, hlt1⟩, epa.get ⟨cnum.toNat + 1, hlt2⟩,
        List.get?_eq_get hlt1, List.get?_eq_get hlt2, ?_⟩
      intro buf
      constructor
      · have hg := getPoint4d_p_of_get epa cnum.toNat _ buf (List.get?_eq_get hlt1)
        rw [hn] at hg
        exact hg
      · have hn1 : cnum + 1 = ((cnum.toNat + 1 : Nat) : Int) := by
          push_cast
          omega
        have hg := getPoint4d_p_of_get epa (cnum.toNat + 1) _ buf (List.get?_eq_get hlt2)
        rw [← hn1] at hg
        exact hg

/-- Witness of C23, scenario S5: for the vertex `(3,0.1)` and the edge
`[(0,0),(10,0)]` with `tolerance_removal = 0.5` the edge loop returns the edge
with segment number 0 at distance 0.1, whatever the variable held before, and
the endpoints read are `(0,0)` and `(10,0)`. -/
theorem C23_closest_segment_number_valid_witness :
    (tpsnap_begin S5_line S5_state).tolerance_removal < K0.FLT_MAX ∧
    (∀ c : Int, closest_edge_loop K0 (tpsnap_begin S5_line S5_state) ⟨3, 0.1⟩
        [mkEdge 1 [pt 0 0, pt 10 0]] none c
        ((tpsnap_begin S5_line S5_state).tolerance_removal + 1) =
      some (some [pt 0 0, pt 10 0], 0, 0.1)) ∧
    ∀ buf, getPoint4d_p [pt 0 0, pt 10 0] 0 buf = pt 0 0 ∧
      getPoint4d_p [pt 0 0, pt 10 0] (0 + 1) buf = pt 10 0 := by
  have hall := C23_closest_segment_number_valid K0 (tpsnap_begin S5_line S5_state) ⟨3, 0.1⟩
    [mkEdge 1 [pt 0 0, pt 10 0]] 7 [pt 0 0, pt 10 0] 0 0.1 (by decide!) (by decide!)
  refine ⟨by decide!, hall.1, ?_⟩
  intro buf
  exact ⟨rfl, rfl⟩

/-- C24 (the code departs from the claim): the work extent is not updated as
snapping occurs.  For the input line `[(0,0),(16,0)]`, the reference edge
`[(8,6),(-2,11)]` and `tolerance_snap = 10`, the work extent is
`[0,16] x [0,0]` and the expanded work extent `[-10,26] x [-10,10]`.  The first
addition pass inserts the reference vertex `(8,6)`, which lies outside the work
extent, and returns a state with the same two extents.  The reference vertex
`(-2,11)` is at distance 10 from the new segment `(0,0)-(8,6)`, but the next
pass, run from the state returned, still drops it as outside the expanded
work extent and finds nothing to insert; a pass on the same array from a
state whose extent covers `(8,6)` inserts it.  The whole run returns
`[(0,0),(8,6),(16,0)]`. -/
theorem C24_work_extent_not_updated :
    (tpsnap_begin grow_line grow_state).workext = ⟨0, 16, 0, 0⟩ ∧
    (tpsnap_begin grow_line grow_state).expanded_workext = ⟨-10, 26, -10, 10⟩ ∧
    (∃ st, addition_pass K0 grow_line (tpsnap_begin grow_line grow_state) =
        some (true, [pt 0 0, pt 8 6, pt 16 0], st) ∧
      st.workext = ⟨0, 16, 0, 0⟩ ∧
      st.expanded_workext = ⟨-10, 26, -10, 10⟩ ∧
      segment_distance K0 ⟨-2, 11⟩ [pt 0 0, pt 8 6, pt 16 0] 0 = some 10 ∧
      in_workext st ⟨-2, 11⟩ = false ∧
      snap_view (addition_pass K0 [pt 0 0, pt 8 6, pt 16 0] st) =
        some (false, [pt 0 0, pt 8 6, pt 16 0])) ∧
    (tpsnap_begin [pt 0 0, pt 8 6, pt 16 0] grow_state).workext = ⟨0, 16, 0, 6⟩ ∧
    snap_view (addition_pass K0 [pt 0 0, pt 8 6, pt 16 0]
        (tpsnap_begin [pt 0 0, pt 8 6, pt 16 0] grow_state)) =
      some (true, [pt 0 0, pt (-2) 11, pt 8 6, pt 16 0]) ∧
    (_lwgeom_tpsnap_ptarray K0 2 grow_line grow_state).points =
      some [pt 0 0, pt 8 6, pt 16 0] := by
  refine ⟨by decide!, by decide!,
    ⟨fetched (tpsnap_begin grow_line grow_state),
      addition_pass_of_view K0 _ _ _ _ (by decide!),
      by decide!, by decide!, by decide!, by decide!, by decide!⟩,
    by decide!, by decide!, by decide!⟩

/-- C26 (the code departs from the claim): with `tolerance_snap = 2 * FLT_MAX`
and the line `[(0,0),(1,0)]`, the first pass inserts the reference vertex
`(0, 2 * FLT_MAX)`, a candidate with `segno = -1`, at index 0 of the array.  In
the following pass, from the state returned, the only candidate is that vertex
again, at distance 0, with closest segment 0: the segment from the inserted
point (point 0 of the new array) to `(0,0)`.  The closest segment starts at the
inserted copy; no segment ends at it.  The candidate is rejected all the same
and the run ends with `[(0, 2 * FLT_MAX), (0,0), (1,0)]`. -/
theorem C26_closest_segment_starts_at_inserted_copy :
    (∃ st, addition_pass K_far [pt 0 0, pt 1 0]
          (tpsnap_begin [pt 0 0, pt 1 0] far_iterate_state) =
        some (true, [pt 0 (2 * FLT_MAX_Q), pt 0 0, pt 1 0], st) ∧
      candidate_set K_far st [pt 0 (2 * FLT_MAX_Q), pt 0 0, pt 1 0] (work_edges st) =
        [⟨⟨0, 2 * FLT_MAX_Q⟩, 0, 0⟩] ∧
      snap_view (addition_pass K_far [pt 0 (2 * FLT_MAX_Q), pt 0 0, pt 1 0] st) =
        some (false, [pt 0 (2 * FLT_MAX_Q), pt 0 0, pt 1 0])) ∧
    candidate_set K_far (tpsnap_begin [pt 0 0, pt 1 0] far_iterate_state) [pt 0 0, pt 1 0]
        (work_edges (tpsnap_begin [pt 0 0, pt 1 0] far_iterate_state)) =
      [⟨⟨0, 2 * FLT_MAX_Q⟩, -1, FLT_MAX_Q⟩] ∧
    ([pt 0 (2 * FLT_MAX_Q), pt 0 0, pt 1 0] : POINTARRAY ℚ).get? 0 =
      some (pt 0 (2 * FLT_MAX_Q)) ∧
    ([pt 0 (2 * FLT_MAX_Q), pt 0 0, pt 1 0] : POINTARRAY ℚ).get? (0 + 1) ≠
      some (pt 0 (2 * FLT_MAX_Q)) ∧
    endpoint_veto K_far [pt 0 (2 * FLT_MAX_Q), pt 0 0, pt 1 0]
      ⟨⟨0, 2 * FLT_MAX_Q⟩, 0, 0⟩ = true ∧
    (_lwgeom_tpsnap_ptarray K_far 2 [pt 0 0, pt 1 0] far_iterate_state).points =
      some [pt 0 (2 * FLT_MAX_Q), pt 0 0, pt 1 0] := by
  refine ⟨⟨fetched (tpsnap_begin [pt 0 0, pt 1 0] far_iterate_state),
      addition_pass_of_view K_far _ _ _ _ (by decide!), by decide!, by decide!⟩,
    by decide!, by decide!, by decide!, by decide!, by decide!⟩

end Claims

/-! # The claims on the Geobuf encoder -/

section GeobufClaims

open Geobuf

variable {α : Type} [LinearOrderedField α] [FloorRing α]

/-- C28 (the code departs from the claim): `set_int_value` passes the 64-bit
`intval` through `abs`, a function of `int`.  For `intval = -4294967297`
(`-2^32 - 1`, a value of an `int8` column) the argument is truncated to `-1`
and the value is tagged negative with `neg_int_value = 1`, the encoding of
`-1`; `intval = -4294967296` is stored as negative with magnitude 0.  The tag
and the magnitude do not determine `intval`. -/
theorem C28_magnitude_truncated_to_32_bits :
    set_int_value (-4294967297) = Data__Value.VALUE_TYPE_NEG_INT_VALUE 1 ∧
    set_int_value (-1) = Data__Value.VALUE_TYPE_NEG_INT_VALUE 1 ∧
    int_of_value (set_int_value (-4294967297)) = some (-1) ∧
    set_int_value (-4294967296) = Data__Value.VALUE_TYPE_NEG_INT_VALUE 0 ∧
    (-(2 : Int) ^ 63 ≤ -4294967297 ∧ (-4294967297 : Int) < 0) ∧
    set_int_value 4294967297 = Data__Value.VALUE_TYPE_POS_INT_VALUE 4294967297 := by
  refine ⟨by decide, by decide, by decide, by decide, by decide, by decide⟩

/-- C29 (the code departs from the claim): with the dimension count not yet
fixed, `encode_feature` sets it to 2 for a geometry with neither Z nor M and
to 3 for one with Z alone or M alone, but also to 3 for a geometry with both Z
and M (flags `3`): the test for "Z or M" comes first and the branch that
assigns 4 is never taken.  And `encode_coords` with `dimensions = 4` writes
three values per point (x, y, m): on two points it fills 6 of the 8 cells it
allocates, while `encode_line` records `n_coords = 8`. -/
theorem C29_dimensions_of_a_zm_geometry :
    (lwflags.FLAGS_GET_Z 3 = 1 ∧ lwflags.FLAGS_GET_M 3 = 1) ∧
    (encode_feature lwflags LWLINE.flags
      (fun c (l : LWLINE ℚ) => encode_line c l ⟨0, 0, 0, 0⟩) ⟨1, false, 2⟩
      ⟨3, [⟨1, 2, 3, 4⟩, ⟨5, 6, 7, 8⟩]⟩).1 = ⟨1, true, 3⟩ ∧
    (encode_feature lwflags LWLINE.flags
      (fun c (l : LWLINE ℚ) => encode_line c l ⟨0, 0, 0, 0⟩) ⟨1, false, 2⟩
      ⟨3, [⟨1, 2, 3, 4⟩, ⟨5, 6, 7, 8⟩]⟩).2 =
      ⟨Data__Geometry__Type.LINESTRING, 6, [some 1, some 2, some 3, some 4, some 4, some 4]⟩ ∧
    (encode_feature lwflags LWLINE.flags
      (fun c (l : LWLINE ℚ) => encode_line c l ⟨0, 0, 0, 0⟩) ⟨1, false, 2⟩
      ⟨0, [⟨1, 2, 0, 0⟩]⟩).1.dimensions = 2 ∧
    (encode_feature lwflags LWLINE.flags
      (fun c (l : LWLINE ℚ) => encode_line c l ⟨0, 0, 0, 0⟩) ⟨1, false, 2⟩
      ⟨1, [⟨1, 2, 3, 0⟩]⟩).1.dimensions = 3 ∧
    (encode_feature lwflags LWLINE.flags
      (fun c (l : LWLINE ℚ) => encode_line c l ⟨0, 0, 0, 0⟩) ⟨1, false, 2⟩
      ⟨2, [⟨1, 2, 0, 4⟩]⟩).1.dimensions = 3 ∧
    encode_coords (⟨1, true, 4⟩ : Context)
        ([⟨1, 2, 3, 4⟩, ⟨5, 6, 7, 8⟩] : POINTARRAY ℚ) [] 2 0 ⟨0, 0, 0, 0⟩ =
      [some 1, some 2, some 4, some 4, some 4, some 4, none, none] ∧
    (encode_line (⟨1, true, 4⟩ : Context)
      (⟨3, [⟨1, 2, 3, 4⟩, ⟨5, 6, 7, 8⟩]⟩ : LWLINE ℚ) ⟨0, 0, 0, 0⟩).n_coords = 8 := by
  refine ⟨by decide, by decide!, by decide!, by decide!, by decide!, by decide!,
    by decide!, by decide!⟩

end GeobufClaims

end TopoSnap
